import Mathlib

/-!
# BioKey native engine: `calculate_distance`

Shallow embedding of `src/native-engine/src/biometric_math.c`.

The C function works on `float` values.  The embedding models them as IEEE 754
binary32 data (round to nearest, ties to even; one NaN, payloads ignored), each
C operation being rounded on its own (`FLT_EVAL_METHOD == 0`).  `sqrt` is the
`double` function of `<math.h>`: its argument is promoted to binary64, the
correctly rounded binary64 square root is taken, and the `return` converts the
result back to binary32.

C lets a compiler contract `sum += diff * diff` into one fused multiply-add, and
the source does not forbid it.  `calculate_distance` is the function compiled
without contraction (the square is rounded, then the sum), and
`calculate_distance_fused` the function compiled with it (the sum is rounded
once).  The two return different data on some inputs; the properties that
depend on how the sum is rounded are stated for both.  The one NaN of the model
stands for every NaN: the C comparison `==`, which is false on NaN, is `feq`,
not the equality of data.

The two `float*` parameters are modelled as the lists of the elements that may
be read through them; reading at an index outside the list is the undefined
behaviour of the C program and is reported as a distinct outcome.  The `int`
parameter `length` is an integer of either sign.

The file has three layers: the binary32 operations and the function itself; the
facts about rounding that the properties need (signs, exact cases, underflow,
NaN, scaling by powers of two, integer data, monotonicity); and the properties
stated by the specification, each confirmed or amended.
-/

namespace BioKey

/-! ## Binary32 data -/

/-- One IEEE 754 binary32 datum.  For a finite datum `k` is the 31-bit magnitude
field (biased exponent in bits 30..23, fraction in bits 22..0), so that
`k < 0x7F800000 = 2139095040`. -/
inductive F32 where
  | nan : F32
  | inf (neg : Bool) : F32
  | fin (neg : Bool) (k : Fin 2139095040) : F32
  deriving DecidableEq

namespace F32

/-- Positive zero, the value of the literal `0.0` converted to `float`. -/
def zero : F32 := fin false 0

/-- Integer significand of the finite datum with magnitude field `k`. -/
def mant (k : Nat) : Nat :=
  if k / 2 ^ 23 = 0 then k % 2 ^ 23 else 2 ^ 23 + k % 2 ^ 23

/-- Exponent of the unit in the last place of the finite datum with magnitude
field `k`: the datum has magnitude `mant k * 2 ^ expo k`. -/
def expo (k : Nat) : Int :=
  if k / 2 ^ 23 = 0 then -149 else (k / 2 ^ 23 : Nat) - 150

/-- Number of binary digits of `m`, counted by halving at most `fuel` times. -/
def bitLengthAux : Nat → Nat → Nat
  | 0, _ => 0
  | fuel + 1, m => if m = 0 then 0 else bitLengthAux fuel (m / 2) + 1

/-- Number of binary digits of `m`. -/
def bitLength (m : Nat) : Nat := bitLengthAux m m

/-- The integer nearest to `m / 2 ^ s`, ties going to the even one. -/
def shiftRoundNE (m s : Nat) : Nat :=
  let q := m / 2 ^ s
  let r := m % 2 ^ s
  if 2 * r < 2 ^ s then q
  else if 2 * r = 2 ^ s then (if q % 2 = 0 then q else q + 1)
  else q + 1

/-- Round the dyadic number `m * 2 ^ e` to nearest-even in the format with
`p` digits of precision and least quantum `2 ^ qmin`; the result `(M, q)`
stands for `M * 2 ^ q` with `M ≤ 2 ^ p` and `qmin ≤ q`. -/
def roundDyadic (p : Nat) (qmin : Int) (m : Nat) (e : Int) : Nat × Int :=
  let q := max (e + (bitLength m : Nat) - (p : Nat)) qmin
  if q ≤ e then (m * 2 ^ (e - q).toNat, q)
  else (shiftRoundNE m (q - e).toNat, q)

/-- Pack a rounded significand and quantum exponent into a binary32 datum;
magnitudes from `2 ^ 128` on overflow to infinity. -/
def encode (neg : Bool) (M : Nat) (q : Int) : F32 :=
  let k := if M < 2 ^ 23 then M else (q + 150).toNat * 2 ^ 23 + (M - 2 ^ 23)
  if h : k < 2139095040 then fin neg ⟨k, h⟩ else inf neg

/-- Round the number `(-1) ^ neg * m * 2 ^ e` to binary32. -/
def round (neg : Bool) (m : Nat) (e : Int) : F32 :=
  let r := roundDyadic 24 (-149) m e
  encode neg r.1 r.2

/-- The integer `m` with the sign `neg`. -/
def signed (neg : Bool) (m : Nat) : Int :=
  if neg then -(m : Int) else (m : Int)

/-- Unary minus. -/
def fneg : F32 → F32
  | nan => nan
  | inf s => inf (!s)
  | fin s k => fin (!s) k

/-- Binary32 addition. -/
def fadd : F32 → F32 → F32
  | nan, _ => nan
  | _, nan => nan
  | inf s, inf t => if s = t then inf s else nan
  | inf s, fin _ _ => inf s
  | fin _ _, inf t => inf t
  | fin s1 k1, fin s2 k2 =>
    let q := min (expo k1) (expo k2)
    let v1 := signed s1 (mant k1 * 2 ^ (expo k1 - q).toNat)
    let v2 := signed s2 (mant k2 * 2 ^ (expo k2 - q).toNat)
    let v := v1 + v2
    if v = 0 then fin (s1 && s2) 0 else round (decide (v < 0)) v.natAbs q

/-- Binary32 subtraction, `a - b`. -/
def fsub (a b : F32) : F32 := fadd a (fneg b)

/-- Binary32 multiplication. -/
def fmul : F32 → F32 → F32
  | nan, _ => nan
  | _, nan => nan
  | inf s, inf t => inf (xor s t)
  | inf s, fin t k => if k.val = 0 then nan else inf (xor s t)
  | fin s k, inf t => if k.val = 0 then nan else inf (xor s t)
  | fin s1 k1, fin s2 k2 =>
    round (xor s1 s2) (mant k1 * mant k2) (expo k1 + expo k2)

/-- Digit-by-digit integer square root: bits `b-1 .. 0` are decided in turn. -/
def isqrtAux (n : Nat) : Nat → Nat → Nat
  | 0, r => r
  | b + 1, r => isqrtAux n b (if (r + 2 ^ b) * (r + 2 ^ b) ≤ n then r + 2 ^ b else r)

/-- Integer square root, the largest `r` with `r * r ≤ n`. -/
def isqrt (n : Nat) : Nat := isqrtAux n (bitLength n / 2 + 1) 0

/-- A dyadic number `(m', e')` of at least 57 digits whose rounding to at most
55 digits is the rounding of the square root of `m * 2 ^ e` (`0 < m`): the
integer square root of a scaled significand, followed by a sticky digit. -/
def sqrtDyadic (m : Nat) (e : Int) : Nat × Int :=
  let par := e.natAbs % 2
  let n := m * 2 ^ (110 + par)
  let r := isqrt n
  let sticky := if r * r = n then 0 else 1
  (2 * r + sticky, (e - (par : Nat) - 110) / 2 - 1)

/-- The C expression `(float) sqrt((double) x)`. -/
def fsqrt : F32 → F32
  | nan => nan
  | inf s => if s then nan else inf false
  | fin s k =>
    if k.val = 0 then fin s k
    else if s then nan
    else
      let a := sqrtDyadic (mant k) (expo k)
      let d := roundDyadic 53 (-1074) a.1 a.2
      round false d.1 d.2

/-- The fused multiply-add `a * b + c` of C (`fmaf`): the exact product is added
to `c` and the sum is rounded once.  When `a` or `b` is not finite the product
is exact as computed by `fmul`. -/
def ffma (a b c : F32) : F32 :=
  match a, b with
  | fin s1 k1, fin s2 k2 =>
    match c with
    | nan => nan
    | inf t => inf t
    | fin s3 k3 =>
      let e := expo k1 + expo k2
      let q := min e (expo k3)
      let v1 := signed (xor s1 s2) (mant k1 * mant k2 * 2 ^ (e - q).toNat)
      let v2 := signed s3 (mant k3 * 2 ^ (expo k3 - q).toNat)
      let v := v1 + v2
      if v = 0 then fin (xor s1 s2 && s3) 0 else round (decide (v < 0)) v.natAbs q
  | _, _ => fadd (fmul a b) c

/-- The binary32 rounding of the binary64 square root of `m * 2 ^ e`, `0 < m`. -/
def sqrtRound (m : Nat) (e : Int) : F32 :=
  round false (roundDyadic 53 (-1074) (sqrtDyadic m e).1 (sqrtDyadic m e).2).1
    (roundDyadic 53 (-1074) (sqrtDyadic m e).1 (sqrtDyadic m e).2).2

/-- The C comparison `a <= b`. -/
def fle : F32 → F32 → Bool
  | nan, _ => false
  | _, nan => false
  | inf s, inf t => s || !t
  | inf s, fin _ _ => s
  | fin _ _, inf t => !t
  | fin s1 k1, fin s2 k2 => decide (signed s1 k1 ≤ signed s2 k2)

/-- The C comparison `a == b`. -/
def feq : F32 → F32 → Bool
  | nan, _ => false
  | _, nan => false
  | inf s, inf t => s == t
  | inf _, fin _ _ => false
  | fin _ _, inf _ => false
  | fin s1 k1, fin s2 k2 => decide (signed s1 k1 = signed s2 k2)

/-- Finite data: neither NaN nor an infinity. -/
def isFinite : F32 → Bool
  | fin _ _ => true
  | _ => false

/-- The datum with the given 32-bit pattern. -/
def ofBits (b : Nat) : F32 :=
  let k := b % 2 ^ 31
  let neg := decide (b / 2 ^ 31 % 2 = 1)
  if h : k < 2139095040 then fin neg ⟨k, h⟩
  else if k = 2139095040 then inf neg else nan

/-- The binary32 datum nearest to the integer `z`. -/
def ofInt (z : Int) : F32 := round (decide (z < 0)) z.natAbs 0

/-- Sign bit clear on a datum that is not NaN: `+0`, a positive finite datum
or `+∞`. -/
def nonneg : F32 → Bool
  | nan => false
  | inf s => !s
  | fin s _ => !s

/-- The C function `fabsf`: the sign bit is cleared. -/
def fabs : F32 → F32
  | nan => nan
  | inf _ => inf false
  | fin _ k => fin false k

/-- The datum `x` is exactly the integer `z`; both zeros stand for `0`. -/
def isInt (x : F32) (z : Int) : Bool :=
  match x with
  | fin s k => decide (expo k ≤ 0 ∧ signed s (mant k) = z * 2 ^ (-expo k).toNat)
  | _ => false

/-- The power of two `2 ^ j` as a binary32 datum (exact for `-149 ≤ j ≤ 127`). -/
def pow2 (j : Int) : F32 := round false 1 j

/-- The datum `x` is zero, or it is a normal number that stays a normal number
when multiplied by `2 ^ c`, both away from the ends of the normal range: its
biased exponent `E` satisfies `2 ≤ E`, `2 ≤ E + c` and `E + c ≤ 253`. -/
def safe (c : Int) (x : F32) : Bool :=
  match x with
  | fin _ k =>
    decide (k.val = 0 ∨
      (2 ≤ k.val / 2 ^ 23 ∧ 2 ≤ ((k.val / 2 ^ 23 : Nat) : Int) + c ∧
        ((k.val / 2 ^ 23 : Nat) : Int) + c ≤ 253))
  | _ => false

/-- The datum `y` is `x * 2 ^ c`, exactly: both are the same zero, or they are
finite data that are not zero, with the same sign and significand and with
exponents `c` apart. -/
def scaled (c : Int) (x y : F32) : Bool :=
  match x, y with
  | fin s k, fin t l =>
    decide (s = t ∧ ((k.val = 0 ∧ l.val = 0) ∨
      (k.val ≠ 0 ∧ l.val ≠ 0 ∧ mant l = mant k ∧ expo l = expo k + c)))
  | _, _ => false

/-- A pair of elements whose difference is NaN: one of them is NaN, or they are
infinities of the same sign. -/
def nanPair : F32 → F32 → Bool
  | nan, _ => true
  | _, nan => true
  | inf s, inf t => s == t
  | _, _ => false

/-- Zero of either sign. -/
def isZero : F32 → Bool
  | fin _ k => decide (k.val = 0)
  | _ => false

/-- Zero, or of magnitude at least `2 ^ -63`: the square of such a datum is zero or
at least `2 ^ -126` and does not underflow, nor does its product with another
such datum. -/
def sqSafe (x : F32) : Bool := isZero x || fle (pow2 (-63)) (fabs x)

/-- The product `k * a` is finite and exact: the binary32 product of the two
finite data has the value of the exact product. -/
def exactMul (k a : F32) : Bool :=
  match k, a, fmul k a with
  | fin _ k1, fin _ k2, fin _ l =>
    let e := expo k1 + expo k2
    let q := min (expo l) e
    decide (mant l * 2 ^ (expo l - q).toNat = mant k1 * mant k2 * 2 ^ (e - q).toNat)
  | _, _, _ => false

/-- The rational value of a finite datum (`0` for NaN and the infinities). -/
def toRat : F32 → ℚ
  | fin s k => (if s then -1 else 1) * (mant k : ℚ) * 2 ^ expo k
  | _ => 0

end F32

open F32

/-! ## The function -/

/-- What a call of `calculate_distance` does: it returns a `float`, or it reads
one of its arrays at an index `i` outside the array (undefined behaviour in C),
or the iteration budget of the model is exhausted. -/
inductive Outcome where
  | value (r : F32) : Outcome
  | outOfBounds (i : Nat) : Outcome
  | outOfFuel : Outcome
  deriving DecidableEq

/-- A run of the function: its outcome and the number of array elements read. -/
structure Run where
  outcome : Outcome
  reads : Nat
  deriving DecidableEq

/-- The `for` loop, from the state `i`, `sum` on, with `reads` elements read so
far.  Each iteration tests `i < length`, reads `attempt[i]` and `profile[i]`
(C leaves the order of the two reads open; here `attempt[i]` comes first), and
adds the squared difference to `sum`; on exit `sqrt(sum)` is returned.  `fuel`
bounds the number of iterations; `i++` cannot overflow, `i` being below
`length`. -/
def loop (attempt profile : List F32) (length : Int) :
    Nat → Int → F32 → Nat → Run
  | fuel, i, sum, reads =>
    if i < length then
      match fuel with
      | 0 => ⟨.outOfFuel, reads⟩
      | fuel + 1 =>
        match attempt[i.toNat]? with
        | none => ⟨.outOfBounds i.toNat, reads⟩
        | some a =>
          match profile[i.toNat]? with
          | none => ⟨.outOfBounds i.toNat, reads + 1⟩
          | some p =>
            let diff := fsub a p
            loop attempt profile length fuel (i + 1) (fadd sum (fmul diff diff)) (reads + 2)
    else ⟨.value (fsqrt sum), reads⟩

/-- The run of `calculate_distance(attempt, profile, length)`: `sum = 0.0`, then
the loop from `i = 0`.  The loop is entered at most `length` times. -/
def calculate_distance_run (attempt profile : List F32) (length : Int) : Run :=
  loop attempt profile length length.toNat 0 F32.zero 0

/-- The outcome of `calculate_distance(attempt, profile, length)`. -/
def calculate_distance (attempt profile : List F32) (length : Int) : Outcome :=
  (calculate_distance_run attempt profile length).outcome

/-- The `for` loop as compiled with the statement `sum += diff * diff` contracted
into one fused multiply-add: the square is not rounded before it is added.
Everything else is as in `loop`. -/
def loop_fused (attempt profile : List F32) (length : Int) :
    Nat → Int → F32 → Nat → Run
  | fuel, i, sum, reads =>
    if i < length then
      match fuel with
      | 0 => ⟨.outOfFuel, reads⟩
      | fuel + 1 =>
        match attempt[i.toNat]? with
        | none => ⟨.outOfBounds i.toNat, reads⟩
        | some a =>
          match profile[i.toNat]? with
          | none => ⟨.outOfBounds i.toNat, reads + 1⟩
          | some p =>
            let diff := fsub a p
            loop_fused attempt profile length fuel (i + 1) (ffma diff diff sum) (reads + 2)
    else ⟨.value (fsqrt sum), reads⟩

/-- The run of `calculate_distance(attempt, profile, length)` in a build that
contracts `sum += diff * diff`. -/
def calculate_distance_fused_run (attempt profile : List F32) (length : Int) : Run :=
  loop_fused attempt profile length length.toNat 0 F32.zero 0

/-- The outcome of `calculate_distance(attempt, profile, length)` in a build that
contracts `sum += diff * diff`. -/
def calculate_distance_fused (attempt profile : List F32) (length : Int) : Outcome :=
  (calculate_distance_fused_run attempt profile length).outcome

/-! ## The algorithm as the specification words it -/

/-- The term one index contributes: `diff = a - p`, then `diff * diff`. -/
def sqDiff (a p : F32) : F32 := fmul (fsub a p) (fsub a p)

/-- The accumulator after the indices `j, j+1, .., j+count-1`, started at
`sum`. -/
def accFrom (attempt profile : List F32) (sum : F32) (j count : Nat) : F32 :=
  (List.range' j count).foldl
    (fun acc i => fadd acc (sqDiff (attempt.getD i nan) (profile.getD i nan))) sum

/-- The accumulator of the specification: initialised to `0`, then for each
index `i` from `0` to `n - 1` the squared difference is added. -/
def accumulate (attempt profile : List F32) (n : Nat) : F32 :=
  (List.range n).foldl
    (fun acc i => fadd acc (sqDiff (attempt.getD i nan) (profile.getD i nan))) zero

/-- The distance of the specification: the square root of the accumulator. -/
def distance (attempt profile : List F32) (n : Nat) : F32 :=
  fsqrt (accumulate attempt profile n)

/-- The accumulator of the contracted build after the indices `j, .., j+count-1`,
started at `sum`. -/
def accFrom_fused (attempt profile : List F32) (sum : F32) (j count : Nat) : F32 :=
  (List.range' j count).foldl
    (fun acc i => ffma (fsub (attempt.getD i nan) (profile.getD i nan))
      (fsub (attempt.getD i nan) (profile.getD i nan)) acc) sum

/-- The accumulator of the contracted build: each step is one fused
multiply-add `diff * diff + sum`. -/
def accumulate_fused (attempt profile : List F32) (n : Nat) : F32 :=
  (List.range n).foldl
    (fun acc i => ffma (fsub (attempt.getD i nan) (profile.getD i nan))
      (fsub (attempt.getD i nan) (profile.getD i nan)) acc) zero

/-- The distance as the contracted build computes it. -/
def distance_fused (attempt profile : List F32) (n : Nat) : F32 :=
  fsqrt (accumulate_fused attempt profile n)

/-- The vector `k * v`, each product rounded to binary32. -/
def scale (k : F32) (v : List F32) : List F32 := v.map (fmul k)

/-- The outcome with `f` applied to the returned value, if there is one. -/
def Outcome.map (f : F32 → F32) : Outcome → Outcome
  | .value r => .value (f r)
  | o => o

/-- No intermediate result of `calculate_distance(attempt, profile, n)` leaves the
range in which it and its counterpart in the computation scaled by `2 ^ j` are
normal numbers: the elements and their differences (scaled by `2 ^ j`), the
squares and the partial sums (scaled by `4 ^ j`) and the result are `safe`, and
no square of a difference that is not zero underflows to zero. -/
def scalable (j : Int) (attempt profile : List F32) (n : Nat) : Bool :=
  (List.range n).all (fun i =>
    safe j (attempt.getD i nan) && safe j (profile.getD i nan) &&
    safe j (fsub (attempt.getD i nan) (profile.getD i nan)) &&
    safe (2 * j) (sqDiff (attempt.getD i nan) (profile.getD i nan)) &&
    (isZero (fsub (attempt.getD i nan) (profile.getD i nan)) ||
      !isZero (sqDiff (attempt.getD i nan) (profile.getD i nan))) &&
    safe (2 * j) (accumulate attempt profile (i + 1))) &&
  safe j (distance attempt profile n)

/-- The exact sum of the squared differences of two integer vectors over the
indices below `n`. -/
def intSqSum (x y : List Int) (n : Nat) : Int :=
  ((List.range n).map fun i => (x.getD i 0 - y.getD i 0) ^ 2).sum

/-- The exact (rational) sum of the squared differences of the values of two
vectors of finite data over the indices below `n`. -/
def exactSqSum (a p : List F32) (n : Nat) : ℚ :=
  ((List.range n).map fun i => (toRat (a.getD i nan) - toRat (p.getD i nan)) ^ 2).sum

/-- The vector `v` reordered by the index list `s`: element `i` of the result is
`v[s[i]]`. -/
def reorder (s : List Nat) (v : List F32) : List F32 := s.map fun i => v.getD i nan

theorem loop_exit (a p : List F32) (n : Int) (fuel : Nat) (i : Int) (sum : F32) (reads : Nat)
    (h : ¬ i < n) : loop a p n fuel i sum reads = ⟨.value (fsqrt sum), reads⟩ := by
  unfold loop
  simp [h]

theorem loop_step (a p : List F32) (n : Int) (fuel j : Nat) (sum : F32) (reads : Nat)
    (x y : F32) (h : (j : Int) < n) (ha : a[j]? = some x) (hp : p[j]? = some y) :
    loop a p n (fuel + 1) j sum reads
      = loop a p n fuel ((j + 1 : Nat) : Int) (fadd sum (sqDiff x y)) (reads + 2) := by
  rw [loop]
  simp [h, ha, hp, sqDiff]

theorem loop_fault_attempt (a p : List F32) (n : Int) (fuel j : Nat) (sum : F32) (reads : Nat)
    (h : (j : Int) < n) (ha : a[j]? = none) :
    loop a p n (fuel + 1) j sum reads = ⟨.outOfBounds j, reads⟩ := by
  rw [loop]
  simp [h, ha]

theorem loop_fault_profile (a p : List F32) (n : Int) (fuel j : Nat) (sum : F32) (reads : Nat)
    (x : F32) (h : (j : Int) < n) (ha : a[j]? = some x) (hp : p[j]? = none) :
    loop a p n (fuel + 1) j sum reads = ⟨.outOfBounds j, reads + 1⟩ := by
  rw [loop]
  simp [h, ha, hp]

theorem loop_in_bounds (a p : List F32) (n : Int) :
    ∀ (fuel j : Nat) (sum : F32) (reads : Nat), ((j + fuel : Nat) : Int) = n →
      j + fuel ≤ a.length → j + fuel ≤ p.length →
      loop a p n fuel j sum reads
        = ⟨.value (fsqrt (accFrom a p sum j fuel)), reads + 2 * fuel⟩ := by
  intro fuel
  induction fuel with
  | zero =>
    intro j sum reads hn _ _
    rw [loop_exit]
    · simp [accFrom]
    · omega
  | succ f ih =>
    intro j sum reads hn ha hp
    have hja : j < a.length := by omega
    have hjp : j < p.length := by omega
    rw [loop_step a p n f j sum reads a[j] p[j] (by omega)
      (List.getElem?_eq_getElem hja) (List.getElem?_eq_getElem hjp)]
    rw [ih (j + 1) _ _ (by omega) (by omega) (by omega)]
    have e1 : a.getD j nan = a[j] := by simp [List.getD, List.getElem?_eq_getElem hja]
    have e2 : p.getD j nan = p[j] := by simp [List.getD, List.getElem?_eq_getElem hjp]
    simp only [accFrom, List.range'_succ, List.foldl_cons, e1, e2]
    congr 1
    omega

theorem loop_out_of_bounds (a p : List F32) (n : Int) :
    ∀ (d fuel j : Nat) (sum : F32) (reads : Nat), j + d = min a.length p.length →
      d < fuel → ((j + fuel : Nat) : Int) = n →
      loop a p n fuel j sum reads
        = ⟨.outOfBounds (min a.length p.length),
            reads + 2 * d + (if a.length ≤ p.length then 0 else 1)⟩ := by
  intro d
  induction d with
  | zero =>
    intro fuel j sum reads hj hd hn
    obtain ⟨f, rfl⟩ : ∃ f, fuel = f + 1 := ⟨fuel - 1, by omega⟩
    by_cases hle : a.length ≤ p.length
    · have hja : a.length ≤ j := by omega
      rw [loop_fault_attempt a p n f j sum reads (by omega) (List.getElem?_eq_none hja)]
      simp [hle]
      omega
    · have hja : j < a.length := by omega
      have hjp : p.length ≤ j := by omega
      rw [loop_fault_profile a p n f j sum reads a[j] (by omega)
        (List.getElem?_eq_getElem hja) (List.getElem?_eq_none hjp)]
      simp [hle]
      omega
  | succ d ih =>
    intro fuel j sum reads hj hd hn
    obtain ⟨f, rfl⟩ : ∃ f, fuel = f + 1 := ⟨fuel - 1, by omega⟩
    have hja : j < a.length := by omega
    have hjp : j < p.length := by omega
    rw [loop_step a p n f j sum reads a[j] p[j] (by omega)
      (List.getElem?_eq_getElem hja) (List.getElem?_eq_getElem hjp)]
    rw [ih f (j + 1) _ _ (by omega) (by omega) (by omega)]
    congr 1
    omega

theorem accFrom_zero (a p : List F32) (n : Nat) : accFrom a p zero 0 n = accumulate a p n := by
  simp [accFrom, accumulate, List.range_eq_range']

/-- The run of the function, in closed form: within bounds it returns the
distance of the specification after `2 * length` reads (none for a length that
is not positive); otherwise it reads out of bounds at the smaller size. -/
theorem calculate_distance_run_eq (a p : List F32) (n : Int) :
    calculate_distance_run a p n =
      if n.toNat ≤ min a.length p.length then
        ⟨.value (distance a p n.toNat), 2 * n.toNat⟩
      else
        ⟨.outOfBounds (min a.length p.length),
          2 * min a.length p.length + (if a.length ≤ p.length then 0 else 1)⟩ := by
  unfold calculate_distance_run
  by_cases hn : n ≤ 0
  · have h0 : n.toNat = 0 := by omega
    rw [h0, loop_exit _ _ _ _ _ _ _ (by omega)]
    simp [distance, accumulate]
  · have e0 : (0 : Int) = ((0 : Nat) : Int) := rfl
    rw [e0]
    by_cases hb : n.toNat ≤ min a.length p.length
    · rw [if_pos hb, loop_in_bounds a p n n.toNat 0 zero 0 (by omega) (by omega) (by omega),
        accFrom_zero]
      simp [distance]
    · rw [if_neg hb, loop_out_of_bounds a p n (min a.length p.length) n.toNat 0 zero 0
        (by omega) (by omega) (by omega)]
      simp

theorem calculate_distance_eq (a p : List F32) (n : Int) :
    calculate_distance a p n =
      if n.toNat ≤ min a.length p.length then .value (distance a p n.toNat)
      else .outOfBounds (min a.length p.length) := by
  unfold calculate_distance
  rw [calculate_distance_run_eq]
  split_ifs <;> rfl

theorem calculate_distance_in_bounds (a p : List F32) (n : Int)
    (ha : n ≤ a.length) (hp : n ≤ p.length) :
    calculate_distance a p n = .value (distance a p n.toNat) := by
  rw [calculate_distance_eq, if_pos]
  omega

theorem accumulate_succ (a p : List F32) (n : Nat) :
    accumulate a p (n + 1)
      = fadd (accumulate a p n) (sqDiff (a.getD n nan) (p.getD n nan)) := by
  simp [accumulate, List.range_succ, List.foldl_append]

theorem accumulate_zero (a p : List F32) : accumulate a p 0 = zero := by
  simp [accumulate]

/-! ## The loop of the contracted build -/

theorem loop_fused_exit (a p : List F32) (n : Int) (fuel : Nat) (i : Int) (sum : F32) (reads : Nat)
    (h : ¬ i < n) : loop_fused a p n fuel i sum reads = ⟨.value (fsqrt sum), reads⟩ := by
  unfold loop_fused
  simp [h]

theorem loop_fused_step (a p : List F32) (n : Int) (fuel j : Nat) (sum : F32) (reads : Nat)
    (x y : F32) (h : (j : Int) < n) (ha : a[j]? = some x) (hp : p[j]? = some y) :
    loop_fused a p n (fuel + 1) j sum reads
      = loop_fused a p n fuel ((j + 1 : Nat) : Int) (ffma (fsub x y) (fsub x y) sum) (reads + 2) := by
  rw [loop_fused]
  simp [h, ha, hp]

theorem loop_fused_fault_attempt (a p : List F32) (n : Int) (fuel j : Nat) (sum : F32) (reads : Nat)
    (h : (j : Int) < n) (ha : a[j]? = none) :
    loop_fused a p n (fuel + 1) j sum reads = ⟨.outOfBounds j, reads⟩ := by
  rw [loop_fused]
  simp [h, ha]

theorem loop_fused_fault_profile (a p : List F32) (n : Int) (fuel j : Nat) (sum : F32) (reads : Nat)
    (x : F32) (h : (j : Int) < n) (ha : a[j]? = some x) (hp : p[j]? = none) :
    loop_fused a p n (fuel + 1) j sum reads = ⟨.outOfBounds j, reads + 1⟩ := by
  rw [loop_fused]
  simp [h, ha, hp]

theorem loop_fused_in_bounds (a p : List F32) (n : Int) :
    ∀ (fuel j : Nat) (sum : F32) (reads : Nat), ((j + fuel : Nat) : Int) = n →
      j + fuel ≤ a.length → j + fuel ≤ p.length →
      loop_fused a p n fuel j sum reads
        = ⟨.value (fsqrt (accFrom_fused a p sum j fuel)), reads + 2 * fuel⟩ := by
  intro fuel
  induction fuel with
  | zero =>
    intro j sum reads hn _ _
    rw [loop_fused_exit]
    · simp [accFrom_fused]
    · omega
  | succ f ih =>
    intro j sum reads hn ha hp
    have hja : j < a.length := by omega
    have hjp : j < p.length := by omega
    rw [loop_fused_step a p n f j sum reads a[j] p[j] (by omega)
      (List.getElem?_eq_getElem hja) (List.getElem?_eq_getElem hjp)]
    rw [ih (j + 1) _ _ (by omega) (by omega) (by omega)]
    have e1 : a.getD j nan = a[j] := by simp [List.getD, List.getElem?_eq_getElem hja]
    have e2 : p.getD j nan = p[j] := by simp [List.getD, List.getElem?_eq_getElem hjp]
    simp only [accFrom_fused, List.range'_succ, List.foldl_cons, e1, e2]
    congr 1
    omega

theorem loop_fused_out_of_bounds (a p : List F32) (n : Int) :
    ∀ (d fuel j : Nat) (sum : F32) (reads : Nat), j + d = min a.length p.length →
      d < fuel → ((j + fuel : Nat) : Int) = n →
      loop_fused a p n fuel j sum reads
        = ⟨.outOfBounds (min a.length p.length),
            reads + 2 * d + (if a.length ≤ p.length then 0 else 1)⟩ := by
  intro d
  induction d with
  | zero =>
    intro fuel j sum reads hj hd hn
    obtain ⟨f, rfl⟩ : ∃ f, fuel = f + 1 := ⟨fuel - 1, by omega⟩
    by_cases hle : a.length ≤ p.length
    · have hja : a.length ≤ j := by omega
      rw [loop_fused_fault_attempt a p n f j sum reads (by omega) (List.getElem?_eq_none hja)]
      simp [hle]
      omega
    · have hja : j < a.length := by omega
      have hjp : p.length ≤ j := by omega
      rw [loop_fused_fault_profile a p n f j sum reads a[j] (by omega)
        (List.getElem?_eq_getElem hja) (List.getElem?_eq_none hjp)]
      simp [hle]
      omega
  | succ d ih =>
    intro fuel j sum reads hj hd hn
    obtain ⟨f, rfl⟩ : ∃ f, fuel = f + 1 := ⟨fuel - 1, by omega⟩
    have hja : j < a.length := by omega
    have hjp : j < p.length := by omega
    rw [loop_fused_step a p n f j sum reads a[j] p[j] (by omega)
      (List.getElem?_eq_getElem hja) (List.getElem?_eq_getElem hjp)]
    rw [ih f (j + 1) _ _ (by omega) (by omega) (by omega)]
    congr 1
    omega

theorem accFrom_fused_zero (a p : List F32) (n : Nat) : accFrom_fused a p zero 0 n = accumulate_fused a p n := by
  simp [accFrom_fused, accumulate_fused, List.range_eq_range']

/-- The run of the contracted build, in closed form: within bounds it returns the
fused distance after `2 * length` reads (none for a length that
is not positive); otherwise it reads out of bounds at the smaller size. -/
theorem calculate_distance_fused_run_eq (a p : List F32) (n : Int) :
    calculate_distance_fused_run a p n =
      if n.toNat ≤ min a.length p.length then
        ⟨.value (distance_fused a p n.toNat), 2 * n.toNat⟩
      else
        ⟨.outOfBounds (min a.length p.length),
          2 * min a.length p.length + (if a.length ≤ p.length then 0 else 1)⟩ := by
  unfold calculate_distance_fused_run
  by_cases hn : n ≤ 0
  · have h0 : n.toNat = 0 := by omega
    rw [h0, loop_fused_exit _ _ _ _ _ _ _ (by omega)]
    simp [distance_fused, accumulate_fused]
  · have e0 : (0 : Int) = ((0 : Nat) : Int) := rfl
    rw [e0]
    by_cases hb : n.toNat ≤ min a.length p.length
    · rw [if_pos hb, loop_fused_in_bounds a p n n.toNat 0 zero 0 (by omega) (by omega) (by omega),
        accFrom_fused_zero]
      simp [distance_fused]
    · rw [if_neg hb, loop_fused_out_of_bounds a p n (min a.length p.length) n.toNat 0 zero 0
        (by omega) (by omega) (by omega)]
      simp

theorem calculate_distance_fused_eq (a p : List F32) (n : Int) :
    calculate_distance_fused a p n =
      if n.toNat ≤ min a.length p.length then .value (distance_fused a p n.toNat)
      else .outOfBounds (min a.length p.length) := by
  unfold calculate_distance_fused
  rw [calculate_distance_fused_run_eq]
  split_ifs <;> rfl

theorem calculate_distance_fused_in_bounds (a p : List F32) (n : Int)
    (ha : n ≤ a.length) (hp : n ≤ p.length) :
    calculate_distance_fused a p n = .value (distance_fused a p n.toNat) := by
  rw [calculate_distance_fused_eq, if_pos]
  omega

theorem accumulate_fused_succ (a p : List F32) (n : Nat) :
    accumulate_fused a p (n + 1)
      = ffma (fsub (a.getD n nan) (p.getD n nan)) (fsub (a.getD n nan) (p.getD n nan))
          (accumulate_fused a p n) := by
  simp [accumulate_fused, List.range_succ, List.foldl_append]

theorem accumulate_fused_zero (a p : List F32) : accumulate_fused a p 0 = zero := by
  simp [accumulate_fused]

/-! ## Signs of rounded results -/

theorem encode_cases (s : Bool) (M : Nat) (q : Int) :
    encode s M q = inf s ∨ ∃ k, encode s M q = fin s k := by
  unfold encode
  simp only []
  split_ifs with h1 h2 h2
  · exact Or.inr ⟨_, rfl⟩
  · exact Or.inl rfl
  · exact Or.inr ⟨_, rfl⟩
  · exact Or.inl rfl

theorem round_cases (s : Bool) (m : Nat) (e : Int) :
    F32.round s m e = inf s ∨ ∃ k, F32.round s m e = fin s k :=
  encode_cases s _ _

theorem encode_not (s : Bool) (M : Nat) (q : Int) :
    encode (!s) M q = fneg (encode s M q) := by
  unfold encode
  simp only []
  split_ifs <;> rfl

theorem round_not (s : Bool) (m : Nat) (e : Int) :
    F32.round (!s) m e = fneg (F32.round s m e) :=
  encode_not s _ _

theorem fmul_self_fneg (x : F32) : fmul (fneg x) (fneg x) = fmul x x := by
  cases x with
  | nan => rfl
  | inf s => cases s <;> rfl
  | fin s k => cases s <;> rfl

theorem signed_not (s : Bool) (m : Nat) : signed (!s) m = - signed s m := by
  cases s <;> simp [signed]

/-- Swapping the operands of a subtraction changes at most the sign of the
result. -/
theorem fsub_swap (a b : F32) : fsub b a = fsub a b ∨ fsub b a = fneg (fsub a b) := by
  cases a with
  | nan => cases b <;> exact Or.inl rfl
  | inf s =>
    cases b with
    | nan => exact Or.inl rfl
    | inf t => cases s <;> cases t <;> simp [fsub, fadd, fneg]
    | fin t k => right; simp [fsub, fadd, fneg]
  | fin s k =>
    cases b with
    | nan => exact Or.inl rfl
    | inf t => right; simp [fsub, fadd, fneg]
    | fin t l =>
      simp only [fsub, fadd, fneg, signed_not]
      rw [min_comm (expo l) (expo k)]
      generalize signed s (mant k * 2 ^ (expo k - min (expo k) (expo l)).toNat) = x
      generalize signed t (mant l * 2 ^ (expo l - min (expo k) (expo l)).toNat) = y
      by_cases h : x + -y = 0
      · have h' : y + -x = 0 := by omega
        simp only [h, h', if_true]
        cases s <;> cases t <;> simp [fneg]
      · have h' : ¬ y + -x = 0 := by omega
        simp only [h, h', if_false]
        have e1 : (y + -x).natAbs = (x + -y).natAbs := by omega
        have e2 : decide (y + -x < 0) = !decide (x + -y < 0) := by
          by_cases hx : x + -y < 0
          · have : ¬ (y + -x < 0) := by omega
            simp [hx, this]
          · have : y + -x < 0 := by omega
            simp [hx, this]
        rw [e1, e2, round_not]
        exact Or.inr rfl

theorem sqDiff_comm (a b : F32) : sqDiff a b = sqDiff b a := by
  unfold sqDiff
  rcases fsub_swap a b with h | h
  · rw [h]
  · rw [h, fmul_self_fneg]

theorem nonneg_round (m : Nat) (e : Int) : nonneg (F32.round false m e) = true := by
  rcases round_cases false m e with h | ⟨k, h⟩ <;> rw [h] <;> rfl

theorem fmul_self_nonneg (x : F32) (hx : x ≠ nan) : nonneg (fmul x x) = true := by
  cases x with
  | nan => exact absurd rfl hx
  | inf s => cases s <;> rfl
  | fin s k =>
    have : fmul (fin s k) (fin s k) = F32.round false (mant k * mant k) (expo k + expo k) := by
      cases s <;> rfl
    rw [this]
    exact nonneg_round _ _

theorem fmul_self_nan_or_nonneg (x : F32) : fmul x x = nan ∨ nonneg (fmul x x) = true := by
  by_cases hx : x = nan
  · left; rw [hx]; rfl
  · exact Or.inr (fmul_self_nonneg x hx)

theorem signed_false (m : Nat) : signed false m = (m : Int) := rfl

theorem fadd_nonneg (x y : F32) (hx : nonneg x = true) (hy : nonneg y = true) :
    nonneg (fadd x y) = true := by
  cases x with
  | nan => simp [nonneg] at hx
  | inf s =>
    cases y with
    | nan => simp [nonneg] at hy
    | inf t =>
      simp only [nonneg, Bool.not_eq_true'] at hx hy
      subst hx; subst hy; rfl
    | fin t l => simpa [fadd] using hx
  | fin s k =>
    cases y with
    | nan => simp [nonneg] at hy
    | inf t => simpa [fadd] using hy
    | fin t l =>
      simp only [nonneg, Bool.not_eq_true'] at hx hy
      subst hx; subst hy
      simp only [fadd, signed_false]
      split_ifs with h
      · rfl
      · have : ¬ ((mant k * 2 ^ (expo k - min (expo k) (expo l)).toNat : Nat) : Int)
            + ((mant l * 2 ^ (expo l - min (expo k) (expo l)).toNat : Nat) : Int) < 0 := by
          omega
        rw [decide_eq_false this]
        exact nonneg_round _ _

theorem fsqrt_nonneg (x : F32) (hx : nonneg x = true) : nonneg (fsqrt x) = true := by
  cases x with
  | nan => simp [nonneg] at hx
  | inf s =>
    simp only [nonneg, Bool.not_eq_true'] at hx
    subst hx; rfl
  | fin s k =>
    simp only [nonneg, Bool.not_eq_true'] at hx
    subst hx
    simp only [fsqrt]
    split_ifs with h
    · rfl
    · simp at *
    · exact nonneg_round _ _

theorem fadd_nan_or_nonneg (x y : F32) (hx : x = nan ∨ nonneg x = true)
    (hy : y = nan ∨ nonneg y = true) : fadd x y = nan ∨ nonneg (fadd x y) = true := by
  rcases hx with hx | hx
  · left; rw [hx]; cases y <;> rfl
  · rcases hy with hy | hy
    · left; rw [hy]; cases x <;> rfl
    · exact Or.inr (fadd_nonneg x y hx hy)

theorem fsqrt_nan_or_nonneg (x : F32) (hx : x = nan ∨ nonneg x = true) :
    fsqrt x = nan ∨ nonneg (fsqrt x) = true := by
  rcases hx with hx | hx
  · left; rw [hx]; rfl
  · exact Or.inr (fsqrt_nonneg x hx)

theorem fle_zero_of_nonneg (x : F32) (hx : nonneg x = true) : fle zero x = true := by
  cases x with
  | nan => simp [nonneg] at hx
  | inf s =>
    simp only [nonneg, Bool.not_eq_true'] at hx
    subst hx; rfl
  | fin s k =>
    simp only [nonneg, Bool.not_eq_true'] at hx
    subst hx
    simp [fle, zero, signed]

theorem fsub_ne_nan_of_finite (a b : F32) (ha : isFinite a = true) (hb : isFinite b = true) :
    fsub a b ≠ nan := by
  cases a with
  | nan => simp [isFinite] at ha
  | inf s => simp [isFinite] at ha
  | fin s k =>
    cases b with
    | nan => simp [isFinite] at hb
    | inf t => simp [isFinite] at hb
    | fin t l =>
      simp only [fsub, fneg, fadd]
      split_ifs with h
      · simp
      · rcases round_cases (decide (signed s (mant ↑k * 2 ^ (expo ↑k - min (expo ↑k) (expo ↑l)).toNat)
            + signed (!t) (mant ↑l * 2 ^ (expo ↑l - min (expo ↑k) (expo ↑l)).toNat) < 0))
            (signed s (mant ↑k * 2 ^ (expo ↑k - min (expo ↑k) (expo ↑l)).toNat)
            + signed (!t) (mant ↑l * 2 ^ (expo ↑l - min (expo ↑k) (expo ↑l)).toNat)).natAbs
            (min (expo ↑k) (expo ↑l)) with h1 | ⟨k1, h1⟩ <;> rw [h1] <;> simp

theorem sqDiff_nonneg_of_finite (a b : F32) (ha : isFinite a = true) (hb : isFinite b = true) :
    nonneg (sqDiff a b) = true :=
  fmul_self_nonneg _ (fsub_ne_nan_of_finite a b ha hb)

theorem sqDiff_nan_or_nonneg (a b : F32) : sqDiff a b = nan ∨ nonneg (sqDiff a b) = true :=
  fmul_self_nan_or_nonneg _

/-! ## The accumulator -/

theorem getD_eq_getElem (a : List F32) (i : Nat) (h : i < a.length) : a.getD i nan = a[i] := by
  simp [List.getD, List.getElem?_eq_getElem h]

/-- Loop invariant rule: a property of the initial accumulator that every
iteration preserves holds of the final accumulator. -/
theorem accumulate_induct (P : F32 → Prop) (a p : List F32) (n : Nat) (h0 : P zero)
    (hstep : ∀ acc i, i < n → P acc →
      P (fadd acc (sqDiff (a.getD i nan) (p.getD i nan)))) :
    P (accumulate a p n) := by
  induction n with
  | zero => rwa [accumulate_zero]
  | succ m ih =>
    rw [accumulate_succ]
    exact hstep _ m (Nat.lt_succ_self m) (ih fun acc i hi h => hstep acc i (Nat.lt_succ_of_lt hi) h)

theorem accumulate_comm (a p : List F32) (n : Nat) : accumulate a p n = accumulate p a n := by
  induction n with
  | zero => simp [accumulate_zero]
  | succ m ih => rw [accumulate_succ, accumulate_succ, ih, sqDiff_comm]

theorem accumulate_congr (a a' p p' : List F32) (n : Nat)
    (ha : ∀ i, i < n → a.getD i nan = a'.getD i nan)
    (hp : ∀ i, i < n → p.getD i nan = p'.getD i nan) :
    accumulate a p n = accumulate a' p' n := by
  induction n with
  | zero => simp [accumulate_zero]
  | succ m ih =>
    rw [accumulate_succ, accumulate_succ,
      ih (fun i hi => ha i (Nat.lt_succ_of_lt hi)) (fun i hi => hp i (Nat.lt_succ_of_lt hi)),
      ha m (Nat.lt_succ_self m), hp m (Nat.lt_succ_self m)]

theorem accumulate_nan_or_nonneg (a p : List F32) (n : Nat) :
    accumulate a p n = nan ∨ nonneg (accumulate a p n) = true :=
  accumulate_induct (fun s => s = nan ∨ nonneg s = true) a p n (Or.inr rfl)
    fun acc _ _ h => fadd_nan_or_nonneg acc _ h (sqDiff_nan_or_nonneg _ _)

theorem accumulate_nonneg_of_finite (a p : List F32) (n : Nat)
    (ha : ∀ i, i < n → isFinite (a.getD i nan) = true)
    (hp : ∀ i, i < n → isFinite (p.getD i nan) = true) :
    nonneg (accumulate a p n) = true :=
  accumulate_induct (fun s => nonneg s = true) a p n rfl
    fun acc i hi h => fadd_nonneg acc _ h (sqDiff_nonneg_of_finite _ _ (ha i hi) (hp i hi))

/-! ## Equal elements -/

theorem fmul_zero_self (s : Bool) : fmul (fin s 0) (fin s 0) = zero := by
  cases s <;> decide

theorem signed_eq_iff (s t : Bool) (k l : Nat) :
    signed s k = signed t l ↔ k = l ∧ (s = t ∨ k = 0) := by
  cases s <;> cases t <;> simp [signed] <;> omega

theorem sqDiff_eq_zero_of_feq (a b : F32) (ha : isFinite a = true) (h : feq a b = true) :
    sqDiff a b = zero := by
  cases a with
  | nan => simp [isFinite] at ha
  | inf s => simp [isFinite] at ha
  | fin s k =>
    cases b with
    | nan => simp [feq] at h
    | inf t => simp [feq] at h
    | fin t l =>
      simp only [feq, decide_eq_true_eq, signed_eq_iff] at h
      obtain ⟨hkl, hs⟩ := h
      have hkl' : k = l := Fin.ext hkl
      subst hkl'
      have key : ∃ u, fsub (fin s k) (fin t k) = fin u 0 := by
        simp only [fsub, fneg, fadd, min_self, sub_self, Int.toNat_zero, pow_zero, mul_one]
        rcases hs with hs | hs
        · subst hs
          rw [signed_not, add_neg_cancel]
          exact ⟨_, rfl⟩
        · have hm : mant k = 0 := by simp [mant, hs]
          simp only [hm, signed]
          simp
      obtain ⟨u, hu⟩ := key
      rw [sqDiff, hu, fmul_zero_self]

theorem fadd_zero_zero : fadd zero zero = zero := by decide

theorem fsqrt_zero : fsqrt zero = zero := by decide

theorem accumulate_eq_zero_of_feq (a p : List F32) (n : Nat)
    (ha : ∀ i, i < n → isFinite (a.getD i nan) = true)
    (h : ∀ i, i < n → feq (a.getD i nan) (p.getD i nan) = true) :
    accumulate a p n = zero :=
  accumulate_induct (fun s => s = zero) a p n rfl fun acc i hi hacc => by
    rw [hacc, sqDiff_eq_zero_of_feq _ _ (ha i hi) (h i hi), fadd_zero_zero]

theorem feq_self_of_finite (x : F32) (hx : isFinite x = true) : feq x x = true := by
  cases x with
  | nan => simp [isFinite] at hx
  | inf s => simp [isFinite] at hx
  | fin s k => simp [feq]

/-! ## Digit counts and integer square roots -/

theorem bitLengthAux_le_iff : ∀ (fuel m n : Nat), m ≤ fuel →
    (bitLengthAux fuel m ≤ n ↔ m < 2 ^ n) := by
  intro fuel
  induction fuel with
  | zero =>
    intro m n hm
    have : m = 0 := by omega
    subst this
    simp [bitLengthAux]
  | succ f ih =>
    intro m n hm
    by_cases h0 : m = 0
    · subst h0
      simp [bitLengthAux]
    · simp only [bitLengthAux, h0, if_false]
      cases n with
      | zero => simp; omega
      | succ n' =>
        rw [Nat.add_le_add_iff_right, ih (m / 2) n' (by omega), pow_succ,
          Nat.div_lt_iff_lt_mul (by norm_num)]

theorem bitLength_le_iff (m n : Nat) : bitLength m ≤ n ↔ m < 2 ^ n :=
  bitLengthAux_le_iff m m n le_rfl

theorem lt_bitLength_iff (m n : Nat) : n < bitLength m ↔ 2 ^ n ≤ m := by
  rw [← not_le, bitLength_le_iff, not_lt]

theorem lt_two_pow_bitLength (m : Nat) : m < 2 ^ bitLength m :=
  (bitLength_le_iff m _).1 le_rfl

theorem two_pow_le_of_bitLength (m : Nat) (h : m ≠ 0) : 2 ^ (bitLength m - 1) ≤ m := by
  have hpos : 0 < bitLength m := (lt_bitLength_iff m 0).2 (by simpa using Nat.pos_of_ne_zero h)
  exact (lt_bitLength_iff m _).1 (by omega)

theorem bitLength_eq_of (m L : Nat) (h1 : 2 ^ L ≤ m) (h2 : m < 2 ^ (L + 1)) :
    bitLength m = L + 1 := by
  have a := (bitLength_le_iff m (L + 1)).2 h2
  have b := (lt_bitLength_iff m L).2 h1
  omega

theorem bitLength_zero : bitLength 0 = 0 := by
  have := (bitLength_le_iff 0 0).2 (by norm_num)
  omega

theorem bitLength_mul_two_pow (m j : Nat) (h : m ≠ 0) :
    bitLength (m * 2 ^ j) = bitLength m + j := by
  have hpos : 0 < bitLength m := (lt_bitLength_iff m 0).2 (by simpa using Nat.pos_of_ne_zero h)
  obtain ⟨L, hL⟩ : ∃ L, bitLength m = L + 1 := ⟨bitLength m - 1, by omega⟩
  have h1 : 2 ^ L ≤ m := (lt_bitLength_iff m L).1 (by omega)
  have h2 : m < 2 ^ (L + 1) := (bitLength_le_iff m (L + 1)).1 (by omega)
  rw [hL, show L + 1 + j = (L + j) + 1 by omega]
  apply bitLength_eq_of
  · rw [pow_add]; exact Nat.mul_le_mul_right _ h1
  · rw [show L + j + 1 = (L + 1) + j by omega, pow_add]
    exact Nat.mul_lt_mul_of_pos_right h2 (by positivity)

theorem isqrtAux_spec (n : Nat) : ∀ (b r : Nat), r * r ≤ n → n < (r + 2 ^ b) * (r + 2 ^ b) →
    isqrtAux n b r * isqrtAux n b r ≤ n ∧
      n < (isqrtAux n b r + 1) * (isqrtAux n b r + 1) := by
  intro b
  induction b with
  | zero =>
    intro r h1 h2
    simpa [isqrtAux] using And.intro h1 h2
  | succ b ih =>
    intro r h1 h2
    simp only [isqrtAux]
    split_ifs with h
    · apply ih _ h
      have : r + 2 ^ b + 2 ^ b = r + 2 ^ (b + 1) := by rw [pow_succ]; omega
      rw [this]; exact h2
    · exact ih _ h1 (by omega)

theorem isqrt_spec (n : Nat) : isqrt n * isqrt n ≤ n ∧ n < (isqrt n + 1) * (isqrt n + 1) := by
  apply isqrtAux_spec
  · simp
  · have h := lt_two_pow_bitLength n
    have h2 : 2 ^ bitLength n ≤ 2 ^ (bitLength n / 2 + 1) * 2 ^ (bitLength n / 2 + 1) := by
      rw [← pow_add]
      exact Nat.pow_le_pow_right (by norm_num) (by omega)
    simp only [zero_add]
    omega

theorem isqrt_eq_sqrt (n : Nat) : isqrt n = Nat.sqrt n := by
  have h := isqrt_spec n
  exact (Nat.eq_sqrt.2 ⟨h.1, h.2⟩)

/-! ## Rounding does not depend on how a number is written -/

theorem shiftRoundNE_mul (m s j : Nat) :
    shiftRoundNE (m * 2 ^ j) (s + j) = shiftRoundNE m s := by
  have hj : 0 < 2 ^ j := by positivity
  have hd : m * 2 ^ j / 2 ^ (s + j) = m / 2 ^ s := by
    rw [pow_add]; exact Nat.mul_div_mul_right _ _ hj
  have hr : m * 2 ^ j % 2 ^ (s + j) = m % 2 ^ s * 2 ^ j := by
    rw [pow_add]; exact Nat.mul_mod_mul_right _ _ _
  simp only [shiftRoundNE, hd, hr]
  have e1 : 2 * (m % 2 ^ s * 2 ^ j) < 2 ^ (s + j) ↔ 2 * (m % 2 ^ s) < 2 ^ s := by
    rw [pow_add, ← mul_assoc]
    exact Nat.mul_lt_mul_right hj
  have e2 : 2 * (m % 2 ^ s * 2 ^ j) = 2 ^ (s + j) ↔ 2 * (m % 2 ^ s) = 2 ^ s := by
    rw [pow_add, ← mul_assoc]
    exact Nat.mul_left_inj (by positivity)
  simp only [e1, e2]

theorem shiftRoundNE_exact (x s : Nat) : shiftRoundNE (x * 2 ^ s) s = x := by
  have h := shiftRoundNE_mul x 0 s
  rw [zero_add] at h
  rw [h]
  simp [shiftRoundNE, Nat.mod_one]

/-- The rounded quotient is a nearest integer: it is within one half of
`m / 2 ^ s`. -/
theorem shiftRoundNE_nearest (m s : Nat) :
    2 * ((shiftRoundNE m s : Int) * 2 ^ s - m) ≤ 2 ^ s ∧
      2 * ((m : Int) - shiftRoundNE m s * 2 ^ s) ≤ 2 ^ s := by
  have hdm := Nat.div_add_mod m (2 ^ s)
  have hmod := Nat.mod_lt m (show 0 < 2 ^ s by positivity)
  have hdm' : (m : Int) = 2 ^ s * (m / 2 ^ s : Nat) + (m % 2 ^ s : Nat) := by
    exact_mod_cast hdm.symm
  have hmod' : ((m % 2 ^ s : Nat) : Int) < 2 ^ s := by exact_mod_cast hmod
  have hnn : (0 : Int) ≤ (m % 2 ^ s : Nat) := Int.natCast_nonneg _
  simp only [shiftRoundNE]
  split_ifs with h1 h2 h3
  · have h1' : 2 * ((m % 2 ^ s : Nat) : Int) < 2 ^ s := by exact_mod_cast h1
    constructor <;> nlinarith
  · have h2' : 2 * ((m % 2 ^ s : Nat) : Int) = 2 ^ s := by exact_mod_cast h2
    constructor <;> nlinarith
  · have h2' : 2 * ((m % 2 ^ s : Nat) : Int) = 2 ^ s := by exact_mod_cast h2
    push_cast
    constructor <;> nlinarith
  · have h1' : (2 : Int) ^ s ≤ 2 * ((m % 2 ^ s : Nat) : Int) := by
      exact_mod_cast not_lt.1 h1
    push_cast
    constructor <;> nlinarith

/-- On a tie the rounded quotient is even. -/
theorem shiftRoundNE_tie_even (m s : Nat) (h : 2 * (m % 2 ^ s) = 2 ^ s) :
    shiftRoundNE m s % 2 = 0 := by
  simp only [shiftRoundNE]
  rw [if_neg (by omega), if_pos h]
  split_ifs with h1
  · exact h1
  · omega

/-- The rounding of `m * 2 ^ j` at exponent `e - j` is the rounding of `m` at
exponent `e`. -/
theorem roundDyadic_shift (p : Nat) (qmin : Int) (m j : Nat) (e : Int) (hm : m ≠ 0) :
    roundDyadic p qmin (m * 2 ^ j) (e - j) = roundDyadic p qmin m e := by
  simp only [roundDyadic, bitLength_mul_two_pow m j hm]
  have hq : e - (j : Int) + ((bitLength m + j : Nat) : Int) - (p : Int)
      = e + (bitLength m : Int) - (p : Int) := by push_cast; ring
  rw [hq]
  generalize max (e + (bitLength m : Int) - (p : Int)) qmin = q
  by_cases h1 : q ≤ e - j
  · have h2 : q ≤ e := by omega
    rw [if_pos h1, if_pos h2]
    congr 1
    rw [mul_assoc, ← pow_add]
    congr 2
    omega
  · rw [if_neg h1]
    by_cases h2 : q ≤ e
    · rw [if_pos h2]
      congr 1
      have e1 : (e - q).toNat + (q - (e - j)).toNat = j := by omega
      have e2 : m * 2 ^ j = m * 2 ^ (e - q).toNat * 2 ^ (q - (e - j)).toNat := by
        rw [mul_assoc, ← pow_add, e1]
      rw [e2, shiftRoundNE_exact]
    · rw [if_neg h2]
      congr 1
      have e1 : (q - (e - j)).toNat = (q - e).toNat + j := by omega
      rw [e1, shiftRoundNE_mul]

theorem round_zero (s : Bool) (e : Int) : F32.round s 0 e = fin s 0 := by
  have hM : (roundDyadic 24 (-149) 0 e).1 = 0 := by
    simp only [roundDyadic]
    split_ifs <;> simp [shiftRoundNE]
  simp only [F32.round, encode, hM]
  rfl

theorem round_shift (s : Bool) (m j : Nat) (e : Int) :
    F32.round s (m * 2 ^ j) (e - j) = F32.round s m e := by
  by_cases hm : m = 0
  · subst hm; simp [round_zero]
  · simp only [F32.round, roundDyadic_shift 24 (-149) m j e hm]

/-! ## Representable numbers are not changed by rounding -/

theorem mant_lt (k : Nat) : mant k < 2 ^ 24 := by
  unfold mant
  have := Nat.mod_lt k (show 0 < 2 ^ 23 by norm_num)
  split_ifs <;> omega

theorem mant_eq_zero_iff (k : Nat) : mant k = 0 ↔ k = 0 := by
  unfold mant
  have h := Nat.div_add_mod k (2 ^ 23)
  split_ifs with h0
  · rw [h0] at h; omega
  · constructor
    · intro h1; omega
    · intro h1; subst h1; simp at h0

theorem expo_ge (k : Nat) : -149 ≤ expo k := by
  unfold expo
  split_ifs with h
  · exact le_rfl
  · have : 1 ≤ k / 2 ^ 23 := Nat.one_le_iff_ne_zero.2 h
    omega

theorem encode_eq_fin (s : Bool) (M : Nat) (q : Int) (k : Nat) (hk : k < 2139095040)
    (h : (if M < 2 ^ 23 then M else (q + 150).toNat * 2 ^ 23 + (M - 2 ^ 23)) = k) :
    encode s M q = fin s ⟨k, hk⟩ := by
  subst h
  unfold encode
  simp only []
  rw [dif_pos hk]

theorem encode_eq_inf (s : Bool) (M : Nat) (q : Int)
    (h : ¬ (if M < 2 ^ 23 then M else (q + 150).toNat * 2 ^ 23 + (M - 2 ^ 23)) < 2139095040) :
    encode s M q = inf s := by
  unfold encode
  simp only []
  rw [dif_neg h]

/-- A number that fits the format is its own rounding: no digit is dropped when
`m` has at most `p` digits above the least quantum. -/
theorem roundDyadic_exact (p : Nat) (qmin : Int) (m : Nat) (e : Int) (he : qmin ≤ e)
    (hm : (bitLength m : Int) ≤ p) : roundDyadic p qmin m e =
      (m * 2 ^ (e - max (e + (bitLength m : Int) - p) qmin).toNat,
        max (e + (bitLength m : Int) - p) qmin) := by
  simp only [roundDyadic]
  rw [if_pos]
  rw [max_def]; split_ifs <;> omega

theorem encode_mant_expo (s : Bool) (k : Fin 2139095040) :
    encode s (mant k) (expo k) = fin s k := by
  obtain ⟨k, hk⟩ := k
  have hdm := Nat.div_add_mod k (2 ^ 23)
  have hmod := Nat.mod_lt k (show 0 < 2 ^ 23 by norm_num)
  apply encode_eq_fin
  simp only [mant, expo]
  by_cases h0 : k / 2 ^ 23 = 0
  · rw [if_pos h0, if_pos hmod]; omega
  · have hE : 1 ≤ k / 2 ^ 23 := Nat.one_le_iff_ne_zero.2 h0
    rw [if_neg h0, if_neg h0, if_neg (by omega)]
    have : (((k / 2 ^ 23 : Nat) : Int) - 150 + 150).toNat = k / 2 ^ 23 := by omega
    rw [this]; omega

theorem bitLength_mant (k : Nat) (h : k / 2 ^ 23 ≠ 0) : bitLength (mant k) = 24 := by
  have hmod := Nat.mod_lt k (show 0 < 2 ^ 23 by norm_num)
  unfold mant
  rw [if_neg h]
  exact bitLength_eq_of _ 23 (by omega) (by omega)

theorem bitLength_mant_le (k : Nat) : bitLength (mant k) ≤ 24 :=
  (bitLength_le_iff _ 24).2 (mant_lt k)

theorem roundDyadic_mant_expo (k : Nat) :
    roundDyadic 24 (-149) (mant k) (expo k) = (mant k, expo k) := by
  have hL := bitLength_mant_le k
  rw [roundDyadic_exact 24 (-149) _ _ (expo_ge k) (by exact_mod_cast hL)]
  have hq : max (expo k + (bitLength (mant k) : Int) - ((24 : Nat) : Int)) (-149) = expo k := by
    by_cases h0 : k / 2 ^ 23 = 0
    · have he : expo k = -149 := by unfold expo; rw [if_pos h0]
      rw [he, max_def]; split_ifs <;> omega
    · have := expo_ge k
      rw [bitLength_mant k h0, max_def]; split_ifs <;> omega
  rw [hq]
  simp

/-- Rounding the value of a finite datum gives the datum back. -/
theorem round_mant_expo (s : Bool) (k : Fin 2139095040) :
    F32.round s (mant k) (expo k) = fin s k := by
  simp only [F32.round, roundDyadic_mant_expo, encode_mant_expo]

/-! ## Results that are not zero -/

theorem le_shiftRoundNE (m s : Nat) : m / 2 ^ s ≤ shiftRoundNE m s := by
  simp only [shiftRoundNE]
  split_ifs <;> omega

theorem shiftRoundNE_le (m s : Nat) : shiftRoundNE m s ≤ m / 2 ^ s + 1 := by
  simp only [shiftRoundNE]
  split_ifs <;> omega

theorem roundDyadic_snd (p : Nat) (qmin : Int) (m : Nat) (e : Int) :
    (roundDyadic p qmin m e).2 = max (e + (bitLength m : Int) - p) qmin := by
  simp only [roundDyadic]
  split_ifs <;> rfl

theorem roundDyadic_fst_ne_zero (p : Nat) (qmin : Int) (m : Nat) (e : Int) (hm : m ≠ 0)
    (he : qmin ≤ e) (hp : 0 < p) : (roundDyadic p qmin m e).1 ≠ 0 := by
  simp only [roundDyadic]
  have hL := two_pow_le_of_bitLength m hm
  have hLpos : 0 < bitLength m := (lt_bitLength_iff m 0).2 (by simpa using Nat.pos_of_ne_zero hm)
  split_ifs with h
  · simp only
    exact Nat.mul_ne_zero hm (by positivity)
  · simp only
    have hq : max (e + (bitLength m : Int) - (p : Int)) qmin = e + (bitLength m : Int) - p := by
      rw [max_def] at h ⊢; split_ifs at h ⊢ <;> omega
    rw [hq] at h ⊢
    have hsh : (e + (bitLength m : Int) - (p : Int) - e).toNat ≤ bitLength m - 1 := by omega
    have h1 : 2 ^ (e + (bitLength m : Int) - (p : Int) - e).toNat ≤ m :=
      le_trans (Nat.pow_le_pow_right (by norm_num) hsh) hL
    have h2 : 1 ≤ m / 2 ^ (e + (bitLength m : Int) - (p : Int) - e).toNat :=
      (Nat.one_le_div_iff (by positivity)).2 h1
    have h3 := le_shiftRoundNE m (e + (bitLength m : Int) - (p : Int) - e).toNat
    omega

theorem encode_ne_zero (s t : Bool) (M : Nat) (q : Int) (hM : M ≠ 0) (hq : -149 ≤ q) :
    encode s M q ≠ fin t 0 := by
  unfold encode
  simp only []
  split_ifs with h1 h2 h2
  · intro h
    injection h with _ hk
    exact hM (by simpa using congrArg Fin.val hk)
  · simp
  · intro h
    injection h with _ hk
    have hk' := congrArg Fin.val hk
    simp only [Fin.val_zero] at hk'
    have : 1 ≤ (q + 150).toNat := by omega
    have : 2 ^ 23 ≤ (q + 150).toNat * 2 ^ 23 := Nat.le_mul_of_pos_left _ this
    omega
  · simp

/-- A sum, difference or product that is not zero and is a multiple of the least
subnormal number does not round to zero. -/
theorem round_ne_zero (s t : Bool) (m : Nat) (e : Int) (hm : m ≠ 0) (he : -149 ≤ e) :
    F32.round s m e ≠ fin t 0 := by
  unfold F32.round
  apply encode_ne_zero
  · exact roundDyadic_fst_ne_zero 24 (-149) m e hm he (by norm_num)
  · rw [roundDyadic_snd]; exact le_max_right _ _

theorem two_pow_le_isqrt (n j : Nat) (h : 2 ^ (2 * j) ≤ n) : 2 ^ j ≤ isqrt n := by
  by_contra hlt
  have h1 : isqrt n + 1 ≤ 2 ^ j := by omega
  have h2 := (isqrt_spec n).2
  have h3 : (isqrt n + 1) * (isqrt n + 1) ≤ 2 ^ j * 2 ^ j := Nat.mul_le_mul h1 h1
  rw [← pow_add] at h3
  have : j + j = 2 * j := by ring
  rw [this] at h3
  omega

theorem sqrtDyadic_bounds (m : Nat) (e : Int) (hm : m ≠ 0) (he : -149 ≤ e) :
    2 ^ 56 ≤ (sqrtDyadic m e).1 ∧ -131 ≤ (sqrtDyadic m e).2 := by
  simp only [sqrtDyadic]
  constructor
  · have h1 : 2 ^ (2 * 55) ≤ m * 2 ^ (110 + e.natAbs % 2) := by
      have : 2 ^ (2 * 55) ≤ 2 ^ (110 + e.natAbs % 2) :=
        Nat.pow_le_pow_right (by norm_num) (by omega)
      exact le_trans this (Nat.le_mul_of_pos_left _ (Nat.pos_of_ne_zero hm))
    have h2 := two_pow_le_isqrt _ 55 h1
    omega
  · omega

theorem fsqrt_fin_ne_zero (k : Fin 2139095040) (hk : k.val ≠ 0) (t : Bool) :
    fsqrt (fin false k) ≠ fin t 0 := by
  simp only [fsqrt, if_neg hk]
  have hm : mant k ≠ 0 := fun h => hk ((mant_eq_zero_iff k).1 h)
  obtain ⟨h1, h2⟩ := sqrtDyadic_bounds (mant k) (expo k) hm (expo_ge k)
  have hm' : (sqrtDyadic (mant k) (expo k)).1 ≠ 0 := by omega
  apply round_ne_zero
  · exact roundDyadic_fst_ne_zero 53 (-1074) _ _ hm' (by omega) (by norm_num)
  · rw [roundDyadic_snd]
    have hL : 56 < bitLength (sqrtDyadic (mant k) (expo k)).1 := (lt_bitLength_iff _ 56).2 h1
    have := le_max_left ((sqrtDyadic (mant k) (expo k)).2
      + (bitLength (sqrtDyadic (mant k) (expo k)).1 : Int) - ((53 : Nat) : Int)) (-1074)
    omega

theorem fsqrt_eq_zero_iff (x : F32) (hx : nonneg x = true) : fsqrt x = zero ↔ x = zero := by
  constructor
  · intro h
    cases x with
    | nan => simp [nonneg] at hx
    | inf s =>
      simp only [nonneg, Bool.not_eq_true'] at hx
      subst hx
      simp [fsqrt, zero] at h
    | fin s k =>
      simp only [nonneg, Bool.not_eq_true'] at hx
      subst hx
      by_cases hk : k.val = 0
      · have : k = 0 := Fin.ext hk
        rw [this]; rfl
      · exact absurd h (fsqrt_fin_ne_zero k hk false)
  · intro h
    rw [h, fsqrt_zero]

theorem fadd_eq_zero_iff (x y : F32) (hx : nonneg x = true) (hy : nonneg y = true) :
    fadd x y = zero ↔ x = zero ∧ y = zero := by
  constructor
  · intro h
    cases x with
    | nan => simp [nonneg] at hx
    | inf s =>
      cases y with
      | nan => simp [nonneg] at hy
      | inf t =>
        simp only [fadd] at h
        split_ifs at h <;> simp [zero] at h
      | fin t l => simp [fadd, zero] at h
    | fin s k =>
      cases y with
      | nan => simp [nonneg] at hy
      | inf t => simp [fadd, zero] at h
      | fin t l =>
        simp only [nonneg, Bool.not_eq_true'] at hx hy
        subst hx; subst hy
        simp only [fadd, signed_false] at h
        split_ifs at h with hv
        · have hk : mant k * 2 ^ (expo k - min (expo k) (expo l)).toNat = 0 := by omega
          have hl : mant l * 2 ^ (expo l - min (expo k) (expo l)).toNat = 0 := by omega
          have hk' : mant k = 0 := by
            rcases Nat.mul_eq_zero.1 hk with h1 | h1
            · exact h1
            · exact absurd h1 (by positivity)
          have hl' : mant l = 0 := by
            rcases Nat.mul_eq_zero.1 hl with h1 | h1
            · exact h1
            · exact absurd h1 (by positivity)
          have ek : k = 0 := Fin.ext ((mant_eq_zero_iff k).1 hk')
          have el : l = 0 := Fin.ext ((mant_eq_zero_iff l).1 hl')
          subst ek; subst el
          exact ⟨rfl, rfl⟩
        · exfalso
          refine round_ne_zero _ false _ _ ?_ ?_ h
          · intro h0; exact hv (by omega)
          · exact le_min (expo_ge k) (expo_ge l)
  · rintro ⟨rfl, rfl⟩
    exact fadd_zero_zero

theorem accumulate_eq_zero_iff (a p : List F32) (n : Nat)
    (ha : ∀ i, i < n → isFinite (a.getD i nan) = true)
    (hp : ∀ i, i < n → isFinite (p.getD i nan) = true) :
    accumulate a p n = zero ↔ ∀ i, i < n → sqDiff (a.getD i nan) (p.getD i nan) = zero := by
  induction n with
  | zero => simp [accumulate_zero]
  | succ m ih =>
    have ha' : ∀ i, i < m → isFinite (a.getD i nan) = true := fun i hi =>
      ha i (Nat.lt_succ_of_lt hi)
    have hp' : ∀ i, i < m → isFinite (p.getD i nan) = true := fun i hi =>
      hp i (Nat.lt_succ_of_lt hi)
    rw [accumulate_succ, fadd_eq_zero_iff _ _ (accumulate_nonneg_of_finite a p m ha' hp')
      (sqDiff_nonneg_of_finite _ _ (ha m (Nat.lt_succ_self m)) (hp m (Nat.lt_succ_self m))),
      ih ha' hp']
    constructor
    · rintro ⟨h1, h2⟩ i hi
      rcases Nat.lt_succ_iff_lt_or_eq.1 hi with h | h
      · exact h1 i h
      · rw [h]; exact h2
    · intro h
      exact ⟨fun i hi => h i (Nat.lt_succ_of_lt hi), h m (Nat.lt_succ_self m)⟩

/-! ## Underflow to zero -/

theorem shiftRoundNE_eq_zero_iff (m s : Nat) : shiftRoundNE m s = 0 ↔ 2 * m ≤ 2 ^ s := by
  have hpos : 0 < 2 ^ s := by positivity
  have hdm := Nat.div_add_mod m (2 ^ s)
  constructor
  · intro h
    have hq : m / 2 ^ s = 0 := by
      have := le_shiftRoundNE m s
      rw [h] at this
      exact Nat.le_zero.1 this
    have hr : m % 2 ^ s = m := by rw [hq, mul_zero, zero_add] at hdm; exact hdm
    simp only [shiftRoundNE, hq, hr] at h
    split_ifs at h <;> omega
  · intro h
    have hlt : m < 2 ^ s := by omega
    have hq : m / 2 ^ s = 0 := Nat.div_eq_of_lt hlt
    have hr : m % 2 ^ s = m := Nat.mod_eq_of_lt hlt
    simp only [shiftRoundNE, hq, hr]
    split_ifs <;> first | rfl | omega

theorem encode_eq_zero_iff (s : Bool) (M : Nat) (q : Int) (hq : -149 ≤ q) :
    encode s M q = fin s 0 ↔ M = 0 := by
  constructor
  · intro h
    by_contra hM
    exact encode_ne_zero s s M q hM hq h
  · intro h
    subst h
    exact encode_eq_fin s 0 q 0 (by norm_num) (by simp)

/-- A number rounds to zero exactly when it is zero or at most half the least
subnormal number, `2 ^ -150`. -/
theorem round_eq_zero_iff (s : Bool) (m : Nat) (e : Int) :
    F32.round s m e = fin s 0 ↔ m = 0 ∨ (e < -149 ∧ 2 * m ≤ 2 ^ (-149 - e).toNat) := by
  unfold F32.round
  rw [encode_eq_zero_iff s _ _ (by rw [roundDyadic_snd]; exact le_max_right _ _)]
  by_cases hm : m = 0
  · subst hm
    simp only [roundDyadic, true_or, iff_true]
    split_ifs <;> simp [shiftRoundNE]
  · have hlo := two_pow_le_of_bitLength m hm
    have hhi := lt_two_pow_bitLength m
    have hL0 : 0 < bitLength m := (lt_bitLength_iff m 0).2 (by rw [pow_zero]; omega)
    simp only [hm, false_or, roundDyadic]
    by_cases hqa : -149 ≤ e + (bitLength m : Int) - ((24 : Nat) : Int)
    · have hq : max (e + (bitLength m : Int) - ((24 : Nat) : Int)) (-149)
          = e + (bitLength m : Int) - ((24 : Nat) : Int) := max_eq_left hqa
      rw [hq]
      have hrhs : ¬ (e < -149 ∧ 2 * m ≤ 2 ^ (-149 - e).toNat) := by
        rintro ⟨h1, h2⟩
        have h3 : (-149 - e).toNat ≤ bitLength m - 1 := by omega
        have h4 : 2 ^ (-149 - e).toNat ≤ 2 ^ (bitLength m - 1) :=
          Nat.pow_le_pow_right (by norm_num) h3
        omega
      simp only [hrhs, iff_false]
      split_ifs with h
      · simp only
        exact Nat.mul_ne_zero hm (by positivity)
      · simp only
        rw [shiftRoundNE_eq_zero_iff]
        have h3 : (e + (bitLength m : Int) - ((24 : Nat) : Int) - e).toNat ≤ bitLength m - 1 := by
          omega
        have h4 : 2 ^ (e + (bitLength m : Int) - ((24 : Nat) : Int) - e).toNat
            ≤ 2 ^ (bitLength m - 1) := Nat.pow_le_pow_right (by norm_num) h3
        omega
    · have hq : max (e + (bitLength m : Int) - ((24 : Nat) : Int)) (-149) = -149 :=
        max_eq_right (by omega)
      rw [hq]
      split_ifs with h
      · simp only
        constructor
        · intro h1; exact absurd h1 (Nat.mul_ne_zero hm (by positivity))
        · rintro ⟨h1, _⟩; omega
      · simp only
        rw [shiftRoundNE_eq_zero_iff]
        constructor
        · intro h1; exact ⟨by omega, h1⟩
        · rintro ⟨_, h1⟩; exact h1

/-- The square of a finite datum is zero exactly when its magnitude is at most
`2 ^ -75`, whose magnitude field is `0x1A000000 = 436207616`. -/
theorem fmul_self_eq_zero_iff (s : Bool) (k : Fin 2139095040) :
    fmul (fin s k) (fin s k) = zero ↔ k.val ≤ 436207616 := by
  have hx : fmul (fin s k) (fin s k)
      = F32.round false (mant k * mant k) (expo k + expo k) := by
    cases s <;> rfl
  rw [hx, zero, round_eq_zero_iff]
  obtain ⟨k, hk⟩ := k
  have hdm := Nat.div_add_mod k (2 ^ 23)
  have hmod := Nat.mod_lt k (show 0 < 2 ^ 23 by norm_num)
  simp only
  by_cases h0 : k / 2 ^ 23 = 0
  · have hm : mant k = k := by unfold mant; rw [if_pos h0]; omega
    have he : expo k = -149 := by unfold expo; rw [if_pos h0]
    have hlt : k < 2 ^ 23 := by omega
    rw [hm, he]
    have h1 : k * k < 2 ^ 23 * 2 ^ 23 := Nat.mul_lt_mul'' hlt hlt
    have h2 : (-149 - (-149 + -149 : Int)).toNat = 149 := by rfl
    rw [h2]
    constructor
    · intro _; omega
    · intro _
      right
      refine ⟨by norm_num, ?_⟩
      have : (2 : Nat) ^ 23 * 2 ^ 23 * 2 ≤ 2 ^ 149 := by norm_num
      omega
  · have hE : 1 ≤ k / 2 ^ 23 := Nat.one_le_iff_ne_zero.2 h0
    have hm : mant k = 2 ^ 23 + k % 2 ^ 23 := by unfold mant; rw [if_neg h0]
    have he : expo k = ((k / 2 ^ 23 : Nat) : Int) - 150 := by unfold expo; rw [if_neg h0]
    rw [hm, he]
    generalize hF : k % 2 ^ 23 = F at *
    generalize hEE : k / 2 ^ 23 = E at *
    have hMlo : 2 ^ 23 * 2 ^ 23 ≤ (2 ^ 23 + F) * (2 ^ 23 + F) :=
      Nat.mul_le_mul (by omega) (by omega)
    have hMhi : (2 ^ 23 + F) * (2 ^ 23 + F) < 2 ^ 24 * 2 ^ 24 :=
      Nat.mul_lt_mul'' (by omega) (by omega)
    have hP1 : F ≠ 0 → (2 ^ 23 + 1) * (2 ^ 23 + 1) ≤ (2 ^ 23 + F) * (2 ^ 23 + F) := fun hF0 =>
      Nat.mul_le_mul (by omega) (by omega)
    have hP0 : F = 0 → (2 ^ 23 + F) * (2 ^ 23 + F) = 2 ^ 23 * 2 ^ 23 := fun hF0 => by
      rw [hF0, add_zero]
    have hsh : (-149 - (((E : Nat) : Int) - 150 + (((E : Nat) : Int) - 150))).toNat
        = 151 - 2 * E := by omega
    rw [hsh]
    generalize (2 ^ 23 + F) * (2 ^ 23 + F) = P at *
    have hne : P ≠ 0 := by omega
    simp only [hne, false_or]
    constructor
    · rintro ⟨h1, h2⟩
      have hE75 : E ≤ 75 := by omega
      by_contra hcon
      have hk52 : 52 ≤ E := by
        by_contra h52
        have : E ≤ 51 := by omega
        have : 2 ^ 23 * E ≤ 2 ^ 23 * 51 := Nat.mul_le_mul_left _ this
        omega
      by_cases h52 : E = 52
      · subst h52
        have hF0 : F ≠ 0 := by omega
        have h3 := hP1 hF0
        have hpow : 2 ^ (151 - 2 * 52) = 2 ^ 47 := by norm_num
        rw [hpow] at h2
        omega
      · have hpow' : 2 ^ (151 - 2 * E) ≤ 2 ^ 45 :=
          Nat.pow_le_pow_right (by norm_num) (by omega)
        omega
    · intro hle
      have hE52 : E ≤ 52 := by
        by_contra h52
        have : 53 ≤ E := by omega
        have : 2 ^ 23 * 53 ≤ 2 ^ 23 * E := Nat.mul_le_mul_left _ this
        omega
      refine ⟨by omega, ?_⟩
      by_cases h52 : E = 52
      · subst h52
        have hF0 : F = 0 := by omega
        have h3 := hP0 hF0
        have hpow : 2 ^ (151 - 2 * 52) = 2 ^ 47 := by norm_num
        rw [hpow]
        omega
      · have hpow : 2 ^ 49 ≤ 2 ^ (151 - 2 * E) :=
          Nat.pow_le_pow_right (by norm_num) (by omega)
        omega

/-- The squared difference is zero exactly when the magnitude of the difference,
as computed in binary32, is at most `2 ^ -75`. -/
theorem sqDiff_eq_zero_iff (a b : F32) :
    sqDiff a b = zero ↔ fle (fabs (fsub a b)) (ofBits 0x1A000000) = true := by
  have hc : ofBits 0x1A000000 = fin false ⟨436207616, by norm_num⟩ := by decide
  rw [sqDiff, hc]
  cases h : fsub a b with
  | nan => simp [fmul, fabs, fle, zero]
  | inf s => cases s <;> simp [fmul, fabs, fle, zero]
  | fin s k =>
    rw [fmul_self_eq_zero_iff]
    simp only [fabs, fle, signed, decide_eq_true_eq, Bool.false_eq_true, if_false, Nat.cast_le]

/-! ## Where NaN comes from -/

theorem fsub_eq_nan_iff (a b : F32) : fsub a b = nan ↔ nanPair a b = true := by
  cases a with
  | nan => cases b <;> simp [fsub, fadd, fneg, nanPair]
  | inf s =>
    cases b with
    | nan => simp [fsub, fadd, fneg, nanPair]
    | inf t => cases s <;> cases t <;> simp [fsub, fadd, fneg, nanPair]
    | fin t l => simp [fsub, fadd, fneg, nanPair]
  | fin s k =>
    cases b with
    | nan => simp [fsub, fadd, fneg, nanPair]
    | inf t => simp [fsub, fadd, fneg, nanPair]
    | fin t l =>
      simp only [nanPair, Bool.false_eq_true, iff_false]
      exact fsub_ne_nan_of_finite _ _ rfl rfl

theorem fmul_self_eq_nan_iff (d : F32) : fmul d d = nan ↔ d = nan := by
  constructor
  · intro h
    by_contra hd
    have := fmul_self_nonneg d hd
    rw [h] at this
    simp [nonneg] at this
  · intro h; rw [h]; rfl

theorem sqDiff_eq_nan_iff (a b : F32) : sqDiff a b = nan ↔ nanPair a b = true := by
  rw [sqDiff, fmul_self_eq_nan_iff, fsub_eq_nan_iff]

theorem fadd_eq_nan_iff (x y : F32) (hx : x = nan ∨ nonneg x = true)
    (hy : y = nan ∨ nonneg y = true) : fadd x y = nan ↔ x = nan ∨ y = nan := by
  constructor
  · intro h
    by_contra hcon
    push_neg at hcon
    have hx' : nonneg x = true := hx.resolve_left hcon.1
    have hy' : nonneg y = true := hy.resolve_left hcon.2
    have := fadd_nonneg x y hx' hy'
    rw [h] at this
    simp [nonneg] at this
  · rintro (h | h)
    · rw [h]; cases y <;> rfl
    · rw [h]; cases x <;> rfl

theorem fsqrt_eq_nan_iff (x : F32) (hx : x = nan ∨ nonneg x = true) :
    fsqrt x = nan ↔ x = nan := by
  constructor
  · intro h
    by_contra hcon
    have := fsqrt_nonneg x (hx.resolve_left hcon)
    rw [h] at this
    simp [nonneg] at this
  · intro h; rw [h]; rfl

/-- The accumulator is NaN exactly when some compared pair is a NaN pair. -/
theorem accumulate_eq_nan_iff (a p : List F32) (n : Nat) :
    accumulate a p n = nan ↔ ∃ i, i < n ∧ nanPair (a.getD i nan) (p.getD i nan) = true := by
  induction n with
  | zero => simp [accumulate_zero, zero]
  | succ m ih =>
    rw [accumulate_succ, fadd_eq_nan_iff _ _ (accumulate_nan_or_nonneg a p m)
      (sqDiff_nan_or_nonneg _ _), ih, sqDiff_eq_nan_iff]
    constructor
    · rintro (⟨i, hi, h⟩ | h)
      · exact ⟨i, Nat.lt_succ_of_lt hi, h⟩
      · exact ⟨m, Nat.lt_succ_self m, h⟩
    · rintro ⟨i, hi, h⟩
      rcases Nat.lt_succ_iff_lt_or_eq.1 hi with h' | h'
      · exact Or.inl ⟨i, h', h⟩
      · subst h'; exact Or.inr h

theorem distance_eq_nan_iff (a p : List F32) (n : Nat) :
    distance a p n = nan ↔ ∃ i, i < n ∧ nanPair (a.getD i nan) (p.getD i nan) = true := by
  rw [distance, fsqrt_eq_nan_iff _ (accumulate_nan_or_nonneg a p n), accumulate_eq_nan_iff]

theorem fle_zero_iff (x : F32) (hx : x = nan ∨ nonneg x = true) :
    fle zero x = true ↔ x ≠ nan := by
  constructor
  · intro h hn
    rw [hn] at h
    simp [fle, zero] at h
  · intro h
    exact fle_zero_of_nonneg x (hx.resolve_left h)

/-! ## Integers: operations that do not round -/

theorem natAbs_signed (s : Bool) (m : Nat) : (signed s m).natAbs = m := by
  cases s <;> simp [signed]

theorem signed_decide (z : Int) : signed (decide (z < 0)) z.natAbs = z := by
  by_cases h : z < 0
  · simp only [h, decide_True, signed, if_true]
    rw [Int.ofNat_natAbs_of_nonpos (by omega)]; ring
  · simp only [h, decide_False, signed]
    simpa using Int.natAbs_of_nonneg (by omega)

theorem signed_mul (s : Bool) (m c : Nat) : signed s (m * c) = signed s m * c := by
  cases s <;> simp [signed]

theorem signed_neg_iff (s : Bool) (m : Nat) (hm : m ≠ 0) : signed s m < 0 ↔ s = true := by
  cases s
  · simp [signed]
  · simp [signed]; omega

/-- Canonical significand and exponent are read back from the packed datum. -/
theorem encode_normal (s : Bool) (M : Nat) (q : Int) (h1 : 2 ^ 23 ≤ M) (h2 : M < 2 ^ 24)
    (h3 : -149 ≤ q) (h4 : q ≤ 104) :
    ∃ k : Fin 2139095040, encode s M q = fin s k ∧ mant k = M ∧ expo k = q := by
  have hE : (q + 150).toNat * 2 ^ 23 + (M - 2 ^ 23) < 2139095040 := by
    have : (q + 150).toNat ≤ 254 := by omega
    have : (q + 150).toNat * 2 ^ 23 ≤ 254 * 2 ^ 23 := Nat.mul_le_mul_right _ this
    omega
  refine ⟨⟨_, hE⟩, encode_eq_fin s M q _ hE (by rw [if_neg (by omega)]), ?_, ?_⟩
  · have hdiv : ((q + 150).toNat * 2 ^ 23 + (M - 2 ^ 23)) / 2 ^ 23 = (q + 150).toNat := by
      rw [Nat.add_comm, Nat.add_mul_div_right _ _ (by norm_num : 0 < 2 ^ 23),
        Nat.div_eq_of_lt (by omega)]
      simp
    have hmod : ((q + 150).toNat * 2 ^ 23 + (M - 2 ^ 23)) % 2 ^ 23 = M - 2 ^ 23 := by
      rw [Nat.add_comm, Nat.add_mul_mod_self_right, Nat.mod_eq_of_lt (by omega)]
    simp only [mant]
    rw [if_neg (by rw [hdiv]; omega), hmod]
    omega
  · have hdiv : ((q + 150).toNat * 2 ^ 23 + (M - 2 ^ 23)) / 2 ^ 23 = (q + 150).toNat := by
      rw [Nat.add_comm, Nat.add_mul_div_right _ _ (by norm_num : 0 < 2 ^ 23),
        Nat.div_eq_of_lt (by omega)]
      simp
    simp only [expo]
    rw [if_neg (by rw [hdiv]; omega), hdiv]
    omega

theorem ofInt_zero : ofInt 0 = zero := by decide

set_option maxRecDepth 100000 in
theorem isInt_zero : isInt zero 0 = true := by decide

/-- An integer below `2 ^ 24` in magnitude is a binary32 datum. -/
theorem isInt_ofInt (z : Int) (hz : z.natAbs < 2 ^ 24) : isInt (ofInt z) z = true := by
  by_cases h0 : z = 0
  · subst h0; rw [ofInt_zero]; exact isInt_zero
  · have hm : z.natAbs ≠ 0 := by omega
    have hL1 : bitLength z.natAbs ≤ 24 := (bitLength_le_iff _ 24).2 hz
    have hL0 : 0 < bitLength z.natAbs :=
      (lt_bitLength_iff _ 0).2 (by rw [pow_zero]; omega)
    have hlo := two_pow_le_of_bitLength _ hm
    have hhi := lt_two_pow_bitLength z.natAbs
    have hq : max ((0 : Int) + (bitLength z.natAbs : Int) - ((24 : Nat) : Int)) (-149)
        = (bitLength z.natAbs : Int) - 24 := by
      rw [max_def]; split_ifs <;> omega
    have hsh : ((0 : Int) - ((bitLength z.natAbs : Int) - 24)).toNat = 24 - bitLength z.natAbs := by
      omega
    have hrd : roundDyadic 24 (-149) z.natAbs 0
        = (z.natAbs * 2 ^ (24 - bitLength z.natAbs), (bitLength z.natAbs : Int) - 24) := by
      rw [roundDyadic_exact 24 (-149) _ 0 (by norm_num) (by exact_mod_cast hL1), hq, hsh]
    have hM1 : 2 ^ 23 ≤ z.natAbs * 2 ^ (24 - bitLength z.natAbs) := by
      calc 2 ^ 23 = 2 ^ (bitLength z.natAbs - 1) * 2 ^ (24 - bitLength z.natAbs) := by
            rw [← pow_add]; congr 1; omega
        _ ≤ z.natAbs * 2 ^ (24 - bitLength z.natAbs) := Nat.mul_le_mul_right _ hlo
    have hM2 : z.natAbs * 2 ^ (24 - bitLength z.natAbs) < 2 ^ 24 := by
      calc z.natAbs * 2 ^ (24 - bitLength z.natAbs)
          < 2 ^ bitLength z.natAbs * 2 ^ (24 - bitLength z.natAbs) :=
            Nat.mul_lt_mul_of_pos_right hhi (by positivity)
        _ = 2 ^ 24 := by rw [← pow_add]; congr 1; omega
    obtain ⟨k, hk, hkm, hke⟩ := encode_normal (decide (z < 0))
      (z.natAbs * 2 ^ (24 - bitLength z.natAbs)) ((bitLength z.natAbs : Int) - 24)
      hM1 hM2 (by omega) (by omega)
    have hof : ofInt z = fin (decide (z < 0)) k := by
      simp only [ofInt, F32.round, hrd]
      exact hk
    rw [hof]
    simp only [isInt, hkm, hke, decide_eq_true_eq]
    refine ⟨by omega, ?_⟩
    rw [signed_mul, signed_decide]
    have : (-((bitLength z.natAbs : Int) - 24)).toNat = 24 - bitLength z.natAbs := by omega
    rw [this]
    push_cast
    ring

/-- The datum that is the integer `z ≠ 0` is `ofInt z`. -/
theorem eq_ofInt_of_isInt (x : F32) (z : Int) (h : isInt x z = true) (hz : z ≠ 0) :
    x = ofInt z := by
  cases x with
  | nan => simp [isInt] at h
  | inf s => simp [isInt] at h
  | fin s k =>
    simp only [isInt, decide_eq_true_eq] at h
    obtain ⟨he, hv⟩ := h
    obtain ⟨j, hj⟩ : ∃ j : Nat, expo k = 0 - (j : Int) := ⟨(-expo k).toNat, by omega⟩
    have hj' : (-expo k).toNat = j := by omega
    rw [hj'] at hv
    have hm : mant k = z.natAbs * 2 ^ j := by
      have := congrArg Int.natAbs hv
      rw [natAbs_signed, Int.natAbs_mul, Int.natAbs_pow] at this
      simpa using this
    have hm0 : mant k ≠ 0 := by
      rw [hm]; exact Nat.mul_ne_zero (by omega) (by positivity)
    have hs : s = decide (z < 0) := by
      have hpos : (0 : Int) < 2 ^ j := by positivity
      by_cases hz' : z < 0
      · have : signed s (mant k) < 0 := by rw [hv]; exact mul_neg_of_neg_of_pos hz' hpos
        rw [(signed_neg_iff s _ hm0).1 this]; simp [hz']
      · have : ¬ signed s (mant k) < 0 := by
          rw [hv]; exact not_lt.2 (mul_nonneg (by omega) hpos.le)
        have hs' : s ≠ true := fun h1 => this ((signed_neg_iff s _ hm0).2 h1)
        simp [hz']; simpa using hs'
    have key := round_shift s z.natAbs j 0
    rw [← hj, ← hm, round_mant_expo] at key
    rw [key, hs]
    rfl

theorem fin_zero_of_isInt (x : F32) (h : isInt x 0 = true) : x = fin true 0 ∨ x = zero := by
  cases x with
  | nan => simp [isInt] at h
  | inf s => simp [isInt] at h
  | fin s k =>
    simp only [isInt, decide_eq_true_eq, zero_mul] at h
    have hm : mant k = 0 := by
      have := congrArg Int.natAbs h.2
      rwa [natAbs_signed] at this
    have hk : k = 0 := Fin.ext ((mant_eq_zero_iff k).1 hm)
    subst hk
    cases s
    · exact Or.inr rfl
    · exact Or.inl rfl

theorem isInt_fneg (x : F32) (z : Int) (h : isInt x z = true) : isInt (fneg x) (-z) = true := by
  cases x with
  | nan => simp [isInt] at h
  | inf s => simp [isInt] at h
  | fin s k =>
    simp only [isInt, fneg, decide_eq_true_eq, signed_not] at h ⊢
    refine ⟨h.1, ?_⟩
    rw [h.2]; ring

theorem isInt_fin_iff (s : Bool) (k : Fin 2139095040) (z : Int) :
    isInt (fin s k) z = true ↔
      ∃ j : Nat, expo k = 0 - (j : Int) ∧ signed s (mant k) = z * 2 ^ j := by
  simp only [isInt, decide_eq_true_eq]
  constructor
  · rintro ⟨h1, h2⟩
    exact ⟨(-expo k).toNat, by omega, h2⟩
  · rintro ⟨j, h1, h2⟩
    have : (-expo k).toNat = j := by omega
    rw [this]
    exact ⟨by omega, h2⟩

theorem ofInt_shift (z : Int) (J : Nat) :
    F32.round (decide (z * 2 ^ J < 0)) (z * 2 ^ J).natAbs (0 - (J : Int)) = ofInt z := by
  have hpos : (0 : Int) < 2 ^ J := by positivity
  have h1 : (z * 2 ^ J).natAbs = z.natAbs * 2 ^ J := by
    rw [Int.natAbs_mul, Int.natAbs_pow]; rfl
  have h2 : decide (z * 2 ^ J < 0) = decide (z < 0) := by
    congr 1
    exact propext ⟨fun h => by
      by_contra hz
      exact absurd h (not_lt.2 (mul_nonneg (by omega) hpos.le)),
      fun h => mul_neg_of_neg_of_pos h hpos⟩
  rw [h1, h2, round_shift]
  rfl

theorem fadd_fin_int (s1 s2 : Bool) (k1 k2 : Fin 2139095040) (x y : Int)
    (ha : isInt (fin s1 k1) x = true) (hb : isInt (fin s2 k2) y = true) :
    fadd (fin s1 k1) (fin s2 k2)
      = if x + y = 0 then fin (s1 && s2) 0 else ofInt (x + y) := by
  obtain ⟨j1, he1, hv1⟩ := (isInt_fin_iff s1 k1 x).1 ha
  obtain ⟨j2, he2, hv2⟩ := (isInt_fin_iff s2 k2 y).1 hb
  have hq : min (expo k1) (expo k2) = 0 - ((max j1 j2 : Nat) : Int) := by
    rw [he1, he2, min_def, max_def]; split_ifs <;> omega
  have hs1 : (expo k1 - min (expo k1) (expo k2)).toNat = max j1 j2 - j1 := by
    rw [hq, he1]; have := le_max_left j1 j2; omega
  have hs2 : (expo k2 - min (expo k1) (expo k2)).toNat = max j1 j2 - j2 := by
    rw [hq, he2]; have := le_max_right j1 j2; omega
  have hv1' : signed s1 (mant k1 * 2 ^ (max j1 j2 - j1)) = x * 2 ^ max j1 j2 := by
    have := le_max_left j1 j2
    rw [signed_mul, hv1]; push_cast
    rw [mul_assoc, ← pow_add]; congr 2; omega
  have hv2' : signed s2 (mant k2 * 2 ^ (max j1 j2 - j2)) = y * 2 ^ max j1 j2 := by
    have := le_max_right j1 j2
    rw [signed_mul, hv2]; push_cast
    rw [mul_assoc, ← pow_add]; congr 2; omega
  have hv : x * 2 ^ max j1 j2 + y * 2 ^ max j1 j2 = (x + y) * 2 ^ max j1 j2 := by ring
  simp only [fadd, hs1, hs2, hv1', hv2', hv]
  by_cases hxy : x + y = 0
  · rw [if_pos hxy, if_pos (by rw [hxy, zero_mul])]
  · have hne : (x + y) * 2 ^ max j1 j2 ≠ 0 := mul_ne_zero hxy (by positivity)
    rw [if_neg hxy, if_neg hne, hq]
    exact ofInt_shift (x + y) (max j1 j2)

/-- Addition of integer data: the sum is rounded once, as `ofInt` rounds it. -/
theorem fadd_int (a b : F32) (x y : Int) (ha : isInt a x = true) (hb : isInt b y = true)
    (hxy : x + y ≠ 0) : fadd a b = ofInt (x + y) := by
  cases a with
  | nan => simp [isInt] at ha
  | inf s => simp [isInt] at ha
  | fin s1 k1 =>
    cases b with
    | nan => simp [isInt] at hb
    | inf t => simp [isInt] at hb
    | fin s2 k2 => rw [fadd_fin_int s1 s2 k1 k2 x y ha hb, if_neg hxy]

theorem fadd_int_zero (a b : F32) (x y : Int) (ha : isInt a x = true) (hb : isInt b y = true)
    (hxy : x + y = 0) : fadd a b = zero ∨ fadd a b = fin true 0 := by
  cases a with
  | nan => simp [isInt] at ha
  | inf s => simp [isInt] at ha
  | fin s1 k1 =>
    cases b with
    | nan => simp [isInt] at hb
    | inf t => simp [isInt] at hb
    | fin s2 k2 =>
      rw [fadd_fin_int s1 s2 k1 k2 x y ha hb, if_pos hxy]
      cases s1 <;> cases s2 <;> simp [zero]

theorem fsub_int (a b : F32) (x y : Int) (ha : isInt a x = true) (hb : isInt b y = true)
    (hxy : x - y ≠ 0) : fsub a b = ofInt (x - y) := by
  rw [fsub, sub_eq_add_neg]
  exact fadd_int a (fneg b) x (-y) ha (isInt_fneg b y hb) (by omega)

/-- The square of an integer datum. -/
theorem fmul_self_int (d : F32) (z : Int) (hd : isInt d z = true) :
    fmul d d = ofInt (z * z) := by
  cases d with
  | nan => simp [isInt] at hd
  | inf s => simp [isInt] at hd
  | fin s k =>
    obtain ⟨j, he, hv⟩ := (isInt_fin_iff s k z).1 hd
    have hm : mant k = z.natAbs * 2 ^ j := by
      have := congrArg Int.natAbs hv
      rw [natAbs_signed, Int.natAbs_mul, Int.natAbs_pow] at this
      simpa using this
    have hx : fmul (fin s k) (fin s k)
        = F32.round false (mant k * mant k) (expo k + expo k) := by
      cases s <;> rfl
    have hmm : mant k * mant k = (z * z).natAbs * 2 ^ (j + j) := by
      rw [hm, Int.natAbs_mul, pow_add]; ring
    have hee : expo k + expo k = 0 - ((j + j : Nat) : Int) := by rw [he]; push_cast; ring
    have hs : decide (z * z < 0) = false := by
      simp only [decide_eq_false_iff_not, not_lt]; exact mul_self_nonneg z
    rw [hx, hmm, hee, round_shift, ofInt, hs]

/-- One term of the accumulator on integer data: nothing is lost as long as the
difference is below `2 ^ 24` in magnitude. -/
theorem sqDiff_int (a b : F32) (x y : Int) (ha : isInt a x = true) (hb : isInt b y = true)
    (hxy : (x - y).natAbs < 2 ^ 24) : sqDiff a b = ofInt ((x - y) ^ 2) := by
  rw [sqDiff, pow_two]
  by_cases h0 : x - y = 0
  · have h := fadd_int_zero a (fneg b) x (-y) ha (isInt_fneg b y hb) (by omega)
    rw [h0, mul_zero, ofInt_zero]
    rcases h with h | h
    · rw [fsub, h]; exact fmul_zero_self false
    · rw [fsub, h]; exact fmul_zero_self true
  · rw [fsub_int a b x y ha hb h0]
    exact fmul_self_int _ _ (isInt_ofInt _ hxy)

theorem fadd_ofInt (x y : Int) (hx : x.natAbs < 2 ^ 24) (hy : y.natAbs < 2 ^ 24)
    (hx0 : 0 ≤ x) (hy0 : 0 ≤ y) : fadd (ofInt x) (ofInt y) = ofInt (x + y) := by
  by_cases h0 : x + y = 0
  · have ex : x = 0 := by omega
    have ey : y = 0 := by omega
    subst ex; subst ey
    simp only [ofInt_zero, add_zero]
    exact fadd_zero_zero
  · exact fadd_int _ _ x y (isInt_ofInt x hx) (isInt_ofInt y hy) h0

theorem intSqSum_zero (x y : List Int) : intSqSum x y 0 = 0 := by
  simp [intSqSum]

theorem intSqSum_succ (x y : List Int) (n : Nat) :
    intSqSum x y (n + 1) = intSqSum x y n + (x.getD n 0 - y.getD n 0) ^ 2 := by
  simp [intSqSum, List.range_succ]

theorem intSqSum_nonneg (x y : List Int) (n : Nat) : 0 ≤ intSqSum x y n := by
  induction n with
  | zero => simp [intSqSum_zero]
  | succ m ih => rw [intSqSum_succ]; positivity

/-- On integer data whose squared differences sum to less than `2 ^ 24` the
accumulator is the exact sum. -/
theorem accumulate_int (a p : List F32) (x y : List Int) (n : Nat)
    (ha : ∀ i, i < n → isInt (a.getD i nan) (x.getD i 0) = true)
    (hp : ∀ i, i < n → isInt (p.getD i nan) (y.getD i 0) = true)
    (hS : intSqSum x y n < 2 ^ 24) : accumulate a p n = ofInt (intSqSum x y n) := by
  induction n with
  | zero => rw [accumulate_zero, intSqSum_zero, ofInt_zero]
  | succ m ih =>
    rw [intSqSum_succ] at hS
    have hS0 := intSqSum_nonneg x y m
    have hT0 : 0 ≤ (x.getD m 0 - y.getD m 0) ^ 2 := by positivity
    have hT : (x.getD m 0 - y.getD m 0) ^ 2 < 2 ^ 24 := by omega
    have hd : (x.getD m 0 - y.getD m 0).natAbs < 2 ^ 24 := by
      by_contra hcon
      have h1 : (2 : Int) ^ 24 ≤ ((x.getD m 0 - y.getD m 0).natAbs : Int) := by
        exact_mod_cast not_lt.1 hcon
      have h2 : (((x.getD m 0 - y.getD m 0).natAbs : Int)) ^ 2 = (x.getD m 0 - y.getD m 0) ^ 2 :=
        Int.natAbs_sq _
      nlinarith
    rw [accumulate_succ, intSqSum_succ,
      ih (fun i hi => ha i (Nat.lt_succ_of_lt hi)) (fun i hi => hp i (Nat.lt_succ_of_lt hi))
        (by omega),
      sqDiff_int _ _ _ _ (ha m (Nat.lt_succ_self m)) (hp m (Nat.lt_succ_self m)) hd]
    exact fadd_ofInt _ _ (by omega) (by omega) hS0 hT0

theorem ofInt_natCast (r : Nat) : ofInt (r : Int) = F32.round false r 0 := by
  have h : decide ((r : Int) < 0) = false := by simp
  rw [ofInt, h, Int.natAbs_ofNat]

theorem sqrtDyadic_sq (r j : Nat) :
    sqrtDyadic (r * r * 2 ^ j) (0 - (j : Int))
      = (r * 2 ^ ((j + 110 + j % 2) / 2 + 1), 0 - (((j + 110 + j % 2) / 2 + 1 : Nat) : Int)) := by
  have hpar : (0 - (j : Int)).natAbs % 2 = j % 2 := by
    congr 1; omega
  have h2 : 2 * ((j + 110 + j % 2) / 2) = j + 110 + j % 2 := by omega
  have hn : r * r * 2 ^ j * 2 ^ (110 + j % 2)
      = (r * 2 ^ ((j + 110 + j % 2) / 2)) * (r * 2 ^ ((j + 110 + j % 2) / 2)) := by
    have : (2 : Nat) ^ j * 2 ^ (110 + j % 2)
        = 2 ^ ((j + 110 + j % 2) / 2) * 2 ^ ((j + 110 + j % 2) / 2) := by
      rw [← pow_add, ← pow_add]; congr 1; omega
    calc r * r * 2 ^ j * 2 ^ (110 + j % 2) = r * r * (2 ^ j * 2 ^ (110 + j % 2)) := by ring
      _ = _ := by rw [this]; ring
  simp only [sqrtDyadic, hpar]
  rw [hn, isqrt_eq_sqrt, Nat.sqrt_eq, if_pos rfl]
  refine Prod.ext ?_ ?_
  · simp only [add_zero, pow_succ]; ring
  · simp only; omega

/-- The square root of a perfect square is exact. -/
theorem fsqrt_int_sq (x : F32) (r : Nat) (hr : 0 < r) (hx : isInt x ((r : Int) * r) = true) :
    fsqrt x = ofInt r := by
  cases x with
  | nan => simp [isInt] at hx
  | inf s => simp [isInt] at hx
  | fin s k =>
    obtain ⟨j, he, hv⟩ := (isInt_fin_iff s k _).1 hx
    have hpos : (0 : Int) < (r : Int) * r * 2 ^ j := by positivity
    have hm : mant k = r * r * 2 ^ j := by
      have := congrArg Int.natAbs hv
      rw [natAbs_signed] at this
      rw [this]
      have e : ((r : Int) * r * 2 ^ j) = ((r * r * 2 ^ j : Nat) : Int) := by push_cast; ring
      rw [e, Int.natAbs_ofNat]
    have hm0 : mant k ≠ 0 := by rw [hm]; positivity
    have hs : s = false := by
      cases s
      · rfl
      · exfalso
        have : signed true (mant k) < 0 := (signed_neg_iff true _ hm0).2 rfl
        rw [hv] at this
        omega
    subst hs
    have hk0 : k.val ≠ 0 := fun h => hm0 ((mant_eq_zero_iff k).2 h)
    have hrlt : r < 2 ^ 24 := by
      have h1 := mant_lt k
      have h2 : r ≤ r * r * 2 ^ j := by
        calc r = r * 1 * 1 := by ring
          _ ≤ r * r * 2 ^ j := Nat.mul_le_mul (Nat.mul_le_mul_left _ hr) (Nat.one_le_two_pow)
      omega
    have hr0 : r ≠ 0 := by omega
    have hL1 : bitLength r ≤ 53 := (bitLength_le_iff r 53).2 (by omega)
    have hL0 : 0 < bitLength r := (lt_bitLength_iff r 0).2 (by rw [pow_zero]; omega)
    have hq : max ((0 : Int) + (bitLength r : Int) - ((53 : Nat) : Int)) (-1074)
        = 0 - ((53 - bitLength r : Nat) : Int) := by
      rw [max_def]; split_ifs <;> omega
    have hsh : ((0 : Int) - (0 - ((53 - bitLength r : Nat) : Int))).toNat = 53 - bitLength r := by
      omega
    simp only [fsqrt, if_neg hk0, Bool.false_eq_true, if_false]
    rw [hm, he, sqrtDyadic_sq, roundDyadic_shift 53 (-1074) r _ 0 hr0,
      roundDyadic_exact 53 (-1074) r 0 (by norm_num) (by exact_mod_cast hL1), hq, hsh]
    simp only
    rw [round_shift, ofInt_natCast]

theorem isInt_round_zero (s : Bool) (e : Int) (z : Int) (hz : z = 0) :
    isInt (F32.round s 0 e) z = true := by
  subst hz
  rw [round_zero]
  cases s
  · exact isInt_zero
  · have : isInt (fneg zero) (-0) = true := isInt_fneg zero 0 isInt_zero
    simpa [fneg, zero] using this

/-- The product of integer data is the integer product, as long as it is below
`2 ^ 24` in magnitude. -/
theorem isInt_fmul (a b : F32) (x y : Int) (ha : isInt a x = true) (hb : isInt b y = true)
    (hxy : (x * y).natAbs < 2 ^ 24) : isInt (fmul a b) (x * y) = true := by
  cases a with
  | nan => simp [isInt] at ha
  | inf s => simp [isInt] at ha
  | fin s1 k1 =>
    cases b with
    | nan => simp [isInt] at hb
    | inf t => simp [isInt] at hb
    | fin s2 k2 =>
      obtain ⟨j1, he1, hv1⟩ := (isInt_fin_iff s1 k1 x).1 ha
      obtain ⟨j2, he2, hv2⟩ := (isInt_fin_iff s2 k2 y).1 hb
      have hm1 : mant k1 = x.natAbs * 2 ^ j1 := by
        have := congrArg Int.natAbs hv1
        rw [natAbs_signed, Int.natAbs_mul, Int.natAbs_pow] at this
        simpa using this
      have hm2 : mant k2 = y.natAbs * 2 ^ j2 := by
        have := congrArg Int.natAbs hv2
        rw [natAbs_signed, Int.natAbs_mul, Int.natAbs_pow] at this
        simpa using this
      have hmm : mant k1 * mant k2 = (x * y).natAbs * 2 ^ (j1 + j2) := by
        rw [hm1, hm2, Int.natAbs_mul, pow_add]; ring
      have hee : expo k1 + expo k2 = 0 - ((j1 + j2 : Nat) : Int) := by
        rw [he1, he2]; push_cast; ring
      simp only [fmul]
      by_cases h0 : x * y = 0
      · have : mant k1 * mant k2 = 0 := by rw [hmm, h0]; simp
        rw [this]
        exact isInt_round_zero _ _ _ h0
      · have hx0 : x ≠ 0 := fun h => h0 (by rw [h, zero_mul])
        have hy0 : y ≠ 0 := fun h => h0 (by rw [h, mul_zero])
        have hm10 : mant k1 ≠ 0 := by rw [hm1]; exact Nat.mul_ne_zero (by omega) (by positivity)
        have hm20 : mant k2 ≠ 0 := by rw [hm2]; exact Nat.mul_ne_zero (by omega) (by positivity)
        have hp1 : (0 : Int) < 2 ^ j1 := by positivity
        have hp2 : (0 : Int) < 2 ^ j2 := by positivity
        have hs1 : s1 = decide (x < 0) := by
          by_cases hx : x < 0
          · have : signed s1 (mant k1) < 0 := by rw [hv1]; exact mul_neg_of_neg_of_pos hx hp1
            rw [(signed_neg_iff s1 _ hm10).1 this]; simp [hx]
          · have : ¬ signed s1 (mant k1) < 0 := by
              rw [hv1]; exact not_lt.2 (mul_nonneg (by omega) hp1.le)
            have hs' : s1 ≠ true := fun h1 => this ((signed_neg_iff s1 _ hm10).2 h1)
            simp [hx]; simpa using hs'
        have hs2 : s2 = decide (y < 0) := by
          by_cases hy : y < 0
          · have : signed s2 (mant k2) < 0 := by rw [hv2]; exact mul_neg_of_neg_of_pos hy hp2
            rw [(signed_neg_iff s2 _ hm20).1 this]; simp [hy]
          · have : ¬ signed s2 (mant k2) < 0 := by
              rw [hv2]; exact not_lt.2 (mul_nonneg (by omega) hp2.le)
            have hs' : s2 ≠ true := fun h1 => this ((signed_neg_iff s2 _ hm20).2 h1)
            simp [hy]; simpa using hs'
        have hsx : xor s1 s2 = decide (x * y < 0) := by
          rw [hs1, hs2]
          rcases lt_or_gt_of_ne hx0 with hx | hx <;> rcases lt_or_gt_of_ne hy0 with hy | hy
          · have : ¬ x * y < 0 := not_lt.2 (mul_nonneg_of_nonpos_of_nonpos hx.le hy.le)
            simp [hx, hy, this]
          · have : x * y < 0 := mul_neg_of_neg_of_pos hx hy
            have hy' : ¬ y < 0 := by omega
            simp [hx, hy', this]
          · have : x * y < 0 := mul_neg_of_pos_of_neg hx hy
            have hx' : ¬ x < 0 := by omega
            simp [hx', hy, this]
          · have : ¬ x * y < 0 := not_lt.2 (mul_nonneg hx.le hy.le)
            have hx' : ¬ x < 0 := by omega
            have hy' : ¬ y < 0 := by omega
            simp [hx', hy', this]
        rw [hmm, hee, round_shift, hsx]
        exact isInt_ofInt (x * y) hxy

/-! ## Scaling -/

theorem fadd_comm (x y : F32) : fadd x y = fadd y x := by
  cases x with
  | nan => cases y <;> rfl
  | inf s =>
    cases y with
    | nan => rfl
    | inf t => cases s <;> cases t <;> rfl
    | fin t l => rfl
  | fin s k =>
    cases y with
    | nan => rfl
    | inf t => rfl
    | fin t l =>
      simp only [fadd]
      rw [min_comm (expo l) (expo k), add_comm (signed t _) (signed s _), Bool.and_comm t s]

theorem fneg_fneg (x : F32) : fneg (fneg x) = x := by
  cases x <;> simp [fneg]

theorem sqDiff_fneg (a b : F32) : sqDiff (fneg a) (fneg b) = sqDiff a b := by
  have h : fsub (fneg a) (fneg b) = fsub b a := by
    rw [fsub, fsub, fneg_fneg, fadd_comm]
  rw [sqDiff, h, ← sqDiff, sqDiff_comm]

/-- The datum `1.0`. -/
theorem ofInt_one : ofInt 1 = fin false ⟨1065353216, by norm_num⟩ := by decide

/-- The datum `-1.0`. -/
theorem ofInt_neg_one : ofInt (-1) = fin true ⟨1065353216, by norm_num⟩ := by decide

theorem fmul_unit (u : Bool) (x : F32) :
    fmul (fin u ⟨1065353216, by norm_num⟩) x = if u then fneg x else x := by
  have hm : mant 1065353216 = 2 ^ 23 := by decide
  have he : expo 1065353216 = 0 - ((23 : Nat) : Int) := by decide
  cases x with
  | nan => cases u <;> rfl
  | inf t => cases u <;> cases t <;> rfl
  | fin t k =>
    have h : fmul (fin u ⟨1065353216, by norm_num⟩) (fin t k)
        = F32.round (xor u t) (mant k * 2 ^ 23) (expo k - ((23 : Nat) : Int)) := by
      simp only [fmul, hm, he]
      congr 1
      · ring
      · ring
    rw [h, round_shift, round_mant_expo]
    cases u <;> simp [fneg]

theorem fmul_one (x : F32) : fmul (ofInt 1) x = x := by
  rw [ofInt_one, fmul_unit]; rfl

theorem fmul_neg_one (x : F32) : fmul (ofInt (-1)) x = fneg x := by
  rw [ofInt_neg_one, fmul_unit]; rfl

theorem scale_one (v : List F32) : scale (ofInt 1) v = v := by
  have h : fmul (ofInt 1) = id := funext fmul_one
  rw [scale, h, List.map_id]

theorem getD_scale (k : F32) (v : List F32) (i : Nat) (h : i < v.length) :
    (scale k v).getD i nan = fmul k (v.getD i nan) := by
  simp [scale, List.getD, List.getElem?_eq_getElem h]

theorem length_scale (k : F32) (v : List F32) : (scale k v).length = v.length := by
  simp [scale]

theorem accumulate_congr_sqDiff (a p a' p' : List F32) (n : Nat)
    (h : ∀ i, i < n → sqDiff (a.getD i nan) (p.getD i nan)
      = sqDiff (a'.getD i nan) (p'.getD i nan)) :
    accumulate a p n = accumulate a' p' n := by
  induction n with
  | zero => simp [accumulate_zero]
  | succ m ih =>
    rw [accumulate_succ, accumulate_succ, ih (fun i hi => h i (Nat.lt_succ_of_lt hi)),
      h m (Nat.lt_succ_self m)]

theorem outcome_map_id (o : Outcome) (f : F32 → F32) (hf : ∀ x, f x = x) : o.map f = o := by
  cases o <;> simp [Outcome.map, hf]

/-- Changing the sign of every element of both vectors changes nothing. -/
theorem calculate_distance_scale_neg_one (A B : List F32) (n : Int) :
    calculate_distance (scale (ofInt (-1)) A) (scale (ofInt (-1)) B) n
      = calculate_distance A B n := by
  rw [calculate_distance_eq, calculate_distance_eq, length_scale, length_scale]
  by_cases hb : n.toNat ≤ min A.length B.length
  · rw [if_pos hb, if_pos hb, distance, distance]
    congr 2
    apply accumulate_congr_sqDiff
    intro i hi
    rw [getD_scale _ _ _ (by omega), getD_scale _ _ _ (by omega), fmul_neg_one, fmul_neg_one,
      sqDiff_fneg]
  · rw [if_neg hb, if_neg hb]

theorem fabs_ofInt (k : Int) : fabs (ofInt k) = ofInt k.natAbs := by
  rw [ofInt_natCast, ofInt]
  rcases round_cases (decide (k < 0)) k.natAbs 0 with h | ⟨l, h⟩
  · rw [h]
    have h' := round_not (decide (k < 0)) k.natAbs 0
    rw [h] at h'
    by_cases hk : k < 0
    · simp only [hk, decide_True, Bool.not_true, fneg] at h'
      rw [h']; rfl
    · simp only [hk, decide_False] at h ⊢
      rw [h]; rfl
  · rw [h]
    have h' := round_not (decide (k < 0)) k.natAbs 0
    rw [h] at h'
    by_cases hk : k < 0
    · simp only [hk, decide_True, Bool.not_true, fneg] at h'
      rw [h']; rfl
    · simp only [hk, decide_False] at h ⊢
      rw [h]; rfl

/-! ## Integer vectors -/

theorem distance_int (a p : List F32) (x y : List Int) (n : Nat)
    (ha : ∀ i, i < n → isInt (a.getD i nan) (x.getD i 0) = true)
    (hp : ∀ i, i < n → isInt (p.getD i nan) (y.getD i 0) = true)
    (hS : intSqSum x y n < 2 ^ 24) :
    distance a p n = fsqrt (ofInt (intSqSum x y n)) := by
  rw [distance, accumulate_int a p x y n ha hp hS]

theorem fsqrt_ofInt_sq (r : Nat) (hr : r * r < 2 ^ 24) :
    fsqrt (ofInt ((r : Int) * r)) = ofInt r := by
  by_cases h0 : r = 0
  · subst h0
    simp only [Nat.cast_zero, mul_zero, ofInt_zero]
    exact fsqrt_zero
  · apply fsqrt_int_sq _ r (Nat.pos_of_ne_zero h0)
    apply isInt_ofInt
    have : ((r : Int) * r).natAbs = r * r := by
      rw [← Nat.cast_mul, Int.natAbs_ofNat]
    rw [this]; exact hr

theorem distance_int_sq (a p : List F32) (x y : List Int) (n r : Nat)
    (ha : ∀ i, i < n → isInt (a.getD i nan) (x.getD i 0) = true)
    (hp : ∀ i, i < n → isInt (p.getD i nan) (y.getD i 0) = true)
    (hS : intSqSum x y n = (r : Int) * r) (hr : r * r < 2 ^ 24) :
    distance a p n = ofInt r := by
  rw [distance_int a p x y n ha hp (by rw [hS]; exact_mod_cast hr), hS, fsqrt_ofInt_sq r hr]

theorem getD_map_ofInt (x : List Int) (i : Nat) (h : i < x.length) :
    (x.map ofInt).getD i nan = ofInt (x.getD i 0) := by
  simp [List.getD, List.getElem?_eq_getElem h]

theorem getD_map_mul (k : Int) (x : List Int) (i : Nat) :
    (x.map (k * ·)).getD i 0 = k * x.getD i 0 := by
  by_cases h : i < x.length
  · simp [List.getD, List.getElem?_eq_getElem h]
  · simp [List.getD, List.getElem?_eq_none (not_lt.1 h)]

theorem intSqSum_map_mul (k : Int) (x y : List Int) (n : Nat) :
    intSqSum (x.map (k * ·)) (y.map (k * ·)) n = k ^ 2 * intSqSum x y n := by
  induction n with
  | zero => simp [intSqSum_zero]
  | succ m ih =>
    rw [intSqSum_succ, intSqSum_succ, ih, getD_map_mul, getD_map_mul]
    ring

theorem ofInt_nat_fin (u : Nat) (hu : u < 2 ^ 24) : ∃ l, ofInt (u : Int) = fin false l := by
  have h := isInt_ofInt (u : Int) (by simpa using hu)
  rw [ofInt_natCast] at h ⊢
  rcases round_cases false u 0 with h1 | ⟨l, h1⟩
  · rw [h1] at h; simp [isInt] at h
  · exact ⟨l, h1⟩

theorem fmul_ofInt_nat (u v : Nat) (hu : u < 2 ^ 24) (hv : v < 2 ^ 24) (huv : u * v < 2 ^ 24) :
    fmul (ofInt u) (ofInt v) = ofInt ((u * v : Nat) : Int) := by
  have hi := isInt_fmul (ofInt u) (ofInt v) u v (isInt_ofInt _ (by simpa using hu))
    (isInt_ofInt _ (by simpa using hv))
    (by rw [← Nat.cast_mul, Int.natAbs_ofNat]; exact huv)
  by_cases h0 : u * v = 0
  · obtain ⟨l1, h1⟩ := ofInt_nat_fin u hu
    obtain ⟨l2, h2⟩ := ofInt_nat_fin v hv
    have hz : ((u : Int) * v) = 0 := by exact_mod_cast h0
    rw [hz] at hi
    rw [h0, Nat.cast_zero, ofInt_zero]
    rw [h1, h2] at hi ⊢
    have hform : fmul (fin false l1) (fin false l2)
        = F32.round false (mant l1 * mant l2) (expo l1 + expo l2) := rfl
    rcases fin_zero_of_isInt _ hi with h | h
    · rw [hform] at h
      rcases round_cases false (mant l1 * mant l2) (expo l1 + expo l2) with g | ⟨l, g⟩
      · rw [g] at h; simp at h
      · rw [g] at h; simp at h
    · exact h
  · rw [Nat.cast_mul]
    exact eq_ofInt_of_isInt _ _ hi (by exact_mod_cast h0)

/-- Scaling integer vectors by an integer `k`: when the sum of the squared
differences is a perfect square `r * r` and nothing exceeds `2 ^ 24`, both sides
of the scaling law are exactly `|k| * r`. -/
theorem calculate_distance_scale_int (x y : List Int) (k : Int) (r n : Nat)
    (hnx : n ≤ x.length) (hny : n ≤ y.length) (hk : k.natAbs < 2 ^ 24)
    (hx : ∀ i, i < n → (x.getD i 0).natAbs < 2 ^ 24 ∧ (k * x.getD i 0).natAbs < 2 ^ 24)
    (hy : ∀ i, i < n → (y.getD i 0).natAbs < 2 ^ 24 ∧ (k * y.getD i 0).natAbs < 2 ^ 24)
    (hS : intSqSum x y n = (r : Int) * r) (hr : r * r < 2 ^ 24)
    (hkr : (k.natAbs * r) * (k.natAbs * r) < 2 ^ 24) :
    calculate_distance (scale (ofInt k) (x.map ofInt)) (scale (ofInt k) (y.map ofInt)) n
        = .value (ofInt ((k.natAbs * r : Nat) : Int)) ∧
      (calculate_distance (x.map ofInt) (y.map ofInt) n).map (fmul (fabs (ofInt k)))
        = .value (ofInt ((k.natAbs * r : Nat) : Int)) := by
  have hr24 : r < 2 ^ 24 := by
    by_contra h
    have h1 : 2 ^ 24 ≤ r := not_lt.1 h
    have : 2 ^ 24 * 1 ≤ r * r := Nat.mul_le_mul h1 (by omega)
    omega
  have hkr24 : k.natAbs * r < 2 ^ 24 := by
    by_contra h
    have h1 : 2 ^ 24 ≤ k.natAbs * r := not_lt.1 h
    have : 2 ^ 24 * 1 ≤ (k.natAbs * r) * (k.natAbs * r) := Nat.mul_le_mul h1 (by omega)
    omega
  constructor
  · rw [calculate_distance_in_bounds _ _ _ (by simp [length_scale]; omega)
      (by simp [length_scale]; omega)]
    congr 1
    apply distance_int_sq _ _ (x.map (k * ·)) (y.map (k * ·)) _ _ _ _ _ hkr
    · intro i hi
      have hi' : i < n := by simpa using hi
      rw [getD_scale _ _ _ (by simp; omega), getD_map_ofInt _ _ (by omega), getD_map_mul]
      exact isInt_fmul _ _ _ _ (isInt_ofInt k hk) (isInt_ofInt _ (hx i hi').1) (hx i hi').2
    · intro i hi
      have hi' : i < n := by simpa using hi
      rw [getD_scale _ _ _ (by simp; omega), getD_map_ofInt _ _ (by omega), getD_map_mul]
      exact isInt_fmul _ _ _ _ (isInt_ofInt k hk) (isInt_ofInt _ (hy i hi').1) (hy i hi').2
    · rw [intSqSum_map_mul]
      simp only [Int.toNat_ofNat]
      rw [hS]
      push_cast
      rw [← Int.natAbs_sq k, Int.natCast_natAbs]
      ring
  · rw [calculate_distance_in_bounds _ _ _ (by simp; omega) (by simp; omega)]
    simp only [Outcome.map, Int.toNat_ofNat]
    congr 1
    rw [distance_int_sq _ _ x y n r _ _ hS hr, fabs_ofInt, fmul_ofInt_nat _ _ hk hr24 hkr24]
    · intro i hi
      rw [getD_map_ofInt _ _ (by omega)]
      exact isInt_ofInt _ (hx i hi).1
    · intro i hi
      rw [getD_map_ofInt _ _ (by omega)]
      exact isInt_ofInt _ (hy i hi).1

/-! ## Scaling by a power of two -/

theorem roundDyadic_fst_le (p : Nat) (qmin : Int) (m : Nat) (e : Int) :
    (roundDyadic p qmin m e).1 ≤ 2 ^ p := by
  have hhi := lt_two_pow_bitLength m
  simp only [roundDyadic]
  have hq1 := le_max_left (e + (bitLength m : Int) - (p : Int)) qmin
  generalize max (e + (bitLength m : Int) - (p : Int)) qmin = q at *
  split_ifs with h
  · simp only
    have h1 : bitLength m + (e - q).toNat ≤ p := by omega
    calc m * 2 ^ (e - q).toNat ≤ 2 ^ bitLength m * 2 ^ (e - q).toNat :=
          Nat.mul_le_mul_right _ hhi.le
      _ = 2 ^ (bitLength m + (e - q).toNat) := by rw [pow_add]
      _ ≤ 2 ^ p := Nat.pow_le_pow_right (by norm_num) h1
  · simp only
    have h1 := shiftRoundNE_le m (q - e).toNat
    have h2 : m / 2 ^ (q - e).toNat < 2 ^ p := by
      rw [Nat.div_lt_iff_lt_mul (by positivity), ← pow_add]
      exact lt_of_lt_of_le hhi (Nat.pow_le_pow_right (by norm_num) (by omega))
    omega

/-- A finite datum is determined by its sign, significand and exponent. -/
theorem fin_eq_of_mant_expo (s : Bool) (k l : Fin 2139095040) (hm : mant k = mant l)
    (he : expo k = expo l) : fin s k = fin s l := by
  rw [← round_mant_expo s k, ← round_mant_expo s l, hm, he]

theorem encode_carry (s : Bool) (q : Int) (hq : -149 ≤ q) :
    encode s (2 ^ 24) q = encode s (2 ^ 23) (q + 1) := by
  have h1 : (q + 150).toNat * 2 ^ 23 + (2 ^ 24 - 2 ^ 23)
      = (q + 1 + 150).toNat * 2 ^ 23 + (2 ^ 23 - 2 ^ 23) := by
    have : (q + 1 + 150).toNat = (q + 150).toNat + 1 := by omega
    rw [this]; omega
  unfold encode
  simp only [show ¬ (2 ^ 24 < 2 ^ 23) by norm_num, show ¬ (2 ^ 23 < 2 ^ 23) by norm_num,
    if_false, h1]

/-- What the rounding to a normal number looks like: a significand of 24 digits
and its exponent. -/
theorem encode_normal_cases (s : Bool) (M : Nat) (q : Int) (k : Fin 2139095040)
    (hM : M ≤ 2 ^ 24) (hq : -149 ≤ q) (h : encode s M q = fin s k)
    (hk : 1 ≤ k.val / 2 ^ 23) :
    2 ^ 23 ≤ M ∧
      ((M < 2 ^ 24 ∧ mant k = M ∧ expo k = q) ∨
        (M = 2 ^ 24 ∧ mant k = 2 ^ 23 ∧ expo k = q + 1)) := by
  have hM23 : 2 ^ 23 ≤ M := by
    by_contra hlt
    have hlt' : M < 2 ^ 23 := by omega
    have : encode s M q = fin s ⟨M, by omega⟩ :=
      encode_eq_fin s M q M (by omega) (by rw [if_pos hlt'])
    rw [this] at h
    injection h with _ h
    have hv : M = k.val := congrArg Fin.val h
    rw [← hv, Nat.div_eq_of_lt hlt'] at hk
    omega
  refine ⟨hM23, ?_⟩
  by_cases hlt : M < 2 ^ 24
  · left
    by_cases hq' : q ≤ 104
    · obtain ⟨l, hl, hlm, hle⟩ := encode_normal s M q hM23 hlt hq hq'
      rw [hl] at h
      injection h with _ h
      subst h
      exact ⟨hlt, hlm, hle⟩
    · exfalso
      have hbig : ¬ (if M < 2 ^ 23 then M else (q + 150).toNat * 2 ^ 23 + (M - 2 ^ 23))
          < 2139095040 := by
        rw [if_neg (by omega)]
        have : 255 ≤ (q + 150).toNat := by omega
        have : 255 * 2 ^ 23 ≤ (q + 150).toNat * 2 ^ 23 := Nat.mul_le_mul_right _ this
        omega
      rw [encode_eq_inf s M q hbig] at h
      simp at h
  · right
    have hMe : M = 2 ^ 24 := by omega
    subst hMe
    rw [encode_carry s q hq] at h
    by_cases hq' : q + 1 ≤ 104
    · obtain ⟨l, hl, hlm, hle⟩ := encode_normal s (2 ^ 23) (q + 1) le_rfl (by norm_num)
        (by omega) hq'
      rw [hl] at h
      injection h with _ h
      subst h
      exact ⟨rfl, hlm, hle⟩
    · exfalso
      have hbig : ¬ (if 2 ^ 23 < 2 ^ 23 then 2 ^ 23
          else (q + 1 + 150).toNat * 2 ^ 23 + (2 ^ 23 - 2 ^ 23)) < 2139095040 := by
        rw [if_neg (by norm_num)]
        have : 255 ≤ (q + 1 + 150).toNat := by omega
        have : 255 * 2 ^ 23 ≤ (q + 1 + 150).toNat * 2 ^ 23 := Nat.mul_le_mul_right _ this
        omega
      rw [encode_eq_inf s _ _ hbig] at h
      simp at h

theorem expo_eq_of_normal (k : Nat) (h : 1 ≤ k / 2 ^ 23) :
    expo k = ((k / 2 ^ 23 : Nat) : Int) - 150 := by
  unfold expo
  rw [if_neg (by omega)]

theorem normal_of_mant (k : Nat) (h : 2 ^ 23 ≤ mant k) : 1 ≤ k / 2 ^ 23 := by
  by_contra hk
  have h0 : k / 2 ^ 23 = 0 := by omega
  have hmod := Nat.mod_lt k (show 0 < 2 ^ 23 by norm_num)
  unfold mant at h
  rw [if_pos h0] at h
  omega

/-- Below the normal range the rounded significand has at most `p - 1` digits,
or is `2 ^ (p - 1)` itself. -/
theorem roundDyadic_fst_le_of_small (p : Nat) (qmin : Int) (m : Nat) (e : Int) (hp : 1 ≤ p)
    (h : e + (bitLength m : Int) - (p : Int) < qmin) :
    (roundDyadic p qmin m e).1 ≤ 2 ^ (p - 1) := by
  have hhi := lt_two_pow_bitLength m
  simp only [roundDyadic]
  have hq : max (e + (bitLength m : Int) - (p : Int)) qmin = qmin := max_eq_right h.le
  rw [hq]
  split_ifs with h1
  · simp only
    have h2 : bitLength m + (e - qmin).toNat ≤ p - 1 := by omega
    calc m * 2 ^ (e - qmin).toNat ≤ 2 ^ bitLength m * 2 ^ (e - qmin).toNat :=
          Nat.mul_le_mul_right _ hhi.le
      _ = 2 ^ (bitLength m + (e - qmin).toNat) := by rw [pow_add]
      _ ≤ 2 ^ (p - 1) := Nat.pow_le_pow_right (by norm_num) h2
  · simp only
    have h2 := shiftRoundNE_le m (qmin - e).toNat
    have h3 : m / 2 ^ (qmin - e).toNat < 2 ^ (p - 1) := by
      rw [Nat.div_lt_iff_lt_mul (by positivity), ← pow_add]
      exact lt_of_lt_of_le hhi (Nat.pow_le_pow_right (by norm_num) (by omega))
    omega

/-- In the normal range a change of exponent changes only the exponent of the
rounded number. -/
theorem roundDyadic_add_exp (p : Nat) (qmin : Int) (m : Nat) (e c : Int)
    (h1 : qmin ≤ e + (bitLength m : Int) - (p : Int))
    (h2 : qmin ≤ e + c + (bitLength m : Int) - (p : Int)) :
    roundDyadic p qmin m (e + c)
      = ((roundDyadic p qmin m e).1, (roundDyadic p qmin m e).2 + c) := by
  simp only [roundDyadic]
  rw [max_eq_left h1, max_eq_left h2]
  by_cases h : e + (bitLength m : Int) - (p : Int) ≤ e
  · rw [if_pos h, if_pos (by omega)]
    refine Prod.ext ?_ ?_
    · simp only
      congr 2
      omega
    · simp only
      omega
  · rw [if_neg h, if_neg (by omega)]
    refine Prod.ext ?_ ?_
    · simp only
      congr 1
      omega
    · simp only
      omega

/-- Scaling lemma: if `m * 2 ^ e` rounds to a normal number with biased exponent
`E ≥ 2`, and `2 ≤ E + c ≤ 253`, then `m * 2 ^ (e + c)` rounds to the number with
the same significand and the exponent shifted by `c`. -/
theorem round_scale (s : Bool) (m : Nat) (e c : Int) (k : Fin 2139095040)
    (h : F32.round s m e = fin s k) (hE : 2 ≤ k.val / 2 ^ 23)
    (hc1 : 2 ≤ ((k.val / 2 ^ 23 : Nat) : Int) + c)
    (hc2 : ((k.val / 2 ^ 23 : Nat) : Int) + c ≤ 253) :
    ∃ l : Fin 2139095040, F32.round s m (e + c) = fin s l ∧ mant l = mant k ∧
      expo l = expo k + c := by
  have hke := expo_eq_of_normal k (by omega)
  have hM := roundDyadic_fst_le 24 (-149) m e
  have hq := roundDyadic_snd 24 (-149) m e
  have hq149 : -149 ≤ (roundDyadic 24 (-149) m e).2 := by rw [hq]; exact le_max_right _ _
  obtain ⟨hM23, hcases⟩ := encode_normal_cases s _ _ k hM hq149 h (by omega)
  have hqa : -149 ≤ e + (bitLength m : Int) - ((24 : Nat) : Int) := by
    by_contra hlt
    have hsmall := roundDyadic_fst_le_of_small 24 (-149) m e (by norm_num) (by omega)
    have hq' : (roundDyadic 24 (-149) m e).2 = -149 := by
      rw [hq]; exact max_eq_right (by omega)
    rcases hcases with ⟨_, _, hexp⟩ | ⟨hM24, _, _⟩
    · rw [hq'] at hexp; omega
    · rw [hM24] at hsmall; norm_num at hsmall
  have hq' : (roundDyadic 24 (-149) m e).2 = e + (bitLength m : Int) - ((24 : Nat) : Int) := by
    rw [hq]; exact max_eq_left hqa
  have hqa' : -149 ≤ e + c + (bitLength m : Int) - ((24 : Nat) : Int) := by
    rcases hcases with ⟨_, _, hexp⟩ | ⟨_, _, hexp⟩ <;> omega
  have hrd := roundDyadic_add_exp 24 (-149) m e c hqa hqa'
  unfold F32.round
  rw [hrd]
  simp only
  generalize (roundDyadic 24 (-149) m e).1 = M at *
  generalize (roundDyadic 24 (-149) m e).2 = q at *
  rcases hcases with ⟨hlt, hm, hexp⟩ | ⟨hM24, hm, hexp⟩
  · obtain ⟨l, hl, hlm, hle⟩ := encode_normal s M (q + c) hM23 hlt (by omega) (by omega)
    exact ⟨l, hl, by rw [hlm, hm], by rw [hle, hexp]⟩
  · subst hM24
    rw [encode_carry s (q + c) (by omega)]
    obtain ⟨l, hl, hlm, hle⟩ := encode_normal s (2 ^ 23) (q + c + 1) le_rfl (by norm_num)
      (by omega) (by omega)
    exact ⟨l, hl, by rw [hlm, hm], by rw [hle, hexp]; ring⟩

theorem scaled_iff (c : Int) (x y : F32) :
    scaled c x y = true ↔ ∃ (s : Bool) (k l : Fin 2139095040), x = fin s k ∧ y = fin s l ∧
      ((k.val = 0 ∧ l.val = 0) ∨
        (k.val ≠ 0 ∧ l.val ≠ 0 ∧ mant l = mant k ∧ expo l = expo k + c)) := by
  constructor
  · intro h
    cases x with
    | nan => simp [scaled] at h
    | inf s => simp [scaled] at h
    | fin s k =>
      cases y with
      | nan => simp [scaled] at h
      | inf t => simp [scaled] at h
      | fin t l =>
        simp only [scaled, decide_eq_true_eq] at h
        obtain ⟨hst, h⟩ := h
        subst hst
        exact ⟨s, k, l, rfl, rfl, h⟩
  · rintro ⟨s, k, l, rfl, rfl, h⟩
    simp only [scaled, decide_eq_true_eq]
    exact ⟨trivial, h⟩

theorem safe_fin_iff (c : Int) (s : Bool) (k : Fin 2139095040) :
    safe c (fin s k) = true ↔ k.val = 0 ∨
      (2 ≤ k.val / 2 ^ 23 ∧ 2 ≤ ((k.val / 2 ^ 23 : Nat) : Int) + c ∧
        ((k.val / 2 ^ 23 : Nat) : Int) + c ≤ 253) := by
  simp only [safe, decide_eq_true_eq]

theorem scaled_zero (c : Int) (s : Bool) : scaled c (fin s 0) (fin s 0) = true := by
  rw [scaled_iff]
  exact ⟨s, 0, 0, rfl, rfl, Or.inl ⟨rfl, rfl⟩⟩

/-- There is one datum that is `x * 2 ^ c`. -/
theorem scaled_unique (c : Int) (x y z : F32) (hy : scaled c x y = true)
    (hz : scaled c x z = true) : y = z := by
  obtain ⟨s, k, l, rfl, rfl, h1⟩ := (scaled_iff c _ _).1 hy
  obtain ⟨s', k', l', hx, rfl, h2⟩ := (scaled_iff c _ _).1 hz
  injection hx with hs hk
  subst hs; subst hk
  rcases h1 with ⟨hk0, hl0⟩ | ⟨hk0, _, hm, he⟩
  · rcases h2 with ⟨_, hl0'⟩ | ⟨hk0', _⟩
    · have e1 : l = 0 := Fin.ext hl0
      have e2 : l' = 0 := Fin.ext hl0'
      rw [e1, e2]
    · exact absurd hk0 hk0'
  · rcases h2 with ⟨hk0', _⟩ | ⟨_, _, hm', he'⟩
    · exact absurd hk0' hk0
    · exact fin_eq_of_mant_expo s l l' (by rw [hm, hm']) (by rw [he, he'])

/-- A rounding whose result is safe commutes with the scaling. -/
theorem scaled_round (c : Int) (s : Bool) (m : Nat) (e : Int) (hm : m ≠ 0) (he : -149 ≤ e)
    (hs : safe c (F32.round s m e) = true) :
    scaled c (F32.round s m e) (F32.round s m (e + c)) = true := by
  rcases round_cases s m e with h | ⟨k, h⟩
  · rw [h] at hs; simp [safe] at hs
  · have hk0 : k.val ≠ 0 := by
      intro h0
      have : k = 0 := Fin.ext h0
      rw [this] at h
      exact round_ne_zero s s m e hm he h
    rw [h] at hs
    rcases (safe_fin_iff c s k).1 hs with h0 | ⟨h1, h2, h3⟩
    · exact absurd h0 hk0
    · obtain ⟨l, hl, hlm, hle⟩ := round_scale s m e c k h h1 h2 h3
      rw [h, hl, scaled_iff]
      refine ⟨s, k, l, rfl, rfl, Or.inr ⟨hk0, ?_, hlm, hle⟩⟩
      intro hl0
      have : mant l = 0 := (mant_eq_zero_iff l).2 hl0
      rw [hlm] at this
      exact hk0 ((mant_eq_zero_iff k).1 this)

theorem fadd_zero_left (s t : Bool) (k : Fin 2139095040) (hk : k.val ≠ 0) :
    fadd (fin s 0) (fin t k) = fin t k := by
  have hm0 : mant k ≠ 0 := fun h => hk ((mant_eq_zero_iff k).1 h)
  have he := expo_ge k
  have hq : min (expo ((0 : Fin 2139095040) : Nat)) (expo k) = -149 := by
    have : expo ((0 : Fin 2139095040) : Nat) = -149 := by decide
    rw [this]; exact min_eq_left he
  have hv1 : signed s (mant ((0 : Fin 2139095040) : Nat)
      * 2 ^ (expo ((0 : Fin 2139095040) : Nat) - -149).toNat) = 0 := by
    have : mant ((0 : Fin 2139095040) : Nat) = 0 := by decide
    rw [this, zero_mul]; cases s <;> rfl
  simp only [fadd, hq, hv1, zero_add]
  have hne : signed t (mant k * 2 ^ (expo k - -149).toNat) ≠ 0 := by
    intro h
    have := congrArg Int.natAbs h
    rw [natAbs_signed, Int.natAbs_zero] at this
    exact (Nat.mul_ne_zero hm0 (by positivity)) this
  rw [if_neg hne, natAbs_signed]
  have hsgn : decide (signed t (mant k * 2 ^ (expo k - -149).toNat) < 0) = t := by
    have := signed_neg_iff t (mant k * 2 ^ (expo k - -149).toNat)
      (Nat.mul_ne_zero hm0 (by positivity))
    cases t
    · simp only [decide_eq_false_iff_not]; intro h; exact absurd (this.1 h) (by simp)
    · simp only [decide_eq_true_eq]; exact this.2 rfl
  rw [hsgn]
  have hexp : (-149 : Int) = expo k - ((expo k - -149).toNat : Int) := by omega
  have key := round_shift t (mant k) (expo k - -149).toNat (expo k)
  rw [← hexp] at key
  rw [key, round_mant_expo]

theorem fadd_zero_right (s t : Bool) (k : Fin 2139095040) (hk : k.val ≠ 0) :
    fadd (fin t k) (fin s 0) = fin t k := by
  rw [fadd_comm, fadd_zero_left s t k hk]

theorem fin_val_zero (k : Fin 2139095040) (h : k.val = 0) : k = 0 := Fin.ext h

/-- Addition commutes with the scaling of both operands when the sum is safe. -/
theorem scaled_fadd (c : Int) (a a' b b' : F32) (ha : scaled c a a' = true)
    (hb : scaled c b b' = true) (hs : safe c (fadd a b) = true) :
    scaled c (fadd a b) (fadd a' b') = true := by
  obtain ⟨s1, k1, l1, rfl, rfl, h1⟩ := (scaled_iff c _ _).1 ha
  obtain ⟨s2, k2, l2, rfl, rfl, h2⟩ := (scaled_iff c _ _).1 hb
  rcases h1 with ⟨hk1, hl1⟩ | ⟨hk1, hl1, hm1, he1⟩
  · have e1 := fin_val_zero k1 hk1
    have e1' := fin_val_zero l1 hl1
    subst e1; subst e1'
    rcases h2 with ⟨hk2, hl2⟩ | ⟨hk2, hl2, hm2, he2⟩
    · have e2 := fin_val_zero k2 hk2
      have e2' := fin_val_zero l2 hl2
      subst e2; subst e2'
      have : fadd (fin s1 0) (fin s2 0) = fin (s1 && s2) 0 := by
        cases s1 <;> cases s2 <;> decide
      rw [this]
      exact scaled_zero c _
    · rw [fadd_zero_left s1 s2 k2 hk2, fadd_zero_left s1 s2 l2 hl2]
      exact hb
  · rcases h2 with ⟨hk2, hl2⟩ | ⟨hk2, hl2, hm2, he2⟩
    · have e2 := fin_val_zero k2 hk2
      have e2' := fin_val_zero l2 hl2
      subst e2; subst e2'
      rw [fadd_zero_right s2 s1 k1 hk1, fadd_zero_right s2 s1 l1 hl1]
      exact ha
    · have hq : min (expo l1) (expo l2) = min (expo k1) (expo k2) + c := by
        rw [he1, he2, min_add_add_right]
      have hs1 : (expo l1 - min (expo l1) (expo l2)).toNat
          = (expo k1 - min (expo k1) (expo k2)).toNat := by rw [hq, he1]; congr 1; ring
      have hs2 : (expo l2 - min (expo l1) (expo l2)).toNat
          = (expo k2 - min (expo k1) (expo k2)).toNat := by rw [hq, he2]; congr 1; ring
      have hform : fadd (fin s1 l1) (fin s2 l2) =
          if signed s1 (mant k1 * 2 ^ (expo k1 - min (expo k1) (expo k2)).toNat)
              + signed s2 (mant k2 * 2 ^ (expo k2 - min (expo k1) (expo k2)).toNat) = 0
          then fin (s1 && s2) 0
          else F32.round (decide (signed s1 (mant k1 * 2 ^ (expo k1 - min (expo k1) (expo k2)).toNat)
              + signed s2 (mant k2 * 2 ^ (expo k2 - min (expo k1) (expo k2)).toNat) < 0))
            (signed s1 (mant k1 * 2 ^ (expo k1 - min (expo k1) (expo k2)).toNat)
              + signed s2 (mant k2 * 2 ^ (expo k2 - min (expo k1) (expo k2)).toNat)).natAbs
            (min (expo k1) (expo k2) + c) := by
        simp only [fadd]
        rw [hs1, hs2, hm1, hm2, hq]
      rw [hform]
      simp only [fadd] at hs ⊢
      split_ifs with hv
      · exact scaled_zero c _
      · rw [if_neg hv] at hs
        exact scaled_round c _ _ _ (by simpa using hv)
          (le_min (expo_ge k1) (expo_ge k2)) hs

theorem scaled_fneg (c : Int) (a a' : F32) (ha : scaled c a a' = true) :
    scaled c (fneg a) (fneg a') = true := by
  obtain ⟨s, k, l, rfl, rfl, h⟩ := (scaled_iff c _ _).1 ha
  rw [scaled_iff]
  exact ⟨!s, k, l, rfl, rfl, h⟩

theorem scaled_fsub (c : Int) (a a' b b' : F32) (ha : scaled c a a' = true)
    (hb : scaled c b b' = true) (hs : safe c (fsub a b) = true) :
    scaled c (fsub a b) (fsub a' b') = true :=
  scaled_fadd c a a' (fneg b) (fneg b') ha (scaled_fneg c b b' hb) hs

theorem isZero_fin (s : Bool) (k : Fin 2139095040) : isZero (fin s k) = true ↔ k.val = 0 := by
  simp only [isZero, decide_eq_true_eq]

/-- A rounding whose result is safe and not zero commutes with the scaling. -/
theorem scaled_round_of_ne_zero (c : Int) (s : Bool) (m : Nat) (e : Int)
    (hs : safe c (F32.round s m e) = true) (hnz : isZero (F32.round s m e) = false) :
    scaled c (F32.round s m e) (F32.round s m (e + c)) = true := by
  rcases round_cases s m e with h | ⟨k, h⟩
  · rw [h] at hs; simp [safe] at hs
  · rw [h] at hs hnz
    have hk0 : k.val ≠ 0 := by
      intro h0
      rw [(isZero_fin s k).2 h0] at hnz
      simp at hnz
    rcases (safe_fin_iff c s k).1 hs with h0 | ⟨h1, h2, h3⟩
    · exact absurd h0 hk0
    · obtain ⟨l, hl, hlm, hle⟩ := round_scale s m e c k h h1 h2 h3
      rw [h, hl, scaled_iff]
      refine ⟨s, k, l, rfl, rfl, Or.inr ⟨hk0, ?_, hlm, hle⟩⟩
      intro hl0
      have : mant l = 0 := (mant_eq_zero_iff l).2 hl0
      rw [hlm] at this
      exact hk0 ((mant_eq_zero_iff k).1 this)

/-- Squaring commutes with the scaling when the square is safe and does not
underflow to zero. -/
theorem scaled_fmul_self (c : Int) (d d' : F32) (hd : scaled c d d' = true)
    (hs : safe (2 * c) (fmul d d) = true)
    (hnz : isZero d = true ∨ isZero (fmul d d) = false) :
    scaled (2 * c) (fmul d d) (fmul d' d') = true := by
  obtain ⟨s, k, l, rfl, rfl, h⟩ := (scaled_iff c _ _).1 hd
  rcases h with ⟨hk, hl⟩ | ⟨hk, hl, hm, he⟩
  · have e1 := fin_val_zero k hk
    have e2 := fin_val_zero l hl
    subst e1; subst e2
    rw [fmul_zero_self]
    exact scaled_zero _ false
  · have hx : ∀ (u : Fin 2139095040), fmul (fin s u) (fin s u)
        = F32.round false (mant u * mant u) (expo u + expo u) := by
      intro u; cases s <;> rfl
    have hnz' : isZero (fmul (fin s k) (fin s k)) = false := by
      rcases hnz with h0 | h0
      · exact absurd ((isZero_fin s k).1 h0) hk
      · exact h0
    rw [hx] at hs hnz' ⊢
    rw [hx l, hm, he]
    have : expo k + c + (expo k + c) = expo k + expo k + 2 * c := by ring
    rw [this]
    exact scaled_round_of_ne_zero (2 * c) false _ _ hs hnz'

theorem sqrtDyadic_add_exp (m : Nat) (e c : Int) :
    sqrtDyadic m (e + 2 * c) = ((sqrtDyadic m e).1, (sqrtDyadic m e).2 + c) := by
  have hpar : (e + 2 * c).natAbs % 2 = e.natAbs % 2 := by omega
  simp only [sqrtDyadic, hpar]
  refine Prod.ext rfl ?_
  simp only
  omega

/-- The square root commutes with the scaling when the root is safe. -/
theorem scaled_fsqrt (c : Int) (x x' : F32) (hx : scaled (2 * c) x x' = true)
    (hn : nonneg x = true) (hs : safe c (fsqrt x) = true) :
    scaled c (fsqrt x) (fsqrt x') = true := by
  obtain ⟨s, k, l, rfl, rfl, h⟩ := (scaled_iff _ _ _).1 hx
  simp only [nonneg, Bool.not_eq_true'] at hn
  subst hn
  rcases h with ⟨hk, hl⟩ | ⟨hk, hl, hm, he⟩
  · have e1 := fin_val_zero k hk
    have e2 := fin_val_zero l hl
    subst e1; subst e2
    rw [show fsqrt (fin false 0) = fin false 0 from fsqrt_zero]
    exact scaled_zero c false
  · have hmk : mant k ≠ 0 := fun h0 => hk ((mant_eq_zero_iff k).1 h0)
    obtain ⟨hb1, hb2⟩ := sqrtDyadic_bounds (mant k) (expo k) hmk (expo_ge k)
    have hb2' : -131 ≤ (sqrtDyadic (mant k) (expo k + 2 * c)).2 := by
      have := (sqrtDyadic_bounds (mant l) (expo l) (by rw [hm]; exact hmk) (expo_ge l)).2
      rwa [hm, he] at this
    rw [sqrtDyadic_add_exp] at hb2'
    simp only at hb2'
    have hL : 56 < bitLength (sqrtDyadic (mant k) (expo k)).1 := (lt_bitLength_iff _ 56).2 hb1
    have hform : ∀ (u : Fin 2139095040), u.val ≠ 0 → fsqrt (fin false u)
        = F32.round false
            (roundDyadic 53 (-1074) (sqrtDyadic (mant u) (expo u)).1
              (sqrtDyadic (mant u) (expo u)).2).1
            (roundDyadic 53 (-1074) (sqrtDyadic (mant u) (expo u)).1
              (sqrtDyadic (mant u) (expo u)).2).2 := by
      intro u hu
      simp only [fsqrt, if_neg hu, Bool.false_eq_true, if_false]
    rw [hform k hk] at hs ⊢
    rw [hform l hl, hm, he, sqrtDyadic_add_exp]
    simp only
    rw [roundDyadic_add_exp 53 (-1074) _ _ c (by omega) (by omega)]
    simp only
    apply scaled_round_of_ne_zero c false _ _ hs
    have hne := fsqrt_fin_ne_zero k hk false
    rw [hform k hk] at hne
    rcases round_cases false
      (roundDyadic 53 (-1074) (sqrtDyadic (mant k) (expo k)).1
        (sqrtDyadic (mant k) (expo k)).2).1
      (roundDyadic 53 (-1074) (sqrtDyadic (mant k) (expo k)).1
        (sqrtDyadic (mant k) (expo k)).2).2 with g | ⟨u, g⟩
    · rw [g]; rfl
    · rw [g] at hne ⊢
      cases hz : isZero (fin false u)
      · rfl
      · exfalso
        have hu0 := fin_val_zero u ((isZero_fin false u).1 hz)
        exact hne (by rw [hu0])

/-- The datum `2 ^ c` for an exponent of the normal range. -/
theorem pow2_fin (c : Int) (h1 : -126 ≤ c) (h2 : c ≤ 127) :
    ∃ K : Fin 2139095040, pow2 c = fin false K ∧ mant K = 2 ^ 23 ∧ expo K = c - 23 := by
  have hsh := round_shift false 1 23 c
  rw [one_mul] at hsh
  have hL : bitLength (2 ^ 23) = 24 := bitLength_eq_of _ 23 le_rfl (by norm_num)
  have hrd : roundDyadic 24 (-149) (2 ^ 23) (c - ((23 : Nat) : Int)) = (2 ^ 23, c - 23) := by
    rw [roundDyadic_exact 24 (-149) _ _ (by omega) (by rw [hL]), hL]
    have hq : max (c - ((23 : Nat) : Int) + ((24 : Nat) : Int) - ((24 : Nat) : Int)) (-149)
        = c - 23 := by
      rw [max_def]; split_ifs <;> omega
    rw [hq]
    refine Prod.ext ?_ rfl
    simp only
    have : (c - ((23 : Nat) : Int) - (c - 23)).toNat = 0 := by omega
    rw [this, pow_zero, mul_one]
  obtain ⟨K, hK, hKm, hKe⟩ := encode_normal false (2 ^ 23) (c - 23) le_rfl (by norm_num)
    (by omega) (by omega)
  refine ⟨K, ?_, hKm, hKe⟩
  rw [pow2, ← hsh, F32.round, hrd]
  exact hK

/-- Multiplying a safe datum by `2 ^ c` scales it. -/
theorem scaled_fmul_pow2 (c : Int) (h1 : -126 ≤ c) (h2 : c ≤ 127) (x : F32)
    (hs : safe c x = true) : scaled c x (fmul (pow2 c) x) = true := by
  obtain ⟨K, hK, hKm, hKe⟩ := pow2_fin c h1 h2
  cases x with
  | nan => simp [safe] at hs
  | inf s => simp [safe] at hs
  | fin s k =>
    have hform : fmul (pow2 c) (fin s k) = F32.round s (mant k) (expo k + c) := by
      rw [hK]
      simp only [fmul, hKm, hKe, Bool.false_bne]
      have e1 : 2 ^ 23 * mant k = mant k * 2 ^ 23 := by ring
      have e2 : c - 23 + expo k = expo k + c - ((23 : Nat) : Int) := by push_cast; ring
      rw [e1, e2, round_shift]
    rw [hform]
    by_cases hk : k.val = 0
    · have e := fin_val_zero k hk
      subst e
      have : mant ((0 : Fin 2139095040) : Nat) = 0 := by decide
      rw [this, round_zero]
      exact scaled_zero c s
    · have hr := round_mant_expo s k
      have key := scaled_round_of_ne_zero c s (mant k) (expo k) (by rw [hr]; exact hs)
        (by
          rw [hr]
          cases hz : isZero (fin s k)
          · rfl
          · exact absurd ((isZero_fin s k).1 hz) hk)
      rwa [hr] at key

theorem fmul_fneg_left (a b : F32) : fmul (fneg a) b = fneg (fmul a b) := by
  cases a with
  | nan => cases b <;> rfl
  | inf s =>
    cases b with
    | nan => rfl
    | inf t => cases s <;> cases t <;> rfl
    | fin t k =>
      simp only [fneg, fmul]
      split_ifs
      · rfl
      · cases s <;> cases t <;> rfl
  | fin s k =>
    cases b with
    | nan => rfl
    | inf t =>
      simp only [fneg, fmul]
      split_ifs
      · rfl
      · cases s <;> cases t <;> rfl
    | fin t l =>
      have : xor (!s) t = !(xor s t) := by cases s <;> cases t <;> rfl
      show F32.round (xor (!s) t) (mant k * mant l) (expo k + expo l)
        = fneg (F32.round (xor s t) (mant k * mant l) (expo k + expo l))
      rw [this, round_not]

theorem scalable_iff (j : Int) (a p : List F32) (n : Nat) :
    scalable j a p n = true ↔
      (∀ i, i < n →
        safe j (a.getD i nan) = true ∧ safe j (p.getD i nan) = true ∧
        safe j (fsub (a.getD i nan) (p.getD i nan)) = true ∧
        safe (2 * j) (sqDiff (a.getD i nan) (p.getD i nan)) = true ∧
        (isZero (fsub (a.getD i nan) (p.getD i nan)) = true ∨
          isZero (sqDiff (a.getD i nan) (p.getD i nan)) = false) ∧
        safe (2 * j) (accumulate a p (i + 1)) = true) ∧
      safe j (distance a p n) = true := by
  simp only [scalable, Bool.and_eq_true, List.all_eq_true, List.mem_range, Bool.or_eq_true,
    Bool.not_eq_true', and_assoc]

theorem getD_map_fneg (v : List F32) (i : Nat) :
    (v.map fneg).getD i nan = fneg (v.getD i nan) := by
  by_cases h : i < v.length
  · simp [List.getD, List.getElem?_eq_getElem h]
  · simp [List.getD, List.getElem?_eq_none (not_lt.1 h), fneg]

/-- Changing the sign of every element of both vectors changes nothing. -/
theorem calculate_distance_map_fneg (A B : List F32) (n : Int) :
    calculate_distance (A.map fneg) (B.map fneg) n = calculate_distance A B n := by
  rw [calculate_distance_eq, calculate_distance_eq, List.length_map, List.length_map]
  by_cases hb : n.toNat ≤ min A.length B.length
  · rw [if_pos hb, if_pos hb, distance, distance]
    congr 2
    apply accumulate_congr_sqDiff
    intro i _
    rw [getD_map_fneg, getD_map_fneg, sqDiff_fneg]
  · rw [if_neg hb, if_neg hb]

theorem scale_fneg (k : F32) (v : List F32) : scale (fneg k) v = (scale k v).map fneg := by
  simp only [scale, List.map_map]
  congr 1
  funext x
  exact fmul_fneg_left k x

theorem accumulate_scaled (j : Int) (h1 : -126 ≤ j) (h2 : j ≤ 127) (A B : List F32) (n : Nat)
    (hnA : n ≤ A.length) (hnB : n ≤ B.length) (hs : scalable j A B n = true) :
    ∀ i, i ≤ n → scaled (2 * j) (accumulate A B i)
      (accumulate (scale (pow2 j) A) (scale (pow2 j) B) i) = true := by
  obtain ⟨hall, _⟩ := (scalable_iff j A B n).1 hs
  intro i
  induction i with
  | zero =>
    intro _
    rw [accumulate_zero, accumulate_zero]
    exact scaled_zero _ false
  | succ m ih =>
    intro hm
    obtain ⟨ha, hb, hd, hsq, hnz, hacc⟩ := hall m (by omega)
    rw [accumulate_succ, accumulate_succ, getD_scale _ _ _ (by omega),
      getD_scale _ _ _ (by omega)]
    rw [accumulate_succ] at hacc
    apply scaled_fadd (2 * j) _ _ _ _ (ih (by omega)) _ hacc
    exact scaled_fmul_self j _ _
      (scaled_fsub j _ _ _ _ (scaled_fmul_pow2 j h1 h2 _ ha) (scaled_fmul_pow2 j h1 h2 _ hb) hd)
      hsq hnz

theorem fabs_pow2 (j : Int) (h1 : -126 ≤ j) (h2 : j ≤ 127) :
    fabs (pow2 j) = pow2 j ∧ fabs (fneg (pow2 j)) = pow2 j := by
  obtain ⟨K, hK, _, _⟩ := pow2_fin j h1 h2
  rw [hK]
  exact ⟨rfl, rfl⟩

/-- Scaling by a power of two: when no intermediate result leaves the normal
range, before or after the scaling, both sides of the scaling law are the same
datum. -/
theorem calculate_distance_scale_pow2 (A B : List F32) (n : Nat) (j : Int)
    (h1 : -126 ≤ j) (h2 : j ≤ 127) (hnA : n ≤ A.length) (hnB : n ≤ B.length)
    (hs : scalable j A B n = true) :
    calculate_distance (scale (pow2 j) A) (scale (pow2 j) B) n
        = (calculate_distance A B n).map (fmul (fabs (pow2 j))) ∧
      calculate_distance (scale (fneg (pow2 j)) A) (scale (fneg (pow2 j)) B) n
        = (calculate_distance A B n).map (fmul (fabs (fneg (pow2 j)))) := by
  have hacc := accumulate_scaled j h1 h2 A B n hnA hnB hs n le_rfl
  obtain ⟨hall, hres⟩ := (scalable_iff j A B n).1 hs
  have hnn : nonneg (accumulate A B n) = true := by
    rcases accumulate_nan_or_nonneg A B n with h | h
    · rw [scaled_iff] at hacc
      obtain ⟨s, k, l, hx, _, _⟩ := hacc
      rw [h] at hx
      simp at hx
    · exact h
  have hroot := scaled_fsqrt j _ _ hacc hnn hres
  have hmul := scaled_fmul_pow2 j h1 h2 _ hres
  have heq : distance (scale (pow2 j) A) (scale (pow2 j) B) n
      = fmul (pow2 j) (distance A B n) := scaled_unique j _ _ _ hroot hmul
  have key : calculate_distance (scale (pow2 j) A) (scale (pow2 j) B) n
      = (calculate_distance A B n).map (fmul (pow2 j)) := by
    rw [calculate_distance_in_bounds _ _ _ (by simp [length_scale]; omega)
        (by simp [length_scale]; omega),
      calculate_distance_in_bounds _ _ _ (by omega) (by omega)]
    simp only [Outcome.map, Int.toNat_ofNat]
    rw [heq]
  obtain ⟨hf1, hf2⟩ := fabs_pow2 j h1 h2
  constructor
  · rw [hf1, key]
  · rw [hf2, scale_fneg, scale_fneg, calculate_distance_map_fneg, key]

/-! ## Infinite elements -/

/-- A pair with an infinite element that is not a NaN pair contributes `+∞`. -/
theorem sqDiff_eq_inf (a b : F32) (h : nanPair a b = false)
    (hf : isFinite a = false ∨ isFinite b = false) : sqDiff a b = inf false := by
  cases a with
  | nan => simp [nanPair] at h
  | inf s =>
    cases b with
    | nan => simp [nanPair] at h
    | inf t => cases s <;> cases t <;> simp [nanPair] at h <;> rfl
    | fin t k => cases s <;> rfl
  | fin s k =>
    cases b with
    | nan => simp [nanPair] at h
    | inf t => cases t <;> rfl
    | fin t l => simp [isFinite] at hf

theorem fadd_inf_left (y : F32) (hy : nonneg y = true) : fadd (inf false) y = inf false := by
  cases y with
  | nan => simp [nonneg] at hy
  | inf t => cases t <;> simp [nonneg] at hy; rfl
  | fin t k => rfl

theorem fadd_inf_right (x : F32) (hx : nonneg x = true) : fadd x (inf false) = inf false := by
  rw [fadd_comm, fadd_inf_left x hx]

theorem accumulate_nonneg_of_no_nanPair (a p : List F32) (n : Nat)
    (h : ∀ i, i < n → nanPair (a.getD i nan) (p.getD i nan) = false) :
    nonneg (accumulate a p n) = true := by
  rcases accumulate_nan_or_nonneg a p n with h1 | h1
  · obtain ⟨i, hi, hb⟩ := (accumulate_eq_nan_iff a p n).1 h1
    rw [h i hi] at hb
    simp at hb
  · exact h1

theorem sqDiff_nonneg_of_no_nanPair (a b : F32) (h : nanPair a b = false) :
    nonneg (sqDiff a b) = true := by
  rcases sqDiff_nan_or_nonneg a b with h1 | h1
  · rw [(sqDiff_eq_nan_iff a b).1 h1] at h
    simp at h
  · exact h1

/-- Without a NaN pair, one infinite element among the compared ones makes the
accumulator `+∞`. -/
theorem accumulate_eq_inf (a p : List F32) : ∀ n : Nat,
    (∀ i, i < n → nanPair (a.getD i nan) (p.getD i nan) = false) →
    (∃ i, i < n ∧ (isFinite (a.getD i nan) = false ∨ isFinite (p.getD i nan) = false)) →
    accumulate a p n = inf false := by
  intro n
  induction n with
  | zero => rintro _ ⟨i, hi, _⟩; omega
  | succ m ih =>
    rintro hnp ⟨i, hi, hf⟩
    rw [accumulate_succ]
    have hnp' : ∀ i, i < m → nanPair (a.getD i nan) (p.getD i nan) = false :=
      fun j hj => hnp j (by omega)
    by_cases him : i < m
    · rw [ih hnp' ⟨i, him, hf⟩]
      exact fadd_inf_left _ (sqDiff_nonneg_of_no_nanPair _ _ (hnp m (by omega)))
    · have : i = m := by omega
      subst this
      rw [sqDiff_eq_inf _ _ (hnp i (by omega)) hf]
      exact fadd_inf_right _ (accumulate_nonneg_of_no_nanPair a p i hnp')

theorem fsqrt_inf : fsqrt (inf false) = inf false := rfl

/-! ## Reordering the indices -/

theorem map_getD_range (l : List Nat) :
    (List.range l.length).map (fun i => l.getD i 0) = l := by
  apply List.ext_getElem
  · simp
  · intro i h1 h2
    simp [h2]

theorem sum_map_perm_range (s : List Nat) (n : Nat) (hs : s.Perm (List.range n)) (f : Nat → Int) :
    ((List.range n).map fun i => f (s.getD i 0)).sum = ((List.range n).map f).sum := by
  have hl : s.length = n := by rw [hs.length_eq, List.length_range]
  have h1 : ((List.range n).map fun i => f (s.getD i 0)) = s.map f := by
    conv_rhs => rw [← map_getD_range s, hl]
    rw [List.map_map]
    rfl
  rw [h1]
  exact (hs.map f).sum_eq

theorem getD_lt_of_perm (s : List Nat) (n : Nat) (hs : s.Perm (List.range n)) (i : Nat)
    (hi : i < n) : s.getD i 0 < n := by
  have hl : s.length = n := by rw [hs.length_eq, List.length_range]
  have h1 : s.getD i 0 ∈ s := by
    rw [List.getD_eq_getElem _ _ (by omega)]
    exact List.getElem_mem _
  have := (hs.mem_iff).1 h1
  simpa using this

theorem getD_reorder (s : List Nat) (v : List F32) (i : Nat) (hi : i < s.length) :
    (reorder s v).getD i nan = v.getD (s.getD i 0) nan := by
  simp [reorder, List.getD_eq_getElem _ _ hi, hi]

theorem length_reorder (s : List Nat) (v : List F32) : (reorder s v).length = s.length := by
  simp [reorder]

theorem intSqSum_perm (s : List Nat) (n : Nat) (hs : s.Perm (List.range n)) (x y : List Int) :
    intSqSum (s.map fun i => x.getD i 0) (s.map fun i => y.getD i 0) n = intSqSum x y n := by
  have hl : s.length = n := by rw [hs.length_eq, List.length_range]
  rw [intSqSum, intSqSum, ← sum_map_perm_range s n hs (fun i => (x.getD i 0 - y.getD i 0) ^ 2)]
  congr 1
  apply List.map_congr_left
  intro i hi
  have hi' : i < s.length := by rw [hl]; simpa using hi
  simp [List.getD_eq_getElem _ _ hi', hi']

theorem distance_reorder_int (s : List Nat) (n : Nat) (hs : s.Perm (List.range n))
    (A B : List F32) (x y : List Int)
    (hA : ∀ i, i < n → isInt (A.getD i nan) (x.getD i 0) = true)
    (hB : ∀ i, i < n → isInt (B.getD i nan) (y.getD i 0) = true)
    (hS : intSqSum x y n < 2 ^ 24) :
    distance (reorder s A) (reorder s B) n = distance A B n := by
  have hl : s.length = n := by rw [hs.length_eq, List.length_range]
  rw [distance_int A B x y n hA hB hS,
    distance_int (reorder s A) (reorder s B) (s.map fun i => x.getD i 0)
      (s.map fun i => y.getD i 0) n ?_ ?_ ?_, intSqSum_perm s n hs]
  · intro i hi
    have hi' : i < s.length := by omega
    rw [getD_reorder s A i hi']
    have := hA _ (getD_lt_of_perm s n hs i hi)
    simpa [List.getD_eq_getElem _ _ hi', hi'] using this
  · intro i hi
    have hi' : i < s.length := by omega
    rw [getD_reorder s B i hi']
    have := hB _ (getD_lt_of_perm s n hs i hi)
    simpa [List.getD_eq_getElem _ _ hi', hi'] using this
  · rw [intSqSum_perm s n hs]; exact hS

/-! ## A common offset -/

theorem isInt_fadd (a c : F32) (x z : Int) (ha : isInt a x = true) (hc : isInt c z = true)
    (h : (x + z).natAbs < 2 ^ 24) : isInt (fadd a c) (x + z) = true := by
  by_cases h0 : x + z = 0
  · rw [h0]
    rcases fadd_int_zero a c x z ha hc h0 with e | e
    · rw [e]; exact isInt_zero
    · rw [e]; exact isInt_fneg zero 0 isInt_zero
  · rw [fadd_int a c x z ha hc h0]
    exact isInt_ofInt _ h

theorem shiftRoundNE_mono (m m' s : Nat) (h : m ≤ m') :
    shiftRoundNE m s ≤ shiftRoundNE m' s := by
  have hq : m / 2 ^ s ≤ m' / 2 ^ s := Nat.div_le_div_right h
  rcases Nat.lt_or_ge (m / 2 ^ s) (m' / 2 ^ s) with hlt | hge
  · have h1 := shiftRoundNE_le m s
    have h2 := le_shiftRoundNE m' s
    omega
  · have heq : m / 2 ^ s = m' / 2 ^ s := le_antisymm hq hge
    have e1 := Nat.div_add_mod m (2 ^ s)
    have e2 := Nat.div_add_mod m' (2 ^ s)
    rw [← heq] at e2
    unfold shiftRoundNE
    simp only [← heq]
    generalize 2 ^ s * (m / 2 ^ s) = t at e1 e2
    generalize m / 2 ^ s = q
    generalize m % 2 ^ s = r at *
    generalize m' % 2 ^ s = r' at *
    generalize 2 ^ s = P at *
    split_ifs <;> omega

theorem bitLength_mono (m m' : Nat) (h : m ≤ m') : bitLength m ≤ bitLength m' := by
  rw [bitLength_le_iff]
  exact lt_of_le_of_lt h (lt_two_pow_bitLength m')

/-- The result `(M, q)` of a rounding of a number that is not zero is in
canonical form: `qmin ≤ q`, `M ≤ 2 ^ p`, and `M` has at least `p` digits unless
`q = qmin`. -/
theorem roundDyadic_canonical (p : Nat) (qmin : Int) (m : Nat) (e : Int) (hm : m ≠ 0)
    (hp : 1 ≤ p) :
    qmin ≤ (roundDyadic p qmin m e).2 ∧ (roundDyadic p qmin m e).1 ≤ 2 ^ p ∧
      ((roundDyadic p qmin m e).2 = qmin ∨ 2 ^ (p - 1) ≤ (roundDyadic p qmin m e).1) := by
  refine ⟨?_, roundDyadic_fst_le p qmin m e, ?_⟩
  · rw [roundDyadic_snd]; exact le_max_right _ _
  · by_cases hq : (roundDyadic p qmin m e).2 = qmin
    · exact Or.inl hq
    · right
      rw [roundDyadic_snd] at hq
      have hq2 : max (e + (bitLength m : Int) - p) qmin = e + (bitLength m : Int) - p := by
        rw [max_def] at hq ⊢
        split_ifs at hq ⊢ with h1
        · exact absurd rfl hq
        · rfl
      have hlo := two_pow_le_of_bitLength m hm
      have hL : 1 ≤ bitLength m := by
        rw [Nat.succ_le_iff, lt_bitLength_iff]
        simpa using Nat.pos_of_ne_zero hm
      unfold roundDyadic
      simp only [hq2]
      split_ifs with h
      · simp only
        have h1 : (e - (e + (bitLength m : Int) - p)).toNat = p - bitLength m := by omega
        have h2 : bitLength m ≤ p := by omega
        rw [h1]
        calc 2 ^ (p - 1) = 2 ^ (bitLength m - 1) * 2 ^ (p - bitLength m) := by
              rw [← pow_add]; congr 1; omega
          _ ≤ m * 2 ^ (p - bitLength m) := Nat.mul_le_mul_right _ hlo
      · simp only
        have h1 : (e + (bitLength m : Int) - p - e).toNat = bitLength m - p := by omega
        have h2 : p < bitLength m := by omega
        rw [h1]
        refine le_trans ?_ (le_shiftRoundNE m (bitLength m - p))
        rw [Nat.le_div_iff_mul_le (by positivity), ← pow_add]
        have : p - 1 + (bitLength m - p) = bitLength m - 1 := by omega
        rw [this]
        exact hlo

/-- Rounding is monotone in the significand: the quantum exponent does not
decrease, and at equal exponents the rounded significand does not. -/
theorem roundDyadic_mono (p : Nat) (qmin : Int) (m m' : Nat) (e : Int) (h : m ≤ m') :
    (roundDyadic p qmin m e).2 < (roundDyadic p qmin m' e).2 ∨
      ((roundDyadic p qmin m e).2 = (roundDyadic p qmin m' e).2 ∧
        (roundDyadic p qmin m e).1 ≤ (roundDyadic p qmin m' e).1) := by
  have hL := bitLength_mono m m' h
  have hq : (roundDyadic p qmin m e).2 ≤ (roundDyadic p qmin m' e).2 := by
    rw [roundDyadic_snd, roundDyadic_snd]
    exact max_le_max (by omega) le_rfl
  rcases lt_or_eq_of_le hq with h1 | h1
  · exact Or.inl h1
  · refine Or.inr ⟨h1, ?_⟩
    rw [roundDyadic_snd, roundDyadic_snd] at h1
    unfold roundDyadic
    simp only [← h1]
    split_ifs with h2
    · exact Nat.mul_le_mul_right _ h
    · exact shiftRoundNE_mono _ _ _ h

theorem fle_fin_false (k l : Fin 2139095040) :
    fle (fin false k) (fin false l) = true ↔ k.val ≤ l.val := by
  simp [fle, signed]

/-- Packing is monotone on canonical pairs. -/
theorem encode_le (M M' : Nat) (q q' : Int) (hq : -149 ≤ q)
    (hM : M ≤ 2 ^ 24) (hc : q = -149 ∨ 2 ^ 23 ≤ M)
    (hc' : q' = -149 ∨ 2 ^ 23 ≤ M')
    (h : q < q' ∨ (q = q' ∧ M ≤ M')) :
    fle (encode false M q) (encode false M' q') = true := by
  have key : (if M < 2 ^ 23 then M else (q + 150).toNat * 2 ^ 23 + (M - 2 ^ 23))
      ≤ (if M' < 2 ^ 23 then M' else (q' + 150).toNat * 2 ^ 23 + (M' - 2 ^ 23)) := by
    norm_num at hM hc hc' ⊢
    split_ifs <;> omega
  unfold encode
  simp only []
  generalize (if M < 2 ^ 23 then M else (q + 150).toNat * 2 ^ 23 + (M - 2 ^ 23)) = k at key
  generalize (if M' < 2 ^ 23 then M' else (q' + 150).toNat * 2 ^ 23 + (M' - 2 ^ 23)) = k' at key
  by_cases h1 : k < 2139095040
  · by_cases h2 : k' < 2139095040
    · rw [dif_pos h1, dif_pos h2, fle_fin_false]; exact key
    · rw [dif_pos h1, dif_neg h2]; rfl
  · have h2 : ¬ k' < 2139095040 := by omega
    rw [dif_neg h1, dif_neg h2]; rfl

/-- Rounding to binary32 is monotone in the significand. -/
theorem round_le (m m' : Nat) (e : Int) (h : m ≤ m') :
    fle (F32.round false m e) (F32.round false m' e) = true := by
  by_cases hm : m = 0
  · rw [hm, round_zero]
    exact fle_zero_of_nonneg _ (nonneg_round m' e)
  · have hm' : m' ≠ 0 := by omega
    obtain ⟨c1, c2, c3⟩ := roundDyadic_canonical 24 (-149) m e hm (by norm_num)
    obtain ⟨d1, d2, d3⟩ := roundDyadic_canonical 24 (-149) m' e hm' (by norm_num)
    unfold F32.round
    simp only []
    exact encode_le _ _ _ _ c1 c2 c3 d3 (roundDyadic_mono 24 (-149) m m' e h)

/-- Rounding to binary32 is monotone in the value rounded. -/
theorem round_le_of_value (m m' j j' : Nat) (e e' : Int) (he : e - j = e' - j')
    (h : m * 2 ^ j ≤ m' * 2 ^ j') :
    fle (F32.round false m e) (F32.round false m' e') = true := by
  rw [← round_shift false m j e, ← round_shift false m' j' e', he]
  exact round_le _ _ _ h

theorem fle_refl_of_nonneg (x : F32) (hx : nonneg x = true) : fle x x = true := by
  cases x with
  | nan => simp [nonneg] at hx
  | inf s => cases s <;> rfl
  | fin s k => simp [fle]

theorem fle_trans (x y z : F32) (h1 : fle x y = true) (h2 : fle y z = true) :
    fle x z = true := by
  cases x with
  | nan => simp [fle] at h1
  | inf s =>
    cases y with
    | nan => simp [fle] at h1
    | inf t => cases z <;> cases s <;> cases t <;> simp_all [fle]
    | fin t k => cases z <;> cases s <;> simp_all [fle]
  | fin s k =>
    cases y with
    | nan => simp [fle] at h1
    | inf t => cases z <;> cases t <;> simp_all [fle]
    | fin t l =>
      cases z with
      | nan => simp [fle] at h2
      | inf u => simpa [fle] using h2
      | fin u j =>
        simp only [fle, decide_eq_true_eq] at h1 h2 ⊢
        exact le_trans h1 h2

theorem fle_inf_of_nonneg (x : F32) (hx : nonneg x = true) : fle x (inf false) = true := by
  cases x with
  | nan => simp [nonneg] at hx
  | inf s => cases s <;> simp [nonneg] at hx; rfl
  | fin s k => rfl

/-- Adding a datum that is `>= 0` to one that is `>= 0` does not decrease it. -/
theorem fle_fadd_left (x y : F32) (hx : nonneg x = true) (hy : nonneg y = true) :
    fle x (fadd x y) = true := by
  cases x with
  | nan => simp [nonneg] at hx
  | inf s =>
    have hs : s = false := by simpa [nonneg] using hx
    subst hs
    rw [fadd_inf_left y hy]; rfl
  | fin s k =>
    have hs : s = false := by simpa [nonneg] using hx
    subst hs
    cases y with
    | nan => simp [nonneg] at hy
    | inf t =>
      have ht : t = false := by simpa [nonneg] using hy
      subst ht
      rfl
    | fin t l =>
      have ht : t = false := by simpa [nonneg] using hy
      subst ht
      simp only [fadd, signed_false]
      have hq1 : min (expo k) (expo l) ≤ expo k := min_le_left _ _
      generalize min (expo k.val) (expo l.val) = q at hq1
      split_ifs with hv
      · have h0 : mant k * 2 ^ (expo k - q).toNat = 0 := by
          have : (0 : Int) ≤ ((mant l * 2 ^ (expo l - q).toNat : Nat) : Int) := Int.natCast_nonneg _
          have h2 : (0 : Int) ≤ ((mant k * 2 ^ (expo k - q).toNat : Nat) : Int) :=
            Int.natCast_nonneg _
          have : ((mant k * 2 ^ (expo k - q).toNat : Nat) : Int) = 0 := by omega
          exact_mod_cast this
        have hk : mant k = 0 := by
          rcases Nat.mul_eq_zero.1 h0 with h | h
          · exact h
          · exact absurd h (by positivity)
        have hk0 : k.val = 0 := (mant_eq_zero_iff k).1 hk
        rw [fin_val_zero k hk0]
        rfl
      · have hnn : ¬ ((mant k * 2 ^ (expo k - q).toNat : Nat) : Int)
            + ((mant l * 2 ^ (expo l - q).toNat : Nat) : Int) < 0 := by
          have := Int.natCast_nonneg (mant k * 2 ^ (expo k - q).toNat)
          have := Int.natCast_nonneg (mant l * 2 ^ (expo l - q).toNat)
          omega
        rw [decide_eq_false hnn]
        have habs : (((mant k * 2 ^ (expo k - q).toNat : Nat) : Int)
            + ((mant l * 2 ^ (expo l - q).toNat : Nat) : Int)).natAbs
            = mant k * 2 ^ (expo k - q).toNat + mant l * 2 ^ (expo l - q).toNat := by
          rw [← Int.natCast_add, Int.natAbs_ofNat]
        rw [habs]
        conv_lhs => rw [← round_mant_expo false k, ← round_shift false (mant k)
          (expo k - q).toNat (expo k)]
        have he : expo k - ((expo k - q).toNat : Int) = q := by omega
        rw [he]
        exact round_le _ _ _ (Nat.le_add_right _ _)

/-! ## The square root is monotone -/

theorem fsqrt_fin_pos (k : Fin 2139095040) (hk : k.val ≠ 0) :
    fsqrt (fin false k) = sqrtRound (mant k) (expo k) := by
  rw [fsqrt]
  simp only [hk, if_false, Bool.false_eq_true]
  rfl

theorem isqrt_mono (n n' : Nat) (h : n ≤ n') : isqrt n ≤ isqrt n' := by
  rw [isqrt_eq_sqrt, isqrt_eq_sqrt]
  exact Nat.sqrt_le_sqrt h

/-- The integer square root followed by its sticky digit is monotone. -/
theorem sticky_mono (n n' : Nat) (h : n ≤ n') :
    2 * isqrt n + (if isqrt n * isqrt n = n then 0 else 1)
      ≤ 2 * isqrt n' + (if isqrt n' * isqrt n' = n' then 0 else 1) := by
  have h1 := isqrt_mono n n' h
  have s1 := isqrt_spec n
  have s2 := isqrt_spec n'
  rcases Nat.lt_or_ge (isqrt n) (isqrt n') with hlt | hge
  · split_ifs <;> omega
  · have heq : isqrt n = isqrt n' := le_antisymm h1 hge
    rw [← heq] at s2 ⊢
    split_ifs with a b b
    · omega
    · omega
    · exfalso; apply a; omega
    · omega

theorem roundDyadic_zero_fst (p : Nat) (qmin : Int) (e : Int) :
    (roundDyadic p qmin 0 e).1 = 0 := by
  unfold roundDyadic
  simp only []
  split_ifs
  · simp
  · simp [shiftRoundNE]

/-- The two roundings of the square root, to binary64 and then to binary32, are
monotone together. -/
theorem round_roundDyadic_le (T T' : Nat) (e : Int) (h : T ≤ T') :
    fle (F32.round false (roundDyadic 53 (-1074) T e).1 (roundDyadic 53 (-1074) T e).2)
      (F32.round false (roundDyadic 53 (-1074) T' e).1 (roundDyadic 53 (-1074) T' e).2)
      = true := by
  by_cases hT : T = 0
  · rw [hT, roundDyadic_zero_fst, round_zero]
    exact fle_zero_of_nonneg _ (nonneg_round _ _)
  · have hT' : T' ≠ 0 := by omega
    obtain ⟨c1, c2, c3⟩ := roundDyadic_canonical 53 (-1074) T e hT (by norm_num)
    obtain ⟨d1, d2, d3⟩ := roundDyadic_canonical 53 (-1074) T' e hT' (by norm_num)
    rcases roundDyadic_mono 53 (-1074) T T' e h with hlt | ⟨heq, hle⟩
    · generalize (roundDyadic 53 (-1074) T e).1 = D at *
      generalize (roundDyadic 53 (-1074) T e).2 = q at *
      generalize (roundDyadic 53 (-1074) T' e).1 = D' at *
      generalize (roundDyadic 53 (-1074) T' e).2 = q' at *
      have hD' : 2 ^ 52 ≤ D' := by
        rcases d3 with d3 | d3
        · omega
        · simpa using d3
      apply round_le_of_value D D' 0 (q' - q).toNat q q' (by omega)
      have hj : 2 ^ 1 ≤ 2 ^ (q' - q).toNat := Nat.pow_le_pow_right (by norm_num) (by omega)
      calc D * 2 ^ 0 ≤ 2 ^ 52 * 2 ^ 1 := by norm_num at c2 ⊢; omega
        _ ≤ D' * 2 ^ (q' - q).toNat := Nat.mul_le_mul hD' hj
    · rw [heq]
      exact round_le _ _ _ hle

theorem sqrtDyadic_mono (m m' : Nat) (e : Int) (h : m ≤ m') :
    (sqrtDyadic m e).2 = (sqrtDyadic m' e).2 ∧ (sqrtDyadic m e).1 ≤ (sqrtDyadic m' e).1 := by
  refine ⟨rfl, ?_⟩
  unfold sqrtDyadic
  simp only []
  exact sticky_mono _ _ (Nat.mul_le_mul_right _ h)

theorem sqrtRound_le (m m' : Nat) (e : Int) (h : m ≤ m') :
    fle (sqrtRound m e) (sqrtRound m' e) = true := by
  obtain ⟨h1, h2⟩ := sqrtDyadic_mono m m' e h
  unfold sqrtRound
  rw [← h1]
  exact round_roundDyadic_le _ _ _ h2

theorem sqrtDyadic_even (m : Nat) (e : Int) (h : e.natAbs % 2 = 0) :
    sqrtDyadic m e = (2 * isqrt (m * 2 ^ 110)
      + (if isqrt (m * 2 ^ 110) * isqrt (m * 2 ^ 110) = m * 2 ^ 110 then 0 else 1),
      (e - 110) / 2 - 1) := by
  unfold sqrtDyadic
  simp only [h, Nat.add_zero, Nat.cast_zero, sub_zero]

theorem sqrtDyadic_odd (m : Nat) (e : Int) (h : e.natAbs % 2 = 1) :
    sqrtDyadic m e = (2 * isqrt (m * 2 ^ 111)
      + (if isqrt (m * 2 ^ 111) * isqrt (m * 2 ^ 111) = m * 2 ^ 111 then 0 else 1),
      (e - 111) / 2 - 1) := by
  unfold sqrtDyadic
  simp only [h, Nat.cast_one]
  have : e - 1 - 110 = e - 111 := by ring
  rw [this]

set_option maxRecDepth 100000 in
theorem sticky_boundary :
    2 * isqrt ((2 ^ 24 - 1) * 2 ^ 111)
        + (if isqrt ((2 ^ 24 - 1) * 2 ^ 111) * isqrt ((2 ^ 24 - 1) * 2 ^ 111)
            = (2 ^ 24 - 1) * 2 ^ 111 then 0 else 1)
      ≤ (2 * isqrt (2 ^ 23 * 2 ^ 110)
        + (if isqrt (2 ^ 23 * 2 ^ 110) * isqrt (2 ^ 23 * 2 ^ 110) = 2 ^ 23 * 2 ^ 110
            then 0 else 1)) * 2 ^ 1 := by
  decide

/-- The square root of the largest datum of a binade does not exceed that of
the least datum of the next binade. -/
theorem sqrtRound_boundary (e : Int) :
    fle (sqrtRound (2 ^ 24 - 1) e) (sqrtRound (2 ^ 23) (e + 1)) = true := by
  have hpar : e.natAbs % 2 = 0 ∨ e.natAbs % 2 = 1 := by omega
  rcases hpar with hp | hp
  · have hp' : (e + 1).natAbs % 2 = 1 := by omega
    unfold sqrtRound
    rw [sqrtDyadic_even _ e hp, sqrtDyadic_odd _ (e + 1) hp']
    have he : (e + 1 - 111) / 2 - 1 = (e - 110) / 2 - 1 := by omega
    simp only [he]
    exact round_roundDyadic_le _ _ _ (sticky_mono _ _ (by norm_num))
  · have hp' : (e + 1).natAbs % 2 = 0 := by omega
    unfold sqrtRound
    rw [sqrtDyadic_odd _ e hp, sqrtDyadic_even _ (e + 1) hp']
    have he : (e + 1 - 110) / 2 - 1 = (e - 111) / 2 - 1 + 1 := by omega
    simp only [he]
    have hne : 2 * isqrt (2 ^ 23 * 2 ^ 110)
        + (if isqrt (2 ^ 23 * 2 ^ 110) * isqrt (2 ^ 23 * 2 ^ 110) = 2 ^ 23 * 2 ^ 110
            then 0 else 1) ≠ 0 := by
      have := two_pow_le_isqrt (2 ^ 23 * 2 ^ 110) 66 (by norm_num)
      have : 0 < 2 ^ 66 := by positivity
      omega
    have hs := roundDyadic_shift 53 (-1074) _ 1 ((e - 111) / 2 - 1 + 1) hne
    have he2 : (e - 111) / 2 - 1 + 1 - ((1 : Nat) : Int) = (e - 111) / 2 - 1 := by
      push_cast; ring
    rw [he2] at hs
    rw [← hs]
    exact round_roundDyadic_le _ _ _ sticky_boundary

theorem mant_expo_succ (k : Nat) :
    (expo (k + 1) = expo k ∧ mant k ≤ mant (k + 1)) ∨
      (mant k = 2 ^ 24 - 1 ∧ mant (k + 1) = 2 ^ 23 ∧ expo (k + 1) = expo k + 1) := by
  unfold mant expo
  norm_num
  split_ifs <;> omega

theorem fsqrt_step (k : Nat) (h : k + 1 < 2139095040) :
    fle (fsqrt (fin false ⟨k, by omega⟩)) (fsqrt (fin false ⟨k + 1, h⟩)) = true := by
  by_cases hk : k = 0
  · subst hk
    have : fsqrt (fin false ⟨0, by omega⟩) = zero := fsqrt_zero
    rw [this]
    exact fle_zero_of_nonneg _ (fsqrt_nonneg _ rfl)
  · rw [fsqrt_fin_pos ⟨k, by omega⟩ hk, fsqrt_fin_pos ⟨k + 1, h⟩ (by simp)]
    simp only []
    rcases mant_expo_succ k with ⟨h1, h2⟩ | ⟨h1, h2, h3⟩
    · rw [h1]; exact sqrtRound_le _ _ _ h2
    · rw [h1, h2, h3]; exact sqrtRound_boundary _

theorem fsqrt_le_add (k : Nat) : ∀ (d : Nat) (h : k + d < 2139095040),
    fle (fsqrt (fin false ⟨k, by omega⟩)) (fsqrt (fin false ⟨k + d, h⟩)) = true := by
  intro d
  induction d with
  | zero => intro h; exact fle_refl_of_nonneg _ (fsqrt_nonneg _ rfl)
  | succ d ih =>
    intro h
    exact fle_trans _ _ _ (ih (by omega)) (fsqrt_step (k + d) h)

/-- The square root is monotone on the data that are `>= 0`. -/
theorem fsqrt_mono (x y : F32) (hx : nonneg x = true) (hy : nonneg y = true)
    (h : fle x y = true) : fle (fsqrt x) (fsqrt y) = true := by
  cases y with
  | nan => simp [nonneg] at hy
  | inf t =>
    have ht : t = false := by simpa [nonneg] using hy
    subst ht
    rw [fsqrt_inf]
    exact fle_inf_of_nonneg _ (fsqrt_nonneg x hx)
  | fin t l =>
    have ht : t = false := by simpa [nonneg] using hy
    subst ht
    cases x with
    | nan => simp [nonneg] at hx
    | inf s =>
      have hs : s = false := by simpa [nonneg] using hx
      subst hs
      simp [fle] at h
    | fin s k =>
      have hs : s = false := by simpa [nonneg] using hx
      subst hs
      rw [fle_fin_false] at h
      have := fsqrt_le_add k.val (l.val - k.val) (by have := l.isLt; omega)
      have e : (⟨k.val + (l.val - k.val), by have := l.isLt; omega⟩ : Fin 2139095040) = l := by
        apply Fin.ext; simp only []; omega
      rw [e] at this
      exact this

/-! ## The accumulator grows with the length -/

theorem fle_fadd_right (x y : F32) (hx : nonneg x = true) (hy : nonneg y = true) :
    fle y (fadd x y) = true := by
  rw [fadd_comm]; exact fle_fadd_left y x hy hx

theorem accumulate_le (a p : List F32) (m : Nat) : ∀ d : Nat,
    (∀ i, i < m + d → nanPair (a.getD i nan) (p.getD i nan) = false) →
    fle (accumulate a p m) (accumulate a p (m + d)) = true := by
  intro d
  induction d with
  | zero =>
    intro h
    exact fle_refl_of_nonneg _ (accumulate_nonneg_of_no_nanPair a p m h)
  | succ d ih =>
    intro h
    have h' : ∀ i, i < m + d → nanPair (a.getD i nan) (p.getD i nan) = false :=
      fun i hi => h i (by omega)
    rw [← Nat.add_assoc, accumulate_succ]
    exact fle_trans _ _ _ (ih h') (fle_fadd_left _ _
      (accumulate_nonneg_of_no_nanPair a p (m + d) h')
      (sqDiff_nonneg_of_no_nanPair _ _ (h (m + d) (by omega))))

theorem sqDiff_le_accumulate (a p : List F32) (n i : Nat) (hi : i < n)
    (h : ∀ i, i < n → nanPair (a.getD i nan) (p.getD i nan) = false) :
    fle (sqDiff (a.getD i nan) (p.getD i nan)) (accumulate a p n) = true := by
  have h1 : fle (sqDiff (a.getD i nan) (p.getD i nan)) (accumulate a p (i + 1)) = true := by
    rw [accumulate_succ]
    exact fle_fadd_right _ _ (accumulate_nonneg_of_no_nanPair a p i (fun j hj => h j (by omega)))
      (sqDiff_nonneg_of_no_nanPair _ _ (h i hi))
  have h2 := accumulate_le a p (i + 1) (n - (i + 1))
    (fun j hj => h j (by omega))
  have e : i + 1 + (n - (i + 1)) = n := by omega
  rw [e] at h2
  exact fle_trans _ _ _ h1 h2

/-- Without a NaN pair the distance does not decrease when the length grows. -/
theorem distance_le (a p : List F32) (m n : Nat) (hmn : m ≤ n)
    (h : ∀ i, i < n → nanPair (a.getD i nan) (p.getD i nan) = false) :
    fle (distance a p m) (distance a p n) = true := by
  have h2 := accumulate_le a p m (n - m) (fun j hj => h j (by omega))
  have e : m + (n - m) = n := by omega
  rw [e] at h2
  exact fsqrt_mono _ _ (accumulate_nonneg_of_no_nanPair a p m (fun j hj => h j (by omega)))
    (accumulate_nonneg_of_no_nanPair a p n h) h2

theorem fsqrt_sqDiff_le_distance (a p : List F32) (n i : Nat) (hi : i < n)
    (h : ∀ i, i < n → nanPair (a.getD i nan) (p.getD i nan) = false) :
    fle (fsqrt (sqDiff (a.getD i nan) (p.getD i nan))) (distance a p n) = true :=
  fsqrt_mono _ _ (sqDiff_nonneg_of_no_nanPair _ _ (h i hi))
    (accumulate_nonneg_of_no_nanPair a p n h) (sqDiff_le_accumulate a p n i hi h)

theorem fabs_fsub_int (a b : F32) (x y : Int) (ha : isInt a x = true)
    (hb : isInt b y = true) : fabs (fsub a b) = ofInt ((x - y).natAbs : Int) := by
  by_cases h : x - y = 0
  · have h' : x + -y = 0 := by omega
    rw [h, Int.natAbs_zero, Nat.cast_zero, ofInt_zero]
    rcases fadd_int_zero a (fneg b) x (-y) ha (isInt_fneg b y hb) h' with e | e
    · rw [fsub, e]; rfl
    · rw [fsub, e]; rfl
  · rw [fsub_int a b x y ha hb h, fabs_ofInt]

/-- For integer elements less than `2 ^ 12` apart, the root of the squared
difference is the magnitude of the difference. -/
theorem fsqrt_sqDiff_int (a b : F32) (x y : Int) (ha : isInt a x = true)
    (hb : isInt b y = true) (hxy : (x - y).natAbs < 2 ^ 12) :
    fsqrt (sqDiff a b) = fabs (fsub a b) := by
  have h1 : (x - y).natAbs * (x - y).natAbs < 2 ^ 24 := by
    have : (x - y).natAbs * (x - y).natAbs < 2 ^ 12 * 2 ^ 12 :=
      Nat.mul_lt_mul'' hxy hxy
    norm_num at this ⊢
    exact this
  have h2 : (x - y) ^ 2 = ((x - y).natAbs : Int) * ((x - y).natAbs : Int) := by
    rw [← Nat.cast_mul, Int.natAbs_mul_self (a := x - y)]
    ring
  rw [fabs_fsub_int a b x y ha hb, sqDiff_int a b x y ha hb (by omega), h2,
    fsqrt_ofInt_sq _ h1]

/-! ## The triangle inequality for exact distances -/

theorem intSqSum_eq_sum (x y : List Int) (n : Nat) :
    intSqSum x y n = ∑ i in Finset.range n, (x.getD i 0 - y.getD i 0) ^ 2 := by
  induction n with
  | zero => simp [intSqSum_zero]
  | succ m ih => rw [intSqSum_succ, Finset.sum_range_succ, ih]

/-- The triangle inequality for integer vectors, squared: if two of the distances
are the integers `a` and `b`, the third squared is at most `(a + b) ^ 2`. -/
theorem intSqSum_triangle_sq (x y z : List Int) (n a b : Nat)
    (hab : intSqSum x y n = (a : Int) * a) (hbc : intSqSum y z n = (b : Int) * b) :
    intSqSum x z n ≤ ((a + b : Nat) : Int) * ((a + b : Nat) : Int) := by
  rw [intSqSum_eq_sum] at hab hbc ⊢
  have hcs := Finset.sum_mul_sq_le_sq_mul_sq (Finset.range n)
    (fun i => x.getD i 0 - y.getD i 0) (fun i => y.getD i 0 - z.getD i 0)
  simp only [] at hcs
  rw [hab, hbc] at hcs
  have hexp : ∑ i in Finset.range n, (x.getD i 0 - z.getD i 0) ^ 2
      = ∑ i in Finset.range n, (x.getD i 0 - y.getD i 0) ^ 2
        + ∑ i in Finset.range n, (y.getD i 0 - z.getD i 0) ^ 2
        + 2 * ∑ i in Finset.range n, (x.getD i 0 - y.getD i 0) * (y.getD i 0 - z.getD i 0) := by
    rw [Finset.mul_sum, ← Finset.sum_add_distrib, ← Finset.sum_add_distrib]
    apply Finset.sum_congr rfl
    intro i _
    ring
  rw [hexp, hab, hbc]
  generalize ∑ i in Finset.range n, (x.getD i 0 - y.getD i 0) * (y.getD i 0 - z.getD i 0)
    = P at hcs
  have ha0 : (0 : Int) ≤ a := Int.natCast_nonneg a
  have hb0 : (0 : Int) ≤ b := Int.natCast_nonneg b
  have hP : P ≤ (a : Int) * b := by
    by_contra hcon
    push_neg at hcon
    have h0 : (0 : Int) ≤ (a : Int) * b := mul_nonneg ha0 hb0
    nlinarith
  push_cast
  nlinarith

theorem fle_ofInt_nat (u v : Nat) (h : u ≤ v) : fle (ofInt (u : Int)) (ofInt (v : Int)) = true := by
  rw [ofInt_natCast, ofInt_natCast]
  exact round_le _ _ _ h

theorem lt_of_mul_self_lt (a : Nat) (h : a * a < 2 ^ 24) : a < 2 ^ 12 := by
  by_contra hcon
  push_neg at hcon
  have := Nat.mul_le_mul hcon hcon
  norm_num at this h
  omega

/-- The triangle inequality when the two distances on the right are exact. -/
theorem distance_triangle_int (A B C : List F32) (x y z : List Int) (n a b : Nat)
    (hA : ∀ i, i < n → isInt (A.getD i nan) (x.getD i 0) = true)
    (hB : ∀ i, i < n → isInt (B.getD i nan) (y.getD i 0) = true)
    (hC : ∀ i, i < n → isInt (C.getD i nan) (z.getD i 0) = true)
    (hab : intSqSum x y n = (a : Int) * a) (hbc : intSqSum y z n = (b : Int) * b)
    (hs : (a + b) * (a + b) < 2 ^ 24) :
    distance A B n = ofInt a ∧ distance B C n = ofInt b ∧
      fle (distance A C n) (fadd (ofInt a) (ofInt b)) = true := by
  have ha : a * a < 2 ^ 24 :=
    lt_of_le_of_lt (Nat.mul_le_mul (Nat.le_add_right a b) (Nat.le_add_right a b)) hs
  have hb : b * b < 2 ^ 24 :=
    lt_of_le_of_lt (Nat.mul_le_mul (Nat.le_add_left b a) (Nat.le_add_left b a)) hs
  have ha' := lt_of_mul_self_lt a ha
  have hb' := lt_of_mul_self_lt b hb
  have htri := intSqSum_triangle_sq x y z n a b hab hbc
  have h0 := intSqSum_nonneg x z n
  have hS : intSqSum x z n < 2 ^ 24 := by
    have : (((a + b) * (a + b) : Nat) : Int) < 2 ^ 24 := by exact_mod_cast hs
    push_cast at this htri
    omega
  refine ⟨distance_int_sq A B x y n a hA hB hab ha, distance_int_sq B C y z n b hB hC hbc hb, ?_⟩
  rw [distance_int A C x z n hA hC hS,
    fadd_ofInt a b (by norm_num at ha' ⊢; omega) (by norm_num at hb' ⊢; omega)
      (Int.natCast_nonneg a) (Int.natCast_nonneg b), ← Nat.cast_add,
    ← fsqrt_ofInt_sq (a + b) hs]
  have e : intSqSum x z n = ((intSqSum x z n).toNat : Int) := (Int.toNat_of_nonneg h0).symm
  have hle : (intSqSum x z n).toNat ≤ (a + b) * (a + b) := by
    have : (((intSqSum x z n).toNat : Nat) : Int) ≤ (((a + b) * (a + b) : Nat) : Int) := by
      rw [← e]; push_cast at htri ⊢; exact htri
    exact_mod_cast this
  rw [e, ← Nat.cast_mul]
  apply fsqrt_mono
  · rw [ofInt_natCast]; exact nonneg_round _ _
  · rw [ofInt_natCast]; exact nonneg_round _ _
  · exact fle_ofInt_nat _ _ hle

/-! ## The relative error of a rounding -/

theorem two_zpow_pos (e : Int) : (0 : ℚ) < 2 ^ e := zpow_pos (by norm_num) e

theorem two_zpow_add (a b : Int) : (2 : ℚ) ^ (a + b) = 2 ^ a * 2 ^ b :=
  zpow_add₀ (by norm_num) a b

theorem two_zpow_toNat (j : Int) (h : 0 ≤ j) : ((2 : ℚ) ^ j.toNat) = 2 ^ j := by
  rw [← zpow_natCast, Int.toNat_of_nonneg h]

/-- The rounding `(M, q)` of `m * 2 ^ e` to `p` digits is within `2 ^ -p` of it,
relatively, unless it underflows. -/
theorem roundDyadic_rel (p : Nat) (qmin : Int) (m : Nat) (e : Int) (hp : 1 ≤ p)
    (hn : qmin ≤ e ∨ qmin ≤ e + (bitLength m : Int) - (p : Int)) :
    |((roundDyadic p qmin m e).1 : ℚ) * 2 ^ (roundDyadic p qmin m e).2 - (m : ℚ) * 2 ^ e|
      ≤ (m : ℚ) * 2 ^ e / 2 ^ p := by
  have hpos := two_zpow_pos e
  have hm0 : (0 : ℚ) ≤ (m : ℚ) * 2 ^ e / 2 ^ p := by positivity
  unfold roundDyadic
  simp only []
  split_ifs with h
  · simp only
    have e1 : ((m * 2 ^ (e - max (e + (bitLength m : Int) - (p : Int)) qmin).toNat : Nat) : ℚ)
        * 2 ^ (max (e + (bitLength m : Int) - (p : Int)) qmin) = (m : ℚ) * 2 ^ e := by
      push_cast
      rw [two_zpow_toNat _ (by omega), mul_assoc, ← two_zpow_add]
      congr 2
      ring
    rw [e1, sub_self, abs_zero]
    exact hm0
  · simp only
    have hq : max (e + (bitLength m : Int) - (p : Int)) qmin = e + (bitLength m : Int) - (p : Int) := by
      rw [max_def] at h ⊢
      split_ifs at h ⊢ with h1
      · omega
      · rfl
    rw [hq] at h ⊢
    have hs : (e + (bitLength m : Int) - (p : Int) - e).toNat = bitLength m - p := by omega
    have hL : p < bitLength m := by omega
    rw [hs]
    have hm : m ≠ 0 := by
      rintro rfl
      rw [bitLength_zero] at hL
      omega
    have hlo := two_pow_le_of_bitLength m hm
    obtain ⟨n1, n2⟩ := shiftRoundNE_nearest m (bitLength m - p)
    generalize shiftRoundNE m (bitLength m - p) = M at n1 n2
    have e2 : (2 : ℚ) ^ (e + (bitLength m : Int) - (p : Int))
        = 2 ^ (bitLength m - p) * 2 ^ e := by
      have : e + (bitLength m : Int) - (p : Int) = ((bitLength m - p : Nat) : Int) + e := by omega
      rw [this, two_zpow_add, zpow_natCast]
    rw [e2]
    have e3 : (M : ℚ) * (2 ^ (bitLength m - p) * 2 ^ e) - (m : ℚ) * 2 ^ e
        = ((M : ℚ) * 2 ^ (bitLength m - p) - m) * 2 ^ e := by ring
    rw [e3, abs_mul, abs_of_pos hpos, div_eq_mul_inv, mul_assoc, mul_comm ((2 : ℚ) ^ e),
      ← mul_assoc]
    apply mul_le_mul_of_nonneg_right _ hpos.le
    have q1 : (2 : ℚ) * ((M : ℚ) * 2 ^ (bitLength m - p) - m) ≤ 2 ^ (bitLength m - p) := by
      exact_mod_cast n1
    have q2 : (2 : ℚ) * ((m : ℚ) - (M : ℚ) * 2 ^ (bitLength m - p)) ≤ 2 ^ (bitLength m - p) := by
      exact_mod_cast n2
    have q3 : (2 : ℚ) ^ (bitLength m - p) * 2 ^ p ≤ 2 * m := by
      have : 2 ^ (bitLength m - p) * 2 ^ p ≤ 2 * m := by
        have h2 : bitLength m - p + p = (bitLength m - 1) + 1 := by omega
        rw [← pow_add, h2, pow_succ]
        omega
      exact_mod_cast this
    have hp2 : (0 : ℚ) < 2 ^ p := by positivity
    have q4 : (2 : ℚ) ^ (bitLength m - p) ≤ 2 * (m * (2 ^ p)⁻¹) := by
      rw [← mul_assoc, le_mul_inv_iff₀ hp2]
      exact q3
    rw [abs_le]
    constructor <;> linarith

theorem toRat_fin_false (k : Fin 2139095040) :
    toRat (fin false k) = (mant k : ℚ) * 2 ^ expo k := by
  simp [toRat]

theorem toRat_fin_true (k : Fin 2139095040) :
    toRat (fin true k) = -((mant k : ℚ) * 2 ^ expo k) := by
  simp [toRat]

theorem toRat_fin (s : Bool) (k : Fin 2139095040) :
    toRat (fin s k) = (signed s (mant k) : ℚ) * 2 ^ expo k := by
  cases s <;> simp [toRat, signed]

theorem encode_val (s : Bool) (M : Nat) (q : Int) (k : Fin 2139095040)
    (h : encode s M q = fin s k) :
    k.val = if M < 2 ^ 23 then M else (q + 150).toNat * 2 ^ 23 + (M - 2 ^ 23) := by
  by_cases hc : (if M < 2 ^ 23 then M else (q + 150).toNat * 2 ^ 23 + (M - 2 ^ 23)) < 2139095040
  · rw [encode_eq_fin s M q _ hc rfl] at h
    injection h with _ h2
    rw [← h2]
  · rw [encode_eq_inf s M q hc] at h
    cases h

/-- The value of a packed canonical pair `(M, q)` is `M * 2 ^ q`. -/
theorem toRat_encode (M : Nat) (q : Int) (k : Fin 2139095040)
    (h : encode false M q = fin false k) (hq : -149 ≤ q) (hM : M ≤ 2 ^ 24)
    (hc : M = 0 ∨ q = -149 ∨ 2 ^ 23 ≤ M) :
    toRat (fin false k) = (M : ℚ) * 2 ^ q := by
  have hv := encode_val false M q k h
  rw [toRat_fin_false]
  have cases3 : (mant k = M ∧ (expo k = q ∨ M = 0)) ∨
      (M = 2 ^ 24 ∧ mant k = 2 ^ 23 ∧ expo k = q + 1) := by
    unfold mant expo
    rw [hv]
    norm_num at hM hc ⊢
    split_ifs <;> omega
  rcases cases3 with ⟨h1, h2 | h2⟩ | ⟨h1, h2, h3⟩
  · rw [h1, h2]
  · rw [h1, h2]; simp
  · rw [h1, h2, h3, two_zpow_add]
    push_cast
    ring

/-- The value of the rounding of `m * 2 ^ e` to binary32 is within `2 ^ -24` of
it, relatively, unless the rounding overflows or underflows. -/
theorem round_rel (m : Nat) (e : Int) (k : Fin 2139095040)
    (h : F32.round false m e = fin false k)
    (hn : -149 ≤ e ∨ -149 ≤ e + (bitLength m : Int) - 24) :
    |toRat (fin false k) - (m : ℚ) * 2 ^ e| ≤ (m : ℚ) * 2 ^ e / 2 ^ 24 := by
  by_cases hm : m = 0
  · subst hm
    rw [round_zero] at h
    injection h with _ h2
    rw [← h2]
    simp [toRat, mant]
  · obtain ⟨c1, c2, c3⟩ := roundDyadic_canonical 24 (-149) m e hm (by norm_num)
    have hr := roundDyadic_rel 24 (-149) m e (by norm_num) (by exact_mod_cast hn)
    unfold F32.round at h
    simp only [] at h
    rw [toRat_encode _ _ k h c1 c2 (by
      rcases c3 with c3 | c3
      · exact Or.inr (Or.inl c3)
      · exact Or.inr (Or.inr c3))]
    exact hr

theorem round_sign (s : Bool) (m : Nat) (e : Int) (k : Fin 2139095040)
    (h : F32.round s m e = fin s k) : F32.round false m e = fin false k := by
  cases s
  · exact h
  · have h1 : F32.round true m e = fneg (F32.round false m e) := round_not false m e
    rw [h1] at h
    rcases round_cases false m e with h2 | ⟨l, h2⟩
    · rw [h2] at h; cases h
    · rw [h2] at h ⊢
      simp only [fneg] at h
      injection h with _ h3
      rw [h3]

theorem toRat_align (s : Bool) (k : Fin 2139095040) (q : Int) (hq : q ≤ expo k) :
    toRat (fin s k) = ((signed s (mant k * 2 ^ (expo k - q).toNat) : Int) : ℚ) * 2 ^ q := by
  rw [toRat_fin, signed_mul]
  push_cast
  rw [two_zpow_toNat _ (by omega), mul_assoc, ← two_zpow_add]
  congr 2
  ring

theorem toRat_fneg (x : F32) : toRat (fneg x) = -toRat x := by
  cases x with
  | nan => simp [fneg, toRat]
  | inf s => simp [fneg, toRat]
  | fin s k => cases s <;> simp [fneg, toRat]

theorem round_fin_sign (s t : Bool) (m : Nat) (e : Int) (k : Fin 2139095040)
    (h : F32.round s m e = fin t k) : t = s := by
  rcases round_cases s m e with h2 | ⟨l, h2⟩
  · rw [h2] at h; cases h
  · rw [h2] at h
    injection h with h3 _
    exact h3.symm

/-- The value of the rounding of the integer `v` times `2 ^ q`, sign included. -/
theorem round_int_rel (v : Int) (q : Int) (t : Bool) (k : Fin 2139095040)
    (h : F32.round (decide (v < 0)) v.natAbs q = fin t k)
    (hn : -149 ≤ q ∨ -149 ≤ q + (bitLength v.natAbs : Int) - 24) :
    |toRat (fin t k) - (v : ℚ) * 2 ^ q| ≤ |(v : ℚ) * 2 ^ q| / 2 ^ 24 := by
  have ht := round_fin_sign _ _ _ _ _ h
  subst ht
  have h1 := round_rel v.natAbs q k (round_sign _ _ _ _ h) hn
  have hpos := two_zpow_pos q
  rw [abs_mul, abs_of_pos hpos]
  have habs : ((v.natAbs : Nat) : ℚ) = |(v : ℚ)| := by
    rw [Nat.cast_natAbs, Int.cast_abs]
  rw [habs] at h1
  by_cases hv : v < 0
  · have hv' : (v : ℚ) < 0 := by exact_mod_cast hv
    rw [decide_eq_true hv, toRat_fin_true, ← toRat_fin_false]
    rw [abs_of_neg hv'] at h1 ⊢
    have e1 : -toRat (fin false k) - (v : ℚ) * 2 ^ q
        = -(toRat (fin false k) - -(v : ℚ) * 2 ^ q) := by ring
    rw [e1, abs_neg]
    exact h1
  · have hv' : (0 : ℚ) ≤ (v : ℚ) := by exact_mod_cast not_lt.1 hv
    rw [decide_eq_false hv]
    rw [abs_of_nonneg hv'] at h1 ⊢
    exact h1

/-- A finite sum of two finite data is within `2 ^ -24` of the exact sum,
relatively. -/
theorem fadd_rel (s1 s2 t : Bool) (k1 k2 k : Fin 2139095040)
    (h : fadd (fin s1 k1) (fin s2 k2) = fin t k) :
    |toRat (fin t k) - (toRat (fin s1 k1) + toRat (fin s2 k2))|
      ≤ |toRat (fin s1 k1) + toRat (fin s2 k2)| / 2 ^ 24 := by
  have hq1 : min (expo k1) (expo k2) ≤ expo k1 := min_le_left _ _
  have hq2 : min (expo k1) (expo k2) ≤ expo k2 := min_le_right _ _
  have hq0 : -149 ≤ min (expo k1) (expo k2) := le_min (expo_ge _) (expo_ge _)
  rw [toRat_align s1 k1 _ hq1, toRat_align s2 k2 _ hq2, ← add_mul, ← Int.cast_add]
  simp only [fadd] at h
  generalize min (expo k1.val) (expo k2.val) = q at *
  generalize signed s1 (mant k1 * 2 ^ (expo k1 - q).toNat)
    + signed s2 (mant k2 * 2 ^ (expo k2 - q).toNat) = v at *
  split_ifs at h with hv
  · injection h with _ h2
    rw [hv, ← h2]
    simp [toRat, mant]
  · exact round_int_rel v q t k h (Or.inl hq0)

theorem fsub_rel (s1 s2 t : Bool) (k1 k2 k : Fin 2139095040)
    (h : fsub (fin s1 k1) (fin s2 k2) = fin t k) :
    |toRat (fin t k) - (toRat (fin s1 k1) - toRat (fin s2 k2))|
      ≤ |toRat (fin s1 k1) - toRat (fin s2 k2)| / 2 ^ 24 := by
  have h1 := fadd_rel s1 (!s2) t k1 k2 k h
  have e : toRat (fin (!s2) k2) = -toRat (fin s2 k2) := toRat_fneg (fin s2 k2)
  rw [e] at h1
  simpa [sub_eq_add_neg] using h1

/-- Data of magnitude at least `2 ^ -63` have squares of at least `2 ^ -126`,
which do not underflow. -/
theorem sq_no_underflow (k : Nat) (hk : 536870912 ≤ k) :
    -86 ≤ expo k ∧ 47 ≤ bitLength (mant k * mant k) := by
  have h1 : -86 ≤ expo k ∧ 2 ^ 23 ≤ mant k := by
    unfold expo mant
    norm_num
    split_ifs <;> omega
  refine ⟨h1.1, ?_⟩
  rw [Nat.succ_le_iff, lt_bitLength_iff]
  calc 2 ^ 46 = 2 ^ 23 * 2 ^ 23 := by norm_num
    _ ≤ mant k * mant k := Nat.mul_le_mul h1.2 h1.2

theorem toRat_sq (s : Bool) (k : Fin 2139095040) :
    toRat (fin s k) ^ 2 = ((mant k * mant k : Nat) : ℚ) * 2 ^ (expo k + expo k) := by
  rw [toRat_fin, two_zpow_add]
  cases s <;> simp [signed] <;> ring

/-- The rounded square of a datum that is zero or at least `2 ^ -63` in magnitude
is within `2 ^ -24` of the exact square, relatively, when it is finite. -/
theorem fmul_self_rel (s t : Bool) (k l : Fin 2139095040)
    (hk : k.val = 0 ∨ 536870912 ≤ k.val)
    (h : fmul (fin s k) (fin s k) = fin t l) :
    |toRat (fin t l) - toRat (fin s k) ^ 2| ≤ toRat (fin s k) ^ 2 / 2 ^ 24 := by
  rw [toRat_sq]
  simp only [fmul, Bool.xor_self] at h
  have ht := round_fin_sign _ _ _ _ _ h
  subst ht
  rcases hk with hk | hk
  · have hm : mant k = 0 := (mant_eq_zero_iff k).2 hk
    rw [hm] at h ⊢
    simp only [Nat.mul_zero] at h ⊢
    rw [round_zero] at h
    injection h with _ h2
    rw [← h2]
    simp [toRat, mant]
  · obtain ⟨h1, h2⟩ := sq_no_underflow k hk
    exact round_rel _ _ l h (Or.inr (by omega))

/-- A fused multiply-add of a zero square leaves a sum that is `>= 0` as it
is. -/
theorem ffma_zero_sq (s : Bool) (k k3 : Fin 2139095040) (hk : k.val = 0) :
    ffma (fin s k) (fin s k) (fin false k3) = fin false k3 := by
  have hm : mant k = 0 := (mant_eq_zero_iff k).2 hk
  have he : expo k = -149 := by
    unfold expo
    rw [hk]
    norm_num
  have h3 := expo_ge k3
  simp only [ffma, hm, he, Bool.xor_self, signed_false, Nat.zero_mul, Nat.cast_zero, zero_add,
    Bool.false_and]
  have hq : min (-149 + -149 : Int) (expo k3) = -298 := by
    rw [min_def]; split_ifs <;> omega
  rw [hq]
  split_ifs with hv
  · have h0 : mant k3 * 2 ^ (expo k3 - -298).toNat = 0 := by exact_mod_cast hv
    have hm3 : mant k3 = 0 := by
      rcases Nat.mul_eq_zero.1 h0 with h | h
      · exact h
      · exact absurd h (by positivity)
    rw [fin_val_zero k3 ((mant_eq_zero_iff k3).1 hm3)]
  · have hnn : ¬ ((mant k3 * 2 ^ (expo k3 - -298).toNat : Nat) : Int) < 0 := by
      have := Int.natCast_nonneg (mant k3 * 2 ^ (expo k3 - -298).toNat)
      omega
    rw [decide_eq_false hnn, Int.natAbs_ofNat]
    generalize hj : (expo k3 - -298).toNat = j
    have e : (-298 : Int) = expo k3 - (j : Int) := by omega
    rw [e, round_shift, round_mant_expo]

/-- The fused multiply-add `d * d + acc`, for `d` zero or at least `2 ^ -63` in
magnitude and `acc >= 0`, is within `2 ^ -24` of the exact value, relatively,
when it is finite; and it is `>= 0`. -/
theorem ffma_sq_rel (s t : Bool) (k k3 l : Fin 2139095040)
    (hk : k.val = 0 ∨ 536870912 ≤ k.val)
    (h : ffma (fin s k) (fin s k) (fin false k3) = fin t l) :
    t = false ∧
      |toRat (fin t l) - (toRat (fin s k) ^ 2 + toRat (fin false k3))|
        ≤ (toRat (fin s k) ^ 2 + toRat (fin false k3)) / 2 ^ 24 := by
  rcases hk with hk | hk
  · rw [ffma_zero_sq s k k3 hk] at h
    injection h with h1 h2
    have hm : mant k = 0 := (mant_eq_zero_iff k).2 hk
    refine ⟨h1.symm, ?_⟩
    rw [← h1, ← h2, toRat_fin s k, hm]
    simp only [signed, Nat.cast_zero, neg_zero, ite_self, Int.cast_zero, zero_mul, ne_eq,
      OfNat.ofNat_ne_zero, not_false_eq_true, zero_pow, zero_add, sub_self, abs_zero]
    rw [toRat_fin_false]
    have := two_zpow_pos (expo k3)
    positivity
  · obtain ⟨h1, h2⟩ := sq_no_underflow k hk
    have hq1 : min (expo k + expo k) (expo k3) ≤ expo k + expo k := min_le_left _ _
    have hq2 : min (expo k + expo k) (expo k3) ≤ expo k3 := min_le_right _ _
    have e1 : toRat (fin s k) ^ 2 = (((mant k * mant k
        * 2 ^ (expo k + expo k - min (expo k + expo k) (expo k3)).toNat : Nat) : Int) : ℚ)
        * 2 ^ min (expo k + expo k) (expo k3) := by
      rw [toRat_sq]
      push_cast
      rw [two_zpow_toNat _ (by omega), mul_assoc, mul_assoc, ← two_zpow_add]
      rw [← mul_assoc]
      congr 2
      ring
    have e2 := toRat_align false k3 _ hq2
    rw [signed_false] at e2
    rw [e1, e2, ← add_mul, ← Int.cast_add]
    simp only [ffma, Bool.xor_self, signed_false] at h
    have hL : (47 : Int) + (expo k + expo k - min (expo k + expo k) (expo k3))
        ≤ (bitLength (mant k * mant k
          * 2 ^ (expo k + expo k - min (expo k + expo k) (expo k3)).toNat
          + mant k3 * 2 ^ (expo k3 - min (expo k + expo k) (expo k3)).toNat) : Nat) := by
      have hm0 : mant k * mant k ≠ 0 := by
        intro h0
        rw [h0, bitLength_zero] at h2
        omega
      have b1 := bitLength_mul_two_pow (mant k * mant k)
        (expo k + expo k - min (expo k + expo k) (expo k3)).toNat hm0
      have b2 := bitLength_mono _ _ (Nat.le_add_right (mant k * mant k
          * 2 ^ (expo k + expo k - min (expo k + expo k) (expo k3)).toNat)
        (mant k3 * 2 ^ (expo k3 - min (expo k + expo k) (expo k3)).toNat))
      omega
    generalize min (expo k.val + expo k.val) (expo k3.val) = q at *
    generalize mant k * mant k * 2 ^ (expo k + expo k - q).toNat = P at *
    generalize mant k3 * 2 ^ (expo k3 - q).toNat = C at *
    have hv0 : (0 : Int) ≤ (P : Int) + (C : Int) := by positivity
    have hvq : (0 : ℚ) ≤ (((P : Int) + (C : Int) : Int) : ℚ) * 2 ^ q := by
      have := two_zpow_pos q
      have : (0 : ℚ) ≤ (((P : Int) + (C : Int) : Int) : ℚ) := by exact_mod_cast hv0
      positivity
    split_ifs at h with hv
    · injection h with h3 h4
      refine ⟨h3.symm, ?_⟩
      rw [hv, ← h3, ← h4]
      simp [toRat, mant]
    · have hr := round_int_rel ((P : Int) + (C : Int)) q t l h (Or.inr (by
        have : (((P : Int) + (C : Int)).natAbs : Int) = (P + C : Nat) := by
          rw [← Int.natCast_add, Int.natAbs_ofNat]
        have h5 : ((P : Int) + (C : Int)).natAbs = P + C := by exact_mod_cast this
        rw [h5]
        omega))
      rw [abs_of_nonneg hvq] at hr
      refine ⟨?_, hr⟩
      have := round_fin_sign _ _ _ _ _ h
      rw [this]
      exact decide_eq_false (by omega)

/-! ## The relative error of the square root -/

theorem sticky_bracket (N : Nat) :
    ((2 * isqrt N + (if isqrt N * isqrt N = N then 0 else 1) : Nat) : ℚ) - 1 ≤ 2 * (isqrt N : ℚ)
      ∧ 4 * (isqrt N : ℚ) ^ 2 ≤ 4 * N
      ∧ (4 : ℚ) * N ≤ (2 * (isqrt N : ℚ) + 1 + (if isqrt N * isqrt N = N then 0 else 1)) ^ 2
      ∧ (isqrt N * isqrt N = N → 4 * (N : ℚ) = (2 * (isqrt N : ℚ)) ^ 2) := by
  obtain ⟨s1, s2⟩ := isqrt_spec N
  have q1 : ((isqrt N : ℚ)) * (isqrt N) ≤ N := by exact_mod_cast s1
  have q2 : (N : ℚ) + 1 ≤ ((isqrt N : ℚ) + 1) * ((isqrt N : ℚ) + 1) := by
    have : N + 1 ≤ (isqrt N + 1) * (isqrt N + 1) := s2
    exact_mod_cast this
  have h0 : (0 : ℚ) ≤ isqrt N := Nat.cast_nonneg _
  refine ⟨?_, by nlinarith, ?_, ?_⟩
  · split_ifs
    · push_cast; linarith
    · push_cast; linarith
  · split_ifs with h
    · have : ((isqrt N : ℚ)) * (isqrt N) = N := by exact_mod_cast h
      nlinarith
    · nlinarith
  · intro h
    have : ((isqrt N : ℚ)) * (isqrt N) = N := by exact_mod_cast h
    nlinarith

/-- The dyadic number `T * 2 ^ e'` that stands for the square root of
`m * 2 ^ e`, `0 < m`, brackets it:
`(T - 1) ^ 2 * 4 ^ e' ≤ m * 2 ^ e ≤ (T + 1) ^ 2 * 4 ^ e'`. -/
theorem sqrtDyadic_bracket (m : Nat) (e : Int) (hm : m ≠ 0) :
    (((sqrtDyadic m e).1 : ℚ) - 1) ^ 2 * 2 ^ ((sqrtDyadic m e).2 + (sqrtDyadic m e).2)
        ≤ (m : ℚ) * 2 ^ e ∧
      (m : ℚ) * 2 ^ e
        ≤ (((sqrtDyadic m e).1 : ℚ) + 1) ^ 2 * 2 ^ ((sqrtDyadic m e).2 + (sqrtDyadic m e).2) := by
  have hpar : e.natAbs % 2 = 0 ∨ e.natAbs % 2 = 1 := by omega
  have key : ∀ (c : Nat) (e' : Int), e' + e' + 2 + c = e →
      let N := m * 2 ^ c
      let T := 2 * isqrt N + (if isqrt N * isqrt N = N then 0 else 1)
      ((T : ℚ) - 1) ^ 2 * 2 ^ (e' + e') ≤ (m : ℚ) * 2 ^ e ∧
        (m : ℚ) * 2 ^ e ≤ ((T : ℚ) + 1) ^ 2 * 2 ^ (e' + e') := by
    intro c e' hc
    simp only []
    have hX : (m : ℚ) * 2 ^ e = 4 * ((m * 2 ^ c : Nat) : ℚ) * 2 ^ (e' + e') := by
      rw [← hc]
      have : e' + e' + 2 + (c : Int) = (c : Int) + (2 + (e' + e')) := by ring
      rw [this, two_zpow_add, two_zpow_add, zpow_natCast]
      push_cast
      have : (2 : ℚ) ^ (2 : Int) = 4 := by norm_num
      rw [this]
      ring
    have hN1 : 1 ≤ isqrt (m * 2 ^ c) := by
      have h1 : 2 ^ (2 * 0) ≤ m * 2 ^ c := by
        have : 0 < m * 2 ^ c := Nat.mul_pos (Nat.pos_of_ne_zero hm) (by positivity)
        show 1 ≤ m * 2 ^ c
        omega
      simpa using two_pow_le_isqrt (m * 2 ^ c) 0 h1
    rw [hX]
    generalize m * 2 ^ c = N at hN1 ⊢
    obtain ⟨b1, b2, b3, b4⟩ := sticky_bracket N
    have hpos := two_zpow_pos (e' + e')
    have h0 : (1 : ℚ) ≤ isqrt N := by exact_mod_cast hN1
    constructor
    · apply mul_le_mul_of_nonneg_right _ hpos.le
      by_cases hs : isqrt N * isqrt N = N
      · rw [b4 hs]
        simp only [hs, if_true, Nat.add_zero]
        push_cast
        nlinarith
      · simp only [hs, if_false] at b1 ⊢
        push_cast at b1 ⊢
        nlinarith
    · apply mul_le_mul_of_nonneg_right _ hpos.le
      refine le_trans b3 ?_
      apply le_of_eq
      split_ifs <;> push_cast <;> ring
  rcases hpar with hp | hp
  · rw [sqrtDyadic_even m e hp]
    simp only []
    exact key 110 ((e - 110) / 2 - 1) (by omega)
  · rw [sqrtDyadic_odd m e hp]
    simp only []
    exact key 111 ((e - 111) / 2 - 1) (by omega)

theorem toRat_fin_false_nonneg (k : Fin 2139095040) : 0 ≤ toRat (fin false k) := by
  rw [toRat_fin_false]
  have := two_zpow_pos (expo k)
  positivity

theorem rel_bounds (x y c : ℚ) (h : |y - x| ≤ x / c) :
    (1 - 1 / c) * x ≤ y ∧ y ≤ (1 + 1 / c) * x := by
  rw [abs_le] at h
  have e : x / c = 1 / c * x := by ring
  rw [e] at h
  constructor <;> linarith [h.1, h.2]

/-- The value returned by `fsqrt` for a finite datum that is `>= 0`: its square is
within `(1 ± 2 ^ -24) ^ 3` of the datum. -/
theorem fsqrt_rel (k l : Fin 2139095040) (t : Bool) (h : fsqrt (fin false k) = fin t l) :
    t = false ∧ (1 - 1 / 2 ^ 24) ^ 3 * toRat (fin false k) ≤ toRat (fin t l) ^ 2 ∧
      toRat (fin t l) ^ 2 ≤ (1 + 1 / 2 ^ 24) ^ 3 * toRat (fin false k) := by
  by_cases hk : k.val = 0
  · have h0 : fsqrt (fin false k) = fin false k := by
      rw [fsqrt]; simp [hk]
    rw [h0] at h
    injection h with h1 h2
    have hm : mant k = 0 := (mant_eq_zero_iff k).2 hk
    refine ⟨h1.symm, ?_⟩
    rw [← h1, ← h2, toRat_fin_false, hm]
    simp
  · rw [fsqrt_fin_pos k hk] at h
    unfold sqrtRound at h
    have hm : mant k ≠ 0 := fun h0 => hk ((mant_eq_zero_iff k).1 h0)
    obtain ⟨hT, he'⟩ := sqrtDyadic_bounds (mant k) (expo k) hm (expo_ge k)
    obtain ⟨hlo, hhi⟩ := sqrtDyadic_bracket (mant k) (expo k) hm
    rw [← toRat_fin_false] at hlo hhi
    have ht := round_fin_sign _ _ _ _ _ h
    subst ht
    have hX0 := toRat_fin_false_nonneg k
    have hR0 := toRat_fin_false_nonneg l
    generalize toRat (fin false k) = X at hlo hhi hX0 ⊢
    generalize (sqrtDyadic (mant k) (expo k)).1 = T at h hT hlo hhi
    generalize (sqrtDyadic (mant k) (expo k)).2 = e' at h he' hlo hhi
    have hL : 57 ≤ bitLength T := by
      rw [Nat.succ_le_iff, lt_bitLength_iff]; exact hT
    have hqy : -149 ≤ (roundDyadic 53 (-1074) T e').2 := by
      rw [roundDyadic_snd]
      have := le_max_left (e' + (bitLength T : Int) - ((53 : Nat) : Int)) (-1074)
      push_cast at this ⊢
      omega
    have hy := roundDyadic_rel 53 (-1074) T e' (by norm_num) (Or.inl (by omega))
    have hR := round_rel _ _ l h (Or.inl hqy)
    generalize toRat (fin false l) = R at hR hR0 ⊢
    have hP := two_zpow_pos e'
    have hy0 : (0 : ℚ) ≤ ((roundDyadic 53 (-1074) T e').1 : ℚ)
        * 2 ^ (roundDyadic 53 (-1074) T e').2 := by
      have := two_zpow_pos (roundDyadic 53 (-1074) T e').2
      positivity
    generalize ((roundDyadic 53 (-1074) T e').1 : ℚ) * 2 ^ (roundDyadic 53 (-1074) T e').2 = y
      at hy hR hy0
    rw [two_zpow_add] at hlo hhi
    generalize (2 : ℚ) ^ e' = P at hy hlo hhi hP
    have hTq : (2 : ℚ) ^ 56 ≤ T := by exact_mod_cast hT
    generalize (T : ℚ) = Tq at hy hlo hhi hTq
    obtain ⟨y1, y2⟩ := rel_bounds _ _ _ hy
    obtain ⟨r1, r2⟩ := rel_bounds _ _ _ hR
    have hg1 : Tq * P ≤ (1 + 1 / 2 ^ 55) * ((Tq - 1) * P) := by
      have : Tq ≤ (1 + 1 / 2 ^ 55) * (Tq - 1) := by norm_num at hTq ⊢; linarith
      calc Tq * P ≤ (1 + 1 / 2 ^ 55) * (Tq - 1) * P := mul_le_mul_of_nonneg_right this hP.le
        _ = (1 + 1 / 2 ^ 55) * ((Tq - 1) * P) := by ring
    have hg2 : (1 - 1 / 2 ^ 55) * ((Tq + 1) * P) ≤ Tq * P := by
      have : (1 - 1 / 2 ^ 55) * (Tq + 1) ≤ Tq := by norm_num at hTq ⊢; linarith
      calc (1 - 1 / 2 ^ 55) * ((Tq + 1) * P) = (1 - 1 / 2 ^ 55) * (Tq + 1) * P := by ring
        _ ≤ Tq * P := mul_le_mul_of_nonneg_right this hP.le
    have hlo0 : 0 ≤ (Tq - 1) * P := by
      have : (0 : ℚ) ≤ Tq - 1 := by norm_num at hTq ⊢; linarith
      positivity
    have hhi0 : 0 ≤ (Tq + 1) * P := by
      have : (0 : ℚ) ≤ Tq + 1 := by norm_num at hTq ⊢; linarith
      positivity
    have elo : ((Tq - 1) * P) ^ 2 = (Tq - 1) ^ 2 * (P * P) := by ring
    have ehi : ((Tq + 1) * P) ^ 2 = (Tq + 1) ^ 2 * (P * P) := by ring
    rw [← elo] at hlo
    rw [← ehi] at hhi
    generalize (Tq - 1) * P = lo at hlo hg1 hlo0
    generalize (Tq + 1) * P = hi at hhi hg2 hhi0
    generalize Tq * P = g at y1 y2 hg1 hg2
    refine ⟨rfl, ?_, ?_⟩
    · have c1 : (1 - 1 / 2 ^ 24) * ((1 - 1 / 2 ^ 53) * ((1 - 1 / 2 ^ 55) * hi)) ≤ R := by
        have a1 : (1 - 1 / 2 ^ 53) * ((1 - 1 / 2 ^ 55) * hi) ≤ y :=
          le_trans (mul_le_mul_of_nonneg_left hg2 (by norm_num)) y1
        exact le_trans (mul_le_mul_of_nonneg_left a1 (by norm_num)) r1
      have c0 : (0 : ℚ) ≤ (1 - 1 / 2 ^ 24) * ((1 - 1 / 2 ^ 53) * ((1 - 1 / 2 ^ 55) * hi)) := by
        have : (0 : ℚ) ≤ 1 - 1 / 2 ^ 24 := by norm_num
        have : (0 : ℚ) ≤ 1 - 1 / 2 ^ 53 := by norm_num
        have : (0 : ℚ) ≤ 1 - 1 / 2 ^ 55 := by norm_num
        positivity
      have c2 := pow_le_pow_left₀ c0 c1 2
      have e : ((1 - 1 / 2 ^ 24) * ((1 - 1 / 2 ^ 53) * ((1 - 1 / 2 ^ 55) * hi))) ^ 2
          = ((1 - 1 / 2 ^ 24) * ((1 - 1 / 2 ^ 53) * (1 - 1 / 2 ^ 55))) ^ 2 * hi ^ 2 := by ring
      rw [e] at c2
      have num : ((1 : ℚ) - 1 / 2 ^ 24) ^ 3
          ≤ ((1 - 1 / 2 ^ 24) * ((1 - 1 / 2 ^ 53) * (1 - 1 / 2 ^ 55))) ^ 2 := by norm_num
      calc (1 - 1 / 2 ^ 24) ^ 3 * X ≤ (1 - 1 / 2 ^ 24) ^ 3 * hi ^ 2 :=
            mul_le_mul_of_nonneg_left hhi (by norm_num)
        _ ≤ ((1 - 1 / 2 ^ 24) * ((1 - 1 / 2 ^ 53) * (1 - 1 / 2 ^ 55))) ^ 2 * hi ^ 2 :=
            mul_le_mul_of_nonneg_right num (by positivity)
        _ ≤ R ^ 2 := c2
    · have c1 : R ≤ (1 + 1 / 2 ^ 24) * ((1 + 1 / 2 ^ 53) * ((1 + 1 / 2 ^ 55) * lo)) := by
        have a1 : y ≤ (1 + 1 / 2 ^ 53) * ((1 + 1 / 2 ^ 55) * lo) :=
          le_trans y2 (mul_le_mul_of_nonneg_left hg1 (by norm_num))
        exact le_trans r2 (mul_le_mul_of_nonneg_left a1 (by norm_num))
      have c2 := pow_le_pow_left₀ hR0 c1 2
      have e : ((1 + 1 / 2 ^ 24) * ((1 + 1 / 2 ^ 53) * ((1 + 1 / 2 ^ 55) * lo))) ^ 2
          = ((1 + 1 / 2 ^ 24) * ((1 + 1 / 2 ^ 53) * (1 + 1 / 2 ^ 55))) ^ 2 * lo ^ 2 := by ring
      rw [e] at c2
      have num : ((1 + 1 / 2 ^ 24) * ((1 + 1 / 2 ^ 53) * (1 + 1 / 2 ^ 55))) ^ 2
          ≤ ((1 : ℚ) + 1 / 2 ^ 24) ^ 3 := by norm_num
      calc R ^ 2 ≤ ((1 + 1 / 2 ^ 24) * ((1 + 1 / 2 ^ 53) * (1 + 1 / 2 ^ 55))) ^ 2 * lo ^ 2 := c2
        _ ≤ ((1 + 1 / 2 ^ 24) * ((1 + 1 / 2 ^ 53) * (1 + 1 / 2 ^ 55))) ^ 2 * X :=
            mul_le_mul_of_nonneg_left hlo (by positivity)
        _ ≤ (1 + 1 / 2 ^ 24) ^ 3 * X := mul_le_mul_of_nonneg_right num hX0

/-! ## The error of the accumulated sum -/

theorem fin_of_isFinite (x : F32) (h : isFinite x = true) : ∃ s k, x = fin s k := by
  cases x with
  | nan => simp [isFinite] at h
  | inf s => simp [isFinite] at h
  | fin s k => exact ⟨s, k, rfl⟩

theorem isFinite_of_fadd (x y : F32) (h : isFinite (fadd x y) = true) :
    isFinite x = true ∧ isFinite y = true := by
  cases x with
  | nan => simp [fadd, isFinite] at h
  | inf s =>
    cases y with
    | nan => simp [fadd, isFinite] at h
    | inf t =>
      simp only [fadd] at h
      split_ifs at h <;> simp [isFinite] at h
    | fin t l => simp [fadd, isFinite] at h
  | fin s k =>
    cases y with
    | nan => simp [fadd, isFinite] at h
    | inf t => simp [fadd, isFinite] at h
    | fin t l => exact ⟨rfl, rfl⟩

theorem isFinite_of_fmul_self (d : F32) (h : isFinite (fmul d d) = true) :
    isFinite d = true := by
  cases d with
  | nan => simp [fmul, isFinite] at h
  | inf s => simp [fmul, isFinite] at h
  | fin s k => rfl

theorem isFinite_of_ffma_sq (d acc : F32) (h : isFinite (ffma d d acc) = true) :
    isFinite d = true ∧ isFinite acc = true := by
  cases d with
  | nan => cases acc <;> simp [ffma, fmul, fadd, isFinite] at h
  | inf s =>
    cases acc with
    | nan => simp [ffma, fmul, fadd, isFinite] at h
    | inf t => cases s <;> cases t <;> simp [ffma, fmul, fadd, isFinite] at h
    | fin t l => simp [ffma, fmul, fadd, isFinite] at h
  | fin s k =>
    cases acc with
    | nan => simp [ffma, isFinite] at h
    | inf t => simp [ffma, isFinite] at h
    | fin t l => exact ⟨rfl, rfl⟩

theorem isFinite_of_fsqrt (x : F32) (h : isFinite (fsqrt x) = true) : isFinite x = true := by
  cases x with
  | nan => simp [fsqrt, isFinite] at h
  | inf s => cases s <;> simp [fsqrt, isFinite] at h
  | fin s k => rfl

theorem pow2_neg63 : pow2 (-63) = fin false ⟨536870912, by norm_num⟩ := by decide

/-- A difference is zero or at least `2 ^ -63` in magnitude, in terms of its
magnitude field. -/
theorem big_fin (s : Bool) (k : Fin 2139095040)
    (h : isZero (fin s k) = true ∨ fle (pow2 (-63)) (fabs (fin s k)) = true) :
    k.val = 0 ∨ 536870912 ≤ k.val := by
  rcases h with h | h
  · exact Or.inl ((isZero_fin s k).1 h)
  · right
    rw [pow2_neg63, fabs, fle_fin_false] at h
    exact h

theorem exactSqSum_zero (a p : List F32) : exactSqSum a p 0 = 0 := by
  simp [exactSqSum]

theorem exactSqSum_succ (a p : List F32) (n : Nat) :
    exactSqSum a p (n + 1)
      = exactSqSum a p n + (toRat (a.getD n nan) - toRat (p.getD n nan)) ^ 2 := by
  simp [exactSqSum, List.range_succ]

theorem exactSqSum_nonneg (a p : List F32) (n : Nat) : 0 ≤ exactSqSum a p n := by
  induction n with
  | zero => rw [exactSqSum_zero]
  | succ m ih => rw [exactSqSum_succ]; positivity

/-- The square of a rounded difference is within `(1 ± u) ^ 2` of the exact
square. -/
theorem sq_rel (D E u : ℚ) (hu1 : u ≤ 1) (h : |D - E| ≤ |E| * u) :
    (1 - u) ^ 2 * E ^ 2 ≤ D ^ 2 ∧ D ^ 2 ≤ (1 + u) ^ 2 * E ^ 2 := by
  have hE : 0 ≤ |E| := abs_nonneg E
  have h1 : |D| ≤ (1 + u) * |E| := by
    have := abs_sub_abs_le_abs_sub D E
    linarith
  have h2 : (1 - u) * |E| ≤ |D| := by
    have := abs_sub_abs_le_abs_sub E D
    rw [abs_sub_comm] at this
    linarith
  have e1 : D ^ 2 = |D| ^ 2 := (sq_abs D).symm
  have e2 : E ^ 2 = |E| ^ 2 := (sq_abs E).symm
  rw [e1, e2]
  constructor
  · have := pow_le_pow_left₀ (mul_nonneg (by linarith) hE) h2 2
    calc (1 - u) ^ 2 * |E| ^ 2 = ((1 - u) * |E|) ^ 2 := by ring
      _ ≤ |D| ^ 2 := this
  · have := pow_le_pow_left₀ (abs_nonneg D) h1 2
    calc |D| ^ 2 ≤ ((1 + u) * |E|) ^ 2 := this
      _ = (1 + u) ^ 2 * |E| ^ 2 := by ring

/-- One step of the accumulation: if the old sum is within `(1 ± u) ^ c` of the
exact one, the term within `(1 ± u) ^ 3` of the exact term and the new sum
within `1 ± u` of the sum of the two, the new sum is within `(1 ± u) ^ (c + 1)`
of the exact one. -/
theorem chain_step (u S ACC SQ E2 ACC' : ℚ) (c : Nat) (hc : 3 ≤ c)
    (hu0 : 0 ≤ u) (hu1 : u ≤ 1) (hE : 0 ≤ E2)
    (a1 : (1 - u) ^ c * S ≤ ACC) (a2 : ACC ≤ (1 + u) ^ c * S)
    (s1 : (1 - u) ^ 3 * E2 ≤ SQ) (s2 : SQ ≤ (1 + u) ^ 3 * E2)
    (n1 : (1 - u) * (ACC + SQ) ≤ ACC') (n2 : ACC' ≤ (1 + u) * (ACC + SQ)) :
    (1 - u) ^ (c + 1) * (S + E2) ≤ ACC' ∧ ACC' ≤ (1 + u) ^ (c + 1) * (S + E2) := by
  have p1 : (1 + u) ^ 3 ≤ (1 + u) ^ c := pow_le_pow_right₀ (by linarith) hc
  have p2 : (1 - u) ^ c ≤ (1 - u) ^ 3 := pow_le_pow_of_le_one (by linarith) (by linarith) hc
  have hm : (0 : ℚ) ≤ 1 - u := by linarith
  have hp : (0 : ℚ) ≤ 1 + u := by linarith
  constructor
  · have b1 : (1 - u) ^ c * E2 ≤ SQ := le_trans (mul_le_mul_of_nonneg_right p2 hE) s1
    have b2 : (1 - u) ^ c * (S + E2) ≤ ACC + SQ := by
      rw [mul_add]; linarith
    calc (1 - u) ^ (c + 1) * (S + E2) = (1 - u) * ((1 - u) ^ c * (S + E2)) := by ring
      _ ≤ (1 - u) * (ACC + SQ) := mul_le_mul_of_nonneg_left b2 hm
      _ ≤ ACC' := n1
  · have b1 : SQ ≤ (1 + u) ^ c * E2 := le_trans s2 (mul_le_mul_of_nonneg_right p1 hE)
    have b2 : ACC + SQ ≤ (1 + u) ^ c * (S + E2) := by
      rw [mul_add]; linarith
    calc ACC' ≤ (1 + u) * (ACC + SQ) := n2
      _ ≤ (1 + u) * ((1 + u) ^ c * (S + E2)) := mul_le_mul_of_nonneg_left b2 hp
      _ = (1 + u) ^ (c + 1) * (S + E2) := by ring

/-- The rounded difference of two finite data, squared, against the exact
square: within `(1 ± 2 ^ -24) ^ 2`, when it is finite. -/
theorem fsub_sq_rel (a b : F32) (s : Bool) (k : Fin 2139095040)
    (ha : isFinite a = true) (hb : isFinite b = true) (h : fsub a b = fin s k) :
    (1 - 1 / 2 ^ 24) ^ 2 * (toRat a - toRat b) ^ 2 ≤ toRat (fin s k) ^ 2 ∧
      toRat (fin s k) ^ 2 ≤ (1 + 1 / 2 ^ 24) ^ 2 * (toRat a - toRat b) ^ 2 := by
  obtain ⟨sa, ka, rfl⟩ := fin_of_isFinite a ha
  obtain ⟨sb, kb, rfl⟩ := fin_of_isFinite b hb
  have h1 := fsub_rel sa sb s ka kb k h
  rw [div_eq_mul_one_div] at h1
  exact sq_rel _ _ _ (by norm_num) h1

/-- The accumulator is within `(1 ± 2 ^ -24) ^ (n + 3)` of the exact sum of the
squared differences, when the elements are finite, no difference other than
zero is below `2 ^ -63` in magnitude, and nothing overflows. -/
theorem accumulate_rel (a p : List F32) : ∀ n : Nat,
    (∀ i, i < n → isFinite (a.getD i nan) = true ∧ isFinite (p.getD i nan) = true) →
    (∀ i, i < n → isZero (fsub (a.getD i nan) (p.getD i nan)) = true ∨
      fle (pow2 (-63)) (fabs (fsub (a.getD i nan) (p.getD i nan))) = true) →
    isFinite (accumulate a p n) = true →
    ∃ k, accumulate a p n = fin false k ∧
      (1 - 1 / 2 ^ 24) ^ (n + 3) * exactSqSum a p n ≤ toRat (fin false k) ∧
      toRat (fin false k) ≤ (1 + 1 / 2 ^ 24) ^ (n + 3) * exactSqSum a p n := by
  intro n
  induction n with
  | zero =>
    intro _ _ _
    refine ⟨0, accumulate_zero a p, ?_, ?_⟩ <;>
      simp [exactSqSum_zero, toRat, mant]
  | succ m ih =>
    intro hfin hbig hres
    rw [accumulate_succ] at hres
    obtain ⟨hacc, hsq⟩ := isFinite_of_fadd _ _ hres
    obtain ⟨k0, e0, l0, u0⟩ := ih (fun i hi => hfin i (by omega)) (fun i hi => hbig i (by omega))
      hacc
    have hd := isFinite_of_fmul_self _ hsq
    obtain ⟨s, kd, ed⟩ := fin_of_isFinite _ hd
    obtain ⟨t, l, el⟩ := fin_of_isFinite _ hsq
    obtain ⟨t', k', ek⟩ := fin_of_isFinite _ hres
    have hnn := accumulate_nonneg_of_finite a p (m + 1) (fun i hi => (hfin i hi).1)
      (fun i hi => (hfin i hi).2)
    rw [accumulate_succ, ek] at hnn
    have ht' : t' = false := by simpa [nonneg] using hnn
    subst ht'
    have hb := big_fin s kd (by rw [← ed]; exact hbig m (by omega))
    obtain ⟨d1, d2⟩ := fsub_sq_rel _ _ s kd (hfin m (by omega)).1 (hfin m (by omega)).2 ed
    rw [sqDiff, ed] at el
    obtain ⟨q1, q2⟩ := rel_bounds _ _ _ (fmul_self_rel s t kd l hb el)
    have hD0 : 0 ≤ toRat (fin s kd) ^ 2 := sq_nonneg _
    have hSQ0 : 0 ≤ toRat (fin t l) := le_trans (mul_nonneg (by norm_num) hD0) q1
    have hA0 := toRat_fin_false_nonneg k0
    rw [sqDiff, ed, el, e0] at ek
    have hr := fadd_rel false t false k0 l k' ek
    rw [abs_of_nonneg (add_nonneg hA0 hSQ0)] at hr
    obtain ⟨n1, n2⟩ := rel_bounds _ _ _ hr
    refine ⟨k', by rw [accumulate_succ, e0, sqDiff, ed, el, ek], ?_⟩
    rw [exactSqSum_succ]
    have hE0 : 0 ≤ (toRat (a.getD m nan) - toRat (p.getD m nan)) ^ 2 := sq_nonneg _
    generalize (toRat (a.getD m nan) - toRat (p.getD m nan)) ^ 2 = E2 at d1 d2 hE0 ⊢
    generalize toRat (fin s kd) ^ 2 = D2 at d1 d2 q1 q2 hD0
    have s1 : (1 - 1 / 2 ^ 24) ^ 3 * E2 ≤ toRat (fin t l) := by
      calc (1 - 1 / 2 ^ 24 : ℚ) ^ 3 * E2 = (1 - 1 / 2 ^ 24) * ((1 - 1 / 2 ^ 24) ^ 2 * E2) := by ring
        _ ≤ (1 - 1 / 2 ^ 24) * D2 := mul_le_mul_of_nonneg_left d1 (by norm_num)
        _ ≤ toRat (fin t l) := q1
    have s2 : toRat (fin t l) ≤ (1 + 1 / 2 ^ 24) ^ 3 * E2 := by
      calc toRat (fin t l) ≤ (1 + 1 / 2 ^ 24) * D2 := q2
        _ ≤ (1 + 1 / 2 ^ 24) * ((1 + 1 / 2 ^ 24) ^ 2 * E2) :=
            mul_le_mul_of_nonneg_left d2 (by norm_num)
        _ = (1 + 1 / 2 ^ 24 : ℚ) ^ 3 * E2 := by ring
    exact chain_step (1 / 2 ^ 24) _ _ _ _ _ (m + 3) (by omega) (by norm_num) (by norm_num)
      hE0 l0 u0 s1 s2 n1 n2

/-- The accumulator of the contracted build is within `(1 ± 2 ^ -24) ^ (n + 3)`
of the exact sum of the squared differences, under the same conditions. -/
theorem accumulate_fused_rel (a p : List F32) : ∀ n : Nat,
    (∀ i, i < n → isFinite (a.getD i nan) = true ∧ isFinite (p.getD i nan) = true) →
    (∀ i, i < n → isZero (fsub (a.getD i nan) (p.getD i nan)) = true ∨
      fle (pow2 (-63)) (fabs (fsub (a.getD i nan) (p.getD i nan))) = true) →
    isFinite (accumulate_fused a p n) = true →
    ∃ k, accumulate_fused a p n = fin false k ∧
      (1 - 1 / 2 ^ 24) ^ (n + 3) * exactSqSum a p n ≤ toRat (fin false k) ∧
      toRat (fin false k) ≤ (1 + 1 / 2 ^ 24) ^ (n + 3) * exactSqSum a p n := by
  intro n
  induction n with
  | zero =>
    intro _ _ _
    refine ⟨0, accumulate_fused_zero a p, ?_, ?_⟩ <;>
      simp [exactSqSum_zero, toRat, mant]
  | succ m ih =>
    intro hfin hbig hres
    rw [accumulate_fused_succ] at hres
    obtain ⟨hd, hacc⟩ := isFinite_of_ffma_sq _ _ hres
    obtain ⟨k0, e0, l0, u0⟩ := ih (fun i hi => hfin i (by omega)) (fun i hi => hbig i (by omega))
      hacc
    obtain ⟨s, kd, ed⟩ := fin_of_isFinite _ hd
    obtain ⟨t', k', ek⟩ := fin_of_isFinite _ hres
    have hb := big_fin s kd (by rw [← ed]; exact hbig m (by omega))
    obtain ⟨d1, d2⟩ := fsub_sq_rel _ _ s kd (hfin m (by omega)).1 (hfin m (by omega)).2 ed
    rw [ed, e0] at ek
    obtain ⟨ht', hr⟩ := ffma_sq_rel s t' kd k0 k' hb ek
    subst ht'
    have hD0 : 0 ≤ toRat (fin s kd) ^ 2 := sq_nonneg _
    have hA0 := toRat_fin_false_nonneg k0
    obtain ⟨n1, n2⟩ := rel_bounds _ _ _ hr
    refine ⟨k', by rw [accumulate_fused_succ, e0, ed, ek], ?_⟩
    rw [exactSqSum_succ]
    have hE0 : 0 ≤ (toRat (a.getD m nan) - toRat (p.getD m nan)) ^ 2 := sq_nonneg _
    generalize (toRat (a.getD m nan) - toRat (p.getD m nan)) ^ 2 = E2 at d1 d2 hE0 ⊢
    generalize toRat (fin s kd) ^ 2 = D2 at d1 d2 n1 n2 hD0
    have s1 : (1 - 1 / 2 ^ 24) ^ 3 * E2 ≤ D2 := by
      have : (1 - 1 / 2 ^ 24 : ℚ) ^ 3 * E2 ≤ (1 - 1 / 2 ^ 24) ^ 2 * E2 :=
        mul_le_mul_of_nonneg_right (by norm_num) hE0
      exact le_trans this d1
    have s2 : D2 ≤ (1 + 1 / 2 ^ 24) ^ 3 * E2 := by
      have : (1 + 1 / 2 ^ 24 : ℚ) ^ 2 * E2 ≤ (1 + 1 / 2 ^ 24) ^ 3 * E2 :=
        mul_le_mul_of_nonneg_right (by norm_num) hE0
      exact le_trans d2 this
    rw [add_comm D2] at n1 n2
    exact chain_step (1 / 2 ^ 24) _ _ _ _ _ (m + 3) (by omega) (by norm_num) (by norm_num)
      hE0 l0 u0 s1 s2 n1 n2

/-- From the accumulator to the returned value: three more factors. -/
theorem fsqrt_acc_rel (acc : F32) (S : ℚ) (c : Nat) (k : Fin 2139095040)
    (hacc : acc = fin false k)
    (l0 : (1 - 1 / 2 ^ 24) ^ c * S ≤ toRat (fin false k))
    (u0 : toRat (fin false k) ≤ (1 + 1 / 2 ^ 24) ^ c * S)
    (hres : isFinite (fsqrt acc) = true) :
    (1 - 1 / 2 ^ 24) ^ (c + 3) * S ≤ toRat (fsqrt acc) ^ 2 ∧
      toRat (fsqrt acc) ^ 2 ≤ (1 + 1 / 2 ^ 24) ^ (c + 3) * S := by
  obtain ⟨t, l, el⟩ := fin_of_isFinite _ hres
  rw [el]
  rw [hacc] at el
  obtain ⟨_, r1, r2⟩ := fsqrt_rel k l t el
  constructor
  · calc (1 - 1 / 2 ^ 24 : ℚ) ^ (c + 3) * S
        = (1 - 1 / 2 ^ 24) ^ 3 * ((1 - 1 / 2 ^ 24) ^ c * S) := by ring
      _ ≤ (1 - 1 / 2 ^ 24) ^ 3 * toRat (fin false k) :=
          mul_le_mul_of_nonneg_left l0 (by norm_num)
      _ ≤ toRat (fin t l) ^ 2 := r1
  · calc toRat (fin t l) ^ 2 ≤ (1 + 1 / 2 ^ 24) ^ 3 * toRat (fin false k) := r2
      _ ≤ (1 + 1 / 2 ^ 24) ^ 3 * ((1 + 1 / 2 ^ 24) ^ c * S) :=
          mul_le_mul_of_nonneg_left u0 (by norm_num)
      _ = (1 + 1 / 2 ^ 24 : ℚ) ^ (c + 3) * S := by ring

/-- The returned value against the Euclidean distance: its square is within
`(1 ± 2 ^ -24) ^ (n + 6)` of the exact sum of the squared differences, in
either build. -/
theorem distance_rel (a p : List F32) (n : Nat)
    (hfin : ∀ i, i < n → isFinite (a.getD i nan) = true ∧ isFinite (p.getD i nan) = true)
    (hbig : ∀ i, i < n → isZero (fsub (a.getD i nan) (p.getD i nan)) = true ∨
      fle (pow2 (-63)) (fabs (fsub (a.getD i nan) (p.getD i nan))) = true) :
    (isFinite (distance a p n) = true →
      (1 - 1 / 2 ^ 24) ^ (n + 6) * exactSqSum a p n ≤ toRat (distance a p n) ^ 2 ∧
        toRat (distance a p n) ^ 2 ≤ (1 + 1 / 2 ^ 24) ^ (n + 6) * exactSqSum a p n) ∧
    (isFinite (distance_fused a p n) = true →
      (1 - 1 / 2 ^ 24) ^ (n + 6) * exactSqSum a p n ≤ toRat (distance_fused a p n) ^ 2 ∧
        toRat (distance_fused a p n) ^ 2 ≤ (1 + 1 / 2 ^ 24) ^ (n + 6) * exactSqSum a p n) := by
  constructor
  · intro hres
    obtain ⟨k, e0, l0, u0⟩ := accumulate_rel a p n hfin hbig (isFinite_of_fsqrt _ hres)
    exact fsqrt_acc_rel _ _ (n + 3) k e0 l0 u0 hres
  · intro hres
    obtain ⟨k, e0, l0, u0⟩ := accumulate_fused_rel a p n hfin hbig (isFinite_of_fsqrt _ hres)
    exact fsqrt_acc_rel _ _ (n + 3) k e0 l0 u0 hres

/-! ## Integer data in the contracted build -/

/-- The fused multiply-add `d * d + acc` on integer data: the exact value
`z * z + w` is rounded once. -/
theorem ffma_sq_fin_int (s : Bool) (k k3 : Fin 2139095040) (z w : Int)
    (hd : isInt (fin s k) z = true) (hacc : isInt (fin false k3) w = true) :
    ffma (fin s k) (fin s k) (fin false k3)
      = if z * z + w = 0 then zero else ofInt (z * z + w) := by
  obtain ⟨j, he, hv⟩ := (isInt_fin_iff s k z).1 hd
  obtain ⟨j3, he3, hv3⟩ := (isInt_fin_iff false k3 w).1 hacc
  have hm : mant k = z.natAbs * 2 ^ j := by
    have := congrArg Int.natAbs hv
    rw [natAbs_signed, Int.natAbs_mul, Int.natAbs_pow] at this
    simpa using this
  have hmm : ((mant k * mant k : Nat) : Int) = z * z * 2 ^ (j + j) := by
    rw [hm]
    push_cast
    have : |z| * |z| = z * z := abs_mul_abs_self z
    rw [pow_add]
    calc |z| * 2 ^ j * (|z| * 2 ^ j) = (|z| * |z|) * (2 ^ j * 2 ^ j) := by ring
      _ = z * z * (2 ^ j * 2 ^ j) := by rw [this]
  rw [signed_false] at hv3
  have hq : min (expo k + expo k) (expo k3) = 0 - ((max (j + j) j3 : Nat) : Int) := by
    rw [he, he3, min_def, max_def]; split_ifs <;> omega
  have hs1 : (expo k + expo k - min (expo k + expo k) (expo k3)).toNat
      = max (j + j) j3 - (j + j) := by
    rw [hq, he]; have := le_max_left (j + j) j3; omega
  have hs2 : (expo k3 - min (expo k + expo k) (expo k3)).toNat = max (j + j) j3 - j3 := by
    rw [hq, he3]; have := le_max_right (j + j) j3; omega
  have hv1' : signed false (mant k * mant k * 2 ^ (max (j + j) j3 - (j + j)))
      = z * z * 2 ^ max (j + j) j3 := by
    have := le_max_left (j + j) j3
    rw [signed_false]; push_cast
    have h2 : ((mant k : Int)) * (mant k : Int) = z * z * 2 ^ (j + j) := by exact_mod_cast hmm
    rw [h2, mul_assoc, ← pow_add]; congr 2; omega
  have hv2' : signed false (mant k3 * 2 ^ (max (j + j) j3 - j3)) = w * 2 ^ max (j + j) j3 := by
    have := le_max_right (j + j) j3
    rw [signed_false]; push_cast
    rw [hv3, mul_assoc, ← pow_add]; congr 2; omega
  have hv : z * z * 2 ^ max (j + j) j3 + w * 2 ^ max (j + j) j3
      = (z * z + w) * 2 ^ max (j + j) j3 := by ring
  simp only [ffma, Bool.xor_self, hs1, hs2, hv1', hv2', hv, Bool.false_and]
  by_cases hzw : z * z + w = 0
  · rw [if_pos hzw, if_pos (by rw [hzw, zero_mul])]; rfl
  · have hne : (z * z + w) * 2 ^ max (j + j) j3 ≠ 0 := mul_ne_zero hzw (by positivity)
    rw [if_neg hzw, if_neg hne, hq]
    exact ofInt_shift (z * z + w) (max (j + j) j3)

theorem fin_of_isInt (x : F32) (z : Int) (h : isInt x z = true) : ∃ s k, x = fin s k := by
  cases x with
  | nan => simp [isInt] at h
  | inf s => simp [isInt] at h
  | fin s k => exact ⟨s, k, rfl⟩

theorem isInt_fsub (a b : F32) (x y : Int) (ha : isInt a x = true) (hb : isInt b y = true)
    (h : (x - y).natAbs < 2 ^ 24) : isInt (fsub a b) (x - y) = true := by
  rw [fsub, sub_eq_add_neg]
  exact isInt_fadd a (fneg b) x (-y) ha (isInt_fneg b y hb) (by rw [← sub_eq_add_neg]; exact h)

/-- On integer data whose squared differences sum to less than `2 ^ 24` the
accumulator of the contracted build is the exact sum, as in the other build. -/
theorem accumulate_fused_int (a p : List F32) (x y : List Int) (n : Nat)
    (ha : ∀ i, i < n → isInt (a.getD i nan) (x.getD i 0) = true)
    (hp : ∀ i, i < n → isInt (p.getD i nan) (y.getD i 0) = true)
    (hS : intSqSum x y n < 2 ^ 24) : accumulate_fused a p n = ofInt (intSqSum x y n) := by
  induction n with
  | zero => rw [accumulate_fused_zero, intSqSum_zero, ofInt_zero]
  | succ m ih =>
    rw [intSqSum_succ] at hS
    have hS0 := intSqSum_nonneg x y m
    have hT0 : 0 ≤ (x.getD m 0 - y.getD m 0) ^ 2 := by positivity
    have hT : (x.getD m 0 - y.getD m 0) ^ 2 < 2 ^ 24 := by omega
    have hd : (x.getD m 0 - y.getD m 0).natAbs < 2 ^ 24 := by
      by_contra hcon
      have h1 : (2 : Int) ^ 24 ≤ ((x.getD m 0 - y.getD m 0).natAbs : Int) := by
        exact_mod_cast not_lt.1 hcon
      have h2 : (((x.getD m 0 - y.getD m 0).natAbs : Int)) ^ 2 = (x.getD m 0 - y.getD m 0) ^ 2 :=
        Int.natAbs_sq _
      nlinarith
    have hdi := isInt_fsub _ _ _ _ (ha m (Nat.lt_succ_self m)) (hp m (Nat.lt_succ_self m)) hd
    obtain ⟨s, k, ek⟩ := fin_of_isInt _ _ hdi
    have hu : (intSqSum x y m).toNat < 2 ^ 24 := by omega
    obtain ⟨k3, e3⟩ := ofInt_nat_fin (intSqSum x y m).toNat hu
    rw [Int.toNat_of_nonneg hS0] at e3
    have hai : isInt (fin false k3) (intSqSum x y m) = true := by
      rw [← e3]; exact isInt_ofInt _ (by omega)
    rw [accumulate_fused_succ, intSqSum_succ,
      ih (fun i hi => ha i (Nat.lt_succ_of_lt hi)) (fun i hi => hp i (Nat.lt_succ_of_lt hi))
        (by omega), e3]
    rw [ek] at hdi ⊢
    rw [ffma_sq_fin_int s k k3 _ _ hdi hai]
    have e : (x.getD m 0 - y.getD m 0) * (x.getD m 0 - y.getD m 0) + intSqSum x y m
        = intSqSum x y m + (x.getD m 0 - y.getD m 0) ^ 2 := by ring
    rw [e]
    split_ifs with h0
    · rw [h0, ofInt_zero]
    · rfl

theorem distance_fused_int (a p : List F32) (x y : List Int) (n : Nat)
    (ha : ∀ i, i < n → isInt (a.getD i nan) (x.getD i 0) = true)
    (hp : ∀ i, i < n → isInt (p.getD i nan) (y.getD i 0) = true)
    (hS : intSqSum x y n < 2 ^ 24) :
    distance_fused a p n = fsqrt (ofInt (intSqSum x y n)) := by
  rw [distance_fused, accumulate_fused_int a p x y n ha hp hS]

/-! ## Scaled and reordered vectors, exactly -/

/-- The rounded product of two data that are `>= 0`, each zero or at least
`2 ^ -63`, is within `2 ^ -24` of the exact product, relatively, when it is
finite. -/
theorem fmul_nonneg_rel (k1 k2 l : Fin 2139095040) (t : Bool)
    (h1 : k1.val = 0 ∨ 536870912 ≤ k1.val) (h2 : k2.val = 0 ∨ 536870912 ≤ k2.val)
    (h : fmul (fin false k1) (fin false k2) = fin t l) :
    t = false ∧
      |toRat (fin t l) - toRat (fin false k1) * toRat (fin false k2)|
        ≤ toRat (fin false k1) * toRat (fin false k2) / 2 ^ 24 := by
  have hx : fmul (fin false k1) (fin false k2)
      = F32.round false (mant k1 * mant k2) (expo k1 + expo k2) := rfl
  rw [hx] at h
  have ht := round_fin_sign _ _ _ _ _ h
  subst ht
  refine ⟨rfl, ?_⟩
  have e : toRat (fin false k1) * toRat (fin false k2)
      = ((mant k1 * mant k2 : Nat) : ℚ) * 2 ^ (expo k1 + expo k2) := by
    rw [toRat_fin_false, toRat_fin_false, two_zpow_add]
    push_cast
    ring
  rw [e]
  by_cases h0 : mant k1 * mant k2 = 0
  · rw [h0] at h ⊢
    rw [round_zero] at h
    injection h with _ h3
    rw [← h3]
    simp [toRat, mant]
  · have n1 : 536870912 ≤ k1.val := by
      rcases h1 with h1 | h1
      · exact absurd (by rw [(mant_eq_zero_iff k1).2 h1, Nat.zero_mul]) h0
      · exact h1
    have n2 : 536870912 ≤ k2.val := by
      rcases h2 with h2 | h2
      · exact absurd (by rw [(mant_eq_zero_iff k2).2 h2, Nat.mul_zero]) h0
      · exact h2
    have b1 : -86 ≤ expo k1 ∧ 2 ^ 23 ≤ mant k1 := by
      unfold expo mant
      norm_num
      split_ifs <;> omega
    have b2 : -86 ≤ expo k2 ∧ 2 ^ 23 ≤ mant k2 := by
      unfold expo mant
      norm_num
      split_ifs <;> omega
    have hL : 47 ≤ bitLength (mant k1 * mant k2) := by
      rw [Nat.succ_le_iff, lt_bitLength_iff]
      calc 2 ^ 46 = 2 ^ 23 * 2 ^ 23 := by norm_num
        _ ≤ mant k1 * mant k2 := Nat.mul_le_mul b1.2 b2.2
    exact round_rel _ _ l h (Or.inr (by omega))

theorem exactSqSum_scale (k : F32) (A B : List F32) (n : Nat)
    (hA : n ≤ A.length) (hB : n ≤ B.length)
    (eA : ∀ i, i < n → toRat (fmul k (A.getD i nan)) = toRat k * toRat (A.getD i nan))
    (eB : ∀ i, i < n → toRat (fmul k (B.getD i nan)) = toRat k * toRat (B.getD i nan)) :
    exactSqSum (scale k A) (scale k B) n = toRat k ^ 2 * exactSqSum A B n := by
  induction n with
  | zero => simp [exactSqSum_zero]
  | succ m ih =>
    rw [exactSqSum_succ, exactSqSum_succ, ih (by omega) (by omega)
      (fun i hi => eA i (by omega)) (fun i hi => eB i (by omega)),
      getD_scale k A m (by omega), getD_scale k B m (by omega), eA m (by omega), eB m (by omega)]
    ring

theorem sum_map_perm_range_rat (s : List Nat) (n : Nat) (hs : s.Perm (List.range n))
    (f : Nat → ℚ) :
    ((List.range n).map fun i => f (s.getD i 0)).sum = ((List.range n).map f).sum := by
  have hl : s.length = n := by rw [hs.length_eq, List.length_range]
  have h1 : ((List.range n).map fun i => f (s.getD i 0)) = s.map f := by
    conv_rhs => rw [← map_getD_range s, hl]
    rw [List.map_map]
    rfl
  rw [h1]
  exact (hs.map f).sum_eq

/-- The exact sum of the squared differences does not depend on the order. -/
theorem exactSqSum_reorder (s : List Nat) (n : Nat) (hs : s.Perm (List.range n))
    (A B : List F32) : exactSqSum (reorder s A) (reorder s B) n = exactSqSum A B n := by
  have hl : s.length = n := by rw [hs.length_eq, List.length_range]
  rw [exactSqSum, exactSqSum, ← sum_map_perm_range_rat s n hs
    (fun i => (toRat (A.getD i nan) - toRat (B.getD i nan)) ^ 2)]
  congr 1
  apply List.map_congr_left
  intro i hi
  have hi' : i < s.length := by rw [hl]; simpa using hi
  rw [getD_reorder s A i hi', getD_reorder s B i hi']

/-- A property of the compared pairs holds for the reordered vectors as well. -/
theorem reorder_forall (P : F32 → F32 → Prop) (s : List Nat) (n : Nat)
    (hs : s.Perm (List.range n)) (A B : List F32)
    (h : ∀ i, i < n → P (A.getD i nan) (B.getD i nan)) :
    ∀ i, i < n → P ((reorder s A).getD i nan) ((reorder s B).getD i nan) := by
  have hl : s.length = n := by rw [hs.length_eq, List.length_range]
  intro i hi
  rw [getD_reorder s A i (by omega), getD_reorder s B i (by omega)]
  exact h _ (getD_lt_of_perm s n hs i hi)

theorem isInt_reorder (s : List Nat) (n : Nat) (hs : s.Perm (List.range n))
    (A : List F32) (x : List Int)
    (hA : ∀ i, i < n → isInt (A.getD i nan) (x.getD i 0) = true) :
    ∀ i, i < n →
      isInt ((reorder s A).getD i nan) ((s.map fun i => x.getD i 0).getD i 0) = true := by
  have hl : s.length = n := by rw [hs.length_eq, List.length_range]
  intro i hi
  have hi' : i < s.length := by omega
  rw [getD_reorder s A i hi']
  have := hA _ (getD_lt_of_perm s n hs i hi)
  simpa [List.getD_eq_getElem _ _ hi', hi'] using this

theorem distance_fused_reorder_int (s : List Nat) (n : Nat) (hs : s.Perm (List.range n))
    (A B : List F32) (x y : List Int)
    (hA : ∀ i, i < n → isInt (A.getD i nan) (x.getD i 0) = true)
    (hB : ∀ i, i < n → isInt (B.getD i nan) (y.getD i 0) = true)
    (hS : intSqSum x y n < 2 ^ 24) :
    distance_fused (reorder s A) (reorder s B) n = distance_fused A B n := by
  rw [distance_fused_int A B x y n hA hB hS,
    distance_fused_int (reorder s A) (reorder s B) (s.map fun i => x.getD i 0)
      (s.map fun i => y.getD i 0) n (isInt_reorder s n hs A x hA) (isInt_reorder s n hs B y hB)
      (by rw [intSqSum_perm s n hs]; exact hS),
    intSqSum_perm s n hs]

theorem feq_self (r : F32) (h : r ≠ nan) : feq r r = true := by
  cases r with
  | nan => exact absurd rfl h
  | inf s => cases s <;> rfl
  | fin s k => simp [feq]

/-! ## The two sides of the scaling law -/

theorem sqSafe_iff (x : F32) :
    sqSafe x = true ↔ isZero x = true ∨ fle (pow2 (-63)) (fabs x) = true := by
  simp [sqSafe]

/-- An exact product, in values. -/
theorem exactMul_spec (k a : F32) (h : exactMul k a = true) :
    isFinite k = true ∧ isFinite a = true ∧ isFinite (fmul k a) = true ∧
      toRat (fmul k a) = toRat k * toRat a := by
  cases k with
  | nan => simp [exactMul] at h
  | inf s => simp [exactMul] at h
  | fin s1 k1 =>
    cases a with
    | nan => simp [exactMul] at h
    | inf s => simp [exactMul] at h
    | fin s2 k2 =>
      have hx : fmul (fin s1 k1) (fin s2 k2)
          = F32.round (xor s1 s2) (mant k1 * mant k2) (expo k1 + expo k2) := rfl
      rcases round_cases (xor s1 s2) (mant k1 * mant k2) (expo k1 + expo k2) with g | ⟨l, g⟩
      · unfold exactMul at h
        rw [hx, g] at h
        simp at h
      · unfold exactMul at h
        rw [hx, g] at h
        simp only [decide_eq_true_eq] at h
        refine ⟨rfl, rfl, by rw [hx, g]; rfl, ?_⟩
        rw [hx, g, toRat_fin, toRat_fin, toRat_fin]
        have hq1 : min (expo l) (expo k1 + expo k2) ≤ expo l := min_le_left _ _
        have hq2 : min (expo l) (expo k1 + expo k2) ≤ expo k1 + expo k2 := min_le_right _ _
        generalize min (expo l.val) (expo k1.val + expo k2.val) = q at h hq1 hq2
        have e1 : (2 : ℚ) ^ expo l = 2 ^ (expo l - q).toNat * 2 ^ q := by
          rw [two_zpow_toNat _ (by omega), ← two_zpow_add]; congr 1; ring
        have e2 : (2 : ℚ) ^ expo k1 * 2 ^ expo k2 = 2 ^ (expo k1 + expo k2 - q).toNat * 2 ^ q := by
          rw [two_zpow_toNat _ (by omega), ← two_zpow_add, ← two_zpow_add]; congr 1; ring
        have hq : ((mant l : ℚ)) * 2 ^ (expo l - q).toNat
            = (mant k1 : ℚ) * mant k2 * 2 ^ (expo k1 + expo k2 - q).toNat := by
          exact_mod_cast h
        have hs : ((signed (xor s1 s2) (mant l) : Int) : ℚ) * 2 ^ expo l
            = (if xor s1 s2 then -1 else 1) * ((mant l : ℚ) * 2 ^ (expo l - q).toNat) * 2 ^ q := by
          rw [e1]
          cases xor s1 s2 <;> simp [signed] <;> ring
        rw [hs, hq]
        have : ((signed s1 (mant k1) : Int) : ℚ) * 2 ^ expo k1
            * (((signed s2 (mant k2) : Int) : ℚ) * 2 ^ expo k2)
            = ((signed s1 (mant k1) : Int) : ℚ) * ((signed s2 (mant k2) : Int) : ℚ)
              * (2 ^ expo k1 * 2 ^ expo k2) := by ring
        rw [this, e2]
        cases s1 <;> cases s2 <;> simp [signed] <;> ring

theorem toRat_fabs_sq (x : F32) : toRat (fabs x) ^ 2 = toRat x ^ 2 := by
  cases x with
  | nan => rfl
  | inf s => rfl
  | fin s k => cases s <;> simp [fabs, toRat]

theorem isFinite_of_fmul_right (k d : F32) (hk : isFinite k = true)
    (h : isFinite (fmul k d) = true) : isFinite d = true := by
  obtain ⟨s, kk, rfl⟩ := fin_of_isFinite k hk
  cases d with
  | nan => simp [fmul, isFinite] at h
  | inf t =>
    simp only [fmul] at h
    split_ifs at h <;> simp [isFinite] at h
  | fin t l => rfl

/-- The two sides of the scaling law against each other, given that the left side
and the unscaled distance are each within `(1 ± 2 ^ -24) ^ c` of the exact
values. -/
theorem scaled_sides_rel (k l d : F32) (S : ℚ) (c : Nat)
    (hk : isFinite k = true) (hsk : sqSafe k = true)
    (hd0 : nonneg d = true) (hsd : sqSafe d = true)
    (hR : isFinite (fmul (fabs k) d) = true)
    (l1 : (1 - 1 / 2 ^ 24) ^ c * (toRat k ^ 2 * S) ≤ toRat l ^ 2)
    (l2 : toRat l ^ 2 ≤ (1 + 1 / 2 ^ 24) ^ c * (toRat k ^ 2 * S))
    (d1 : (1 - 1 / 2 ^ 24) ^ c * S ≤ toRat d ^ 2)
    (d2 : toRat d ^ 2 ≤ (1 + 1 / 2 ^ 24) ^ c * S) :
    (1 - 1 / 2 ^ 24) ^ (c + 2) * toRat l ^ 2
        ≤ (1 + 1 / 2 ^ 24) ^ c * toRat (fmul (fabs k) d) ^ 2 ∧
      (1 - 1 / 2 ^ 24) ^ c * toRat (fmul (fabs k) d) ^ 2
        ≤ (1 + 1 / 2 ^ 24) ^ (c + 2) * toRat l ^ 2 := by
  obtain ⟨sk, kk, rfl⟩ := fin_of_isFinite k hk
  have hdf := isFinite_of_fmul_right (fabs (fin sk kk)) d rfl hR
  obtain ⟨sd, kd, rfl⟩ := fin_of_isFinite d hdf
  have hsd0 : sd = false := by simpa [nonneg] using hd0
  subst hsd0
  obtain ⟨t, r, er⟩ := fin_of_isFinite _ hR
  have bk := big_fin sk kk ((sqSafe_iff _).1 hsk)
  have bd := big_fin false kd ((sqSafe_iff _).1 hsd)
  have hK2 := toRat_fabs_sq (fin sk kk)
  rw [er]
  simp only [fabs] at er hK2
  obtain ⟨_, hrel⟩ := fmul_nonneg_rel kk kd r t bk bd er
  obtain ⟨r1, r2⟩ := rel_bounds _ _ _ hrel
  have hK0 := toRat_fin_false_nonneg kk
  have hD0 := toRat_fin_false_nonneg kd
  have hKD0 : 0 ≤ toRat (fin false kk) * toRat (fin false kd) := mul_nonneg hK0 hD0
  have q1 := pow_le_pow_left₀ (mul_nonneg (by norm_num) hKD0) r1 2
  have hR0 : 0 ≤ toRat (fin t r) := le_trans (mul_nonneg (by norm_num) hKD0) r1
  have q2 := pow_le_pow_left₀ hR0 r2 2
  have eq1 : ((1 - 1 / 2 ^ 24) * (toRat (fin false kk) * toRat (fin false kd))) ^ 2
      = (1 - 1 / 2 ^ 24) ^ 2 * (toRat (fin sk kk) ^ 2 * toRat (fin false kd) ^ 2) := by
    rw [← hK2]; ring
  have eq2 : ((1 + 1 / 2 ^ 24) * (toRat (fin false kk) * toRat (fin false kd))) ^ 2
      = (1 + 1 / 2 ^ 24) ^ 2 * (toRat (fin sk kk) ^ 2 * toRat (fin false kd) ^ 2) := by
    rw [← hK2]; ring
  rw [eq1] at q1
  rw [eq2] at q2
  have hKs : 0 ≤ toRat (fin sk kk) ^ 2 := sq_nonneg _
  generalize toRat (fin sk kk) ^ 2 = K2 at l1 l2 q1 q2 hKs
  generalize toRat (fin false kd) ^ 2 = D2 at d1 d2 q1 q2
  generalize toRat (fin t r) ^ 2 = R2 at q1 q2
  generalize toRat l ^ 2 = L2 at l1 l2
  have hm : (0 : ℚ) ≤ (1 - 1 / 2 ^ 24) ^ c := by
    apply pow_nonneg; norm_num
  have hp : (0 : ℚ) ≤ (1 + 1 / 2 ^ 24) ^ c := by
    apply pow_nonneg; norm_num
  have hm2 : (0 : ℚ) ≤ (1 - 1 / 2 ^ 24) ^ (c + 2) := by
    apply pow_nonneg; norm_num
  have hp2 : (0 : ℚ) ≤ (1 + 1 / 2 ^ 24) ^ (c + 2) := by
    apply pow_nonneg; norm_num
  have a1 : (1 - 1 / 2 ^ 24) ^ (c + 2) * (K2 * S) ≤ R2 := by
    calc (1 - 1 / 2 ^ 24 : ℚ) ^ (c + 2) * (K2 * S)
        = (1 - 1 / 2 ^ 24) ^ 2 * (K2 * ((1 - 1 / 2 ^ 24) ^ c * S)) := by ring
      _ ≤ (1 - 1 / 2 ^ 24) ^ 2 * (K2 * D2) :=
          mul_le_mul_of_nonneg_left (mul_le_mul_of_nonneg_left d1 hKs) (by norm_num)
      _ ≤ R2 := q1
  have a2 : R2 ≤ (1 + 1 / 2 ^ 24) ^ (c + 2) * (K2 * S) := by
    calc R2 ≤ (1 + 1 / 2 ^ 24) ^ 2 * (K2 * D2) := q2
      _ ≤ (1 + 1 / 2 ^ 24) ^ 2 * (K2 * ((1 + 1 / 2 ^ 24) ^ c * S)) :=
          mul_le_mul_of_nonneg_left (mul_le_mul_of_nonneg_left d2 hKs) (by norm_num)
      _ = (1 + 1 / 2 ^ 24 : ℚ) ^ (c + 2) * (K2 * S) := by ring
  constructor
  · calc (1 - 1 / 2 ^ 24 : ℚ) ^ (c + 2) * L2
        ≤ (1 - 1 / 2 ^ 24) ^ (c + 2) * ((1 + 1 / 2 ^ 24) ^ c * (K2 * S)) :=
          mul_le_mul_of_nonneg_left l2 hm2
      _ = (1 + 1 / 2 ^ 24) ^ c * ((1 - 1 / 2 ^ 24) ^ (c + 2) * (K2 * S)) := by ring
      _ ≤ (1 + 1 / 2 ^ 24) ^ c * R2 := mul_le_mul_of_nonneg_left a1 hp
  · calc (1 - 1 / 2 ^ 24 : ℚ) ^ c * R2
        ≤ (1 - 1 / 2 ^ 24) ^ c * ((1 + 1 / 2 ^ 24) ^ (c + 2) * (K2 * S)) :=
          mul_le_mul_of_nonneg_left a2 hm
      _ = (1 + 1 / 2 ^ 24) ^ (c + 2) * ((1 - 1 / 2 ^ 24) ^ c * (K2 * S)) := by ring
      _ ≤ (1 + 1 / 2 ^ 24) ^ (c + 2) * L2 := mul_le_mul_of_nonneg_left l1 hp2

theorem isFinite_fabs (k : F32) (h : isFinite k = true) : isFinite (fabs k) = true := by
  cases k with
  | nan => simp [isFinite] at h
  | inf s => simp [isFinite] at h
  | fin s k => rfl

/-- The scaling law within rounding tolerance: when the products `k * A[i]` and
`k * B[i]` are exact and nothing overflows or underflows, the squares of the two
sides are within `(1 ± 2 ^ -24) ^ (2 n + 14)` of each other, in either build. -/
theorem scale_rel (k : F32) (A B : List F32) (n : Nat) (hA : n ≤ A.length) (hB : n ≤ B.length)
    (hk : isFinite k = true) (hsk : sqSafe k = true)
    (hex : ∀ i, i < n → exactMul k (A.getD i nan) = true ∧ exactMul k (B.getD i nan) = true)
    (hbig : ∀ i, i < n → sqSafe (fsub (A.getD i nan) (B.getD i nan)) = true)
    (hbig' : ∀ i, i < n →
      sqSafe (fsub (fmul k (A.getD i nan)) (fmul k (B.getD i nan))) = true) :
    (isFinite (distance (scale k A) (scale k B) n) = true →
      sqSafe (distance A B n) = true →
      isFinite (fmul (fabs k) (distance A B n)) = true →
      (1 - 1 / 2 ^ 24) ^ (n + 8) * toRat (distance (scale k A) (scale k B) n) ^ 2
          ≤ (1 + 1 / 2 ^ 24) ^ (n + 6) * toRat (fmul (fabs k) (distance A B n)) ^ 2 ∧
        (1 - 1 / 2 ^ 24) ^ (n + 6) * toRat (fmul (fabs k) (distance A B n)) ^ 2
          ≤ (1 + 1 / 2 ^ 24) ^ (n + 8)
            * toRat (distance (scale k A) (scale k B) n) ^ 2) ∧
    (isFinite (distance_fused (scale k A) (scale k B) n) = true →
      sqSafe (distance_fused A B n) = true →
      isFinite (fmul (fabs k) (distance_fused A B n)) = true →
      (1 - 1 / 2 ^ 24) ^ (n + 8) * toRat (distance_fused (scale k A) (scale k B) n) ^ 2
          ≤ (1 + 1 / 2 ^ 24) ^ (n + 6) * toRat (fmul (fabs k) (distance_fused A B n)) ^ 2 ∧
        (1 - 1 / 2 ^ 24) ^ (n + 6) * toRat (fmul (fabs k) (distance_fused A B n)) ^ 2
          ≤ (1 + 1 / 2 ^ 24) ^ (n + 8)
            * toRat (distance_fused (scale k A) (scale k B) n) ^ 2) := by
  have hfin : ∀ i, i < n →
      isFinite (A.getD i nan) = true ∧ isFinite (B.getD i nan) = true :=
    fun i hi => ⟨(exactMul_spec _ _ (hex i hi).1).2.1, (exactMul_spec _ _ (hex i hi).2).2.1⟩
  have hfin' : ∀ i, i < n → isFinite ((scale k A).getD i nan) = true ∧
      isFinite ((scale k B).getD i nan) = true := by
    intro i hi
    rw [getD_scale k A i (by omega), getD_scale k B i (by omega)]
    exact ⟨(exactMul_spec _ _ (hex i hi).1).2.2.1, (exactMul_spec _ _ (hex i hi).2).2.2.1⟩
  have hb : ∀ i, i < n → isZero (fsub (A.getD i nan) (B.getD i nan)) = true ∨
      fle (pow2 (-63)) (fabs (fsub (A.getD i nan) (B.getD i nan))) = true :=
    fun i hi => (sqSafe_iff _).1 (hbig i hi)
  have hb' : ∀ i, i < n →
      isZero (fsub ((scale k A).getD i nan) ((scale k B).getD i nan)) = true ∨
      fle (pow2 (-63)) (fabs (fsub ((scale k A).getD i nan) ((scale k B).getD i nan)))
        = true := by
    intro i hi
    rw [getD_scale k A i (by omega), getD_scale k B i (by omega)]
    exact (sqSafe_iff _).1 (hbig' i hi)
  have hS := exactSqSum_scale k A B n hA hB
    (fun i hi => (exactMul_spec _ _ (hex i hi).1).2.2.2)
    (fun i hi => (exactMul_spec _ _ (hex i hi).2).2.2.2)
  obtain ⟨u1, f1⟩ := distance_rel (scale k A) (scale k B) n hfin' hb'
  obtain ⟨u2, f2⟩ := distance_rel A B n hfin hb
  rw [hS] at u1 f1
  constructor
  · intro hl hsd hR
    have hdf := isFinite_of_fmul_right (fabs k) _ (isFinite_fabs k hk) hR
    have hd0 : nonneg (distance A B n) = true :=
      fsqrt_nonneg _ (accumulate_nonneg_of_finite A B n (fun i hi => (hfin i hi).1)
        (fun i hi => (hfin i hi).2))
    exact scaled_sides_rel k _ _ _ (n + 6) hk hsk hd0 hsd hR (u1 hl).1 (u1 hl).2
      (u2 hdf).1 (u2 hdf).2
  · intro hl hsd hR
    have hdf := isFinite_of_fmul_right (fabs k) _ (isFinite_fabs k hk) hR
    obtain ⟨k0, e0, _, _⟩ := accumulate_fused_rel A B n hfin hb (isFinite_of_fsqrt _ hdf)
    have hd0 : nonneg (distance_fused A B n) = true := by
      rw [distance_fused, e0]
      exact fsqrt_nonneg _ rfl
    exact scaled_sides_rel k _ _ _ (n + 6) hk hsk hd0 hsd hR (f1 hl).1 (f1 hl).2
      (f2 hdf).1 (f2 hdf).2

theorem toRat_zero : toRat zero = 0 := by
  have m0 : mant 0 = 0 := by decide
  rw [show zero = fin false 0 from rfl, toRat_fin_false]
  simp only [Fin.val_zero, m0, Nat.cast_zero, zero_mul]

theorem ofInt_nat_ne_nan (u : Nat) : ofInt (u : Int) ≠ nan := by
  rw [ofInt_natCast]
  rcases round_cases false u 0 with h | ⟨l, h⟩ <;> rw [h] <;> simp

/-- The value of the right side of the scaling law for a power of two, which is
not NaN. -/
theorem scale_pow2_value (A B : List F32) (n : Nat) (j : Int)
    (h1 : -126 ≤ j) (h2 : j ≤ 127) (hnA : n ≤ A.length) (hnB : n ≤ B.length)
    (hs : scalable j A B n = true) :
    (calculate_distance A B n).map (fmul (fabs (pow2 j)))
        = .value (fmul (pow2 j) (distance A B n)) ∧
      (calculate_distance A B n).map (fmul (fabs (fneg (pow2 j))))
        = .value (fmul (pow2 j) (distance A B n)) ∧
      fmul (pow2 j) (distance A B n) ≠ nan := by
  obtain ⟨_, hres⟩ := (scalable_iff j A B n).1 hs
  have hmul := scaled_fmul_pow2 j h1 h2 _ hres
  obtain ⟨hf1, hf2⟩ := fabs_pow2 j h1 h2
  have hb := calculate_distance_in_bounds A B n (by omega) (by omega)
  simp only [Int.toNat_ofNat] at hb
  refine ⟨by rw [hf1, hb]; rfl, by rw [hf2, hb]; rfl, ?_⟩
  rw [scaled_iff] at hmul
  obtain ⟨s, k, l, _, hy, _⟩ := hmul
  rw [hy]
  simp

/-! ## The claims -/

set_option maxRecDepth 100000 in
/-- C1, as stated, fails, and by more than any rounding tolerance, in either
build.  For `attempt = [2 ^ 64]`, `profile = [0.0]` and length 1 the Euclidean
distance is `2 ^ 64`, a binary32 number, but the square `2 ^ 128` overflows and
the function returns `+∞`.  For `attempt = [2 ^ -100]` (bit pattern
`0x0D800000`) the distance is `2 ^ -100`, but the square underflows and the
function returns `0.0`. -/
theorem C1_counterexample :
    calculate_distance [pow2 64] [zero] 1 = .value (inf false) ∧
      calculate_distance_fused [pow2 64] [zero] 1 = .value (inf false) ∧
      isFinite (pow2 64) = true ∧ toRat (pow2 64) = 2 ^ 64 ∧
      exactSqSum [pow2 64] [zero] 1 = (2 ^ 64) ^ 2 ∧
      calculate_distance [ofBits 0x0D800000] [zero] 1 = .value zero ∧
      calculate_distance_fused [ofBits 0x0D800000] [zero] 1 = .value zero ∧
      toRat (ofBits 0x0D800000) = 1 / 2 ^ 100 ∧
      exactSqSum [ofBits 0x0D800000] [zero] 1 = (1 / 2 ^ 100) ^ 2 := by
  have h1 : pow2 64 = fin false ⟨1602224128, by norm_num⟩ := by decide
  have h2 : ofBits 0x0D800000 = fin false ⟨226492416, by norm_num⟩ := by decide
  have m1 : mant 1602224128 = 8388608 := by decide
  have e1 : expo 1602224128 = 41 := by decide
  have m2 : mant 226492416 = 8388608 := by decide
  have e2 : expo 226492416 = -123 := by decide
  have t1 : toRat (pow2 64) = 2 ^ 64 := by
    simp only [h1, toRat, m1, e1]
    norm_num
  have t2 : toRat (ofBits 0x0D800000) = 1 / 2 ^ 100 := by
    simp only [h2, toRat, m2, e2]
    norm_num
  have t0 : toRat zero = 0 := toRat_zero
  refine ⟨by decide, by decide, by decide, t1, ?_, by decide, by decide, t2, ?_⟩
  · simp only [exactSqSum, List.range_succ, List.range_zero, List.nil_append, List.map_cons,
      List.map_nil, List.sum_cons, List.sum_nil, List.getD_cons_zero, t1, t0]
    norm_num
  · simp only [exactSqSum, List.range_succ, List.range_zero, List.nil_append, List.map_cons,
      List.map_nil, List.sum_cons, List.sum_nil, List.getD_cons_zero, t2, t0]
    norm_num

/-- C1, amended: for every length `n` within the bounds of both vectors the
function returns a value `r`, and the build that contracts `sum += diff * diff`
into a fused multiply-add a value `r'`.  When the compared elements are finite,
no difference `attempt[i] - profile[i]` other than zero is below `2 ^ -63` in
magnitude (no square underflows) and the returned value is finite (nothing
overflowed), the returned value is `>= 0` and is the Euclidean distance within
rounding tolerance: its square is between `(1 - 2 ^ -24) ^ (n + 6) * S` and
`(1 + 2 ^ -24) ^ (n + 6) * S`, where `S` is the exact sum of the squares of the
exact differences.  When the compared elements are integers and `S < 2 ^ 24`,
both builds return the binary32 rounding of the square root of `S`, which is
`k` itself when `S = k * k`. -/
theorem C1_distance (a p : List F32) (n : Int) (ha : n ≤ a.length) (hp : n ≤ p.length) :
    ∃ r r', calculate_distance a p n = .value r ∧ calculate_distance_fused a p n = .value r' ∧
      ((∀ i, i < n.toNat →
          isFinite (a.getD i nan) = true ∧ isFinite (p.getD i nan) = true) →
        (∀ i, i < n.toNat → sqSafe (fsub (a.getD i nan) (p.getD i nan)) = true) →
        ∀ v, v = r ∨ v = r' → isFinite v = true →
          fle zero v = true ∧
            (1 - 1 / 2 ^ 24) ^ (n.toNat + 6) * exactSqSum a p n.toNat ≤ toRat v ^ 2 ∧
            toRat v ^ 2 ≤ (1 + 1 / 2 ^ 24) ^ (n.toNat + 6) * exactSqSum a p n.toNat) ∧
      ∀ x y : List Int,
        (∀ i, i < n.toNat → isInt (a.getD i nan) (x.getD i 0) = true ∧
          isInt (p.getD i nan) (y.getD i 0) = true) →
        intSqSum x y n.toNat < 2 ^ 24 →
        r = fsqrt (ofInt (intSqSum x y n.toNat)) ∧ r' = r ∧
          ∀ k : Nat, intSqSum x y n.toNat = (k : Int) * k → r = ofInt k := by
  refine ⟨distance a p n.toNat, distance_fused a p n.toNat,
    calculate_distance_in_bounds a p n ha hp, calculate_distance_fused_in_bounds a p n ha hp,
    ?_, ?_⟩
  · intro hfin hbig v hv hvf
    obtain ⟨u1, u2⟩ := distance_rel a p n.toNat hfin (fun i hi => (sqSafe_iff _).1 (hbig i hi))
    rcases hv with rfl | rfl
    · refine ⟨?_, u1 hvf⟩
      exact fle_zero_of_nonneg _ (fsqrt_nonneg _ (accumulate_nonneg_of_finite a p n.toNat
        (fun i hi => (hfin i hi).1) (fun i hi => (hfin i hi).2)))
    · refine ⟨?_, u2 hvf⟩
      obtain ⟨k0, e0, _, _⟩ := accumulate_fused_rel a p n.toNat hfin
        (fun i hi => (sqSafe_iff _).1 (hbig i hi)) (isFinite_of_fsqrt _ hvf)
      rw [distance_fused, e0]
      exact fle_zero_of_nonneg _ (fsqrt_nonneg _ rfl)
  · intro x y hxy hS
    have e1 := distance_int a p x y n.toNat (fun i hi => (hxy i hi).1)
      (fun i hi => (hxy i hi).2) hS
    have e2 := distance_fused_int a p x y n.toNat (fun i hi => (hxy i hi).1)
      (fun i hi => (hxy i hi).2) hS
    refine ⟨e1, by rw [e1, e2], fun k hk => ?_⟩
    rw [e1, hk]
    apply fsqrt_ofInt_sq
    have : ((k * k : Nat) : Int) < 2 ^ 24 := by push_cast; rw [← hk]; exact hS
    exact_mod_cast this

set_option maxRecDepth 100000 in
/-- C1, amended, at `attempt = [1.0, 1.0]`, `profile = [0.0, 0.0]`, length 2: the
exact sum of the squares is 2, and the squares of the values returned by the two
builds are within `(1 ± 2 ^ -24) ^ 8` of 2. -/
theorem C1_distance_witness :
    ∃ r r', calculate_distance [ofInt 1, ofInt 1] [ofInt 0, ofInt 0] 2 = .value r ∧
      calculate_distance_fused [ofInt 1, ofInt 1] [ofInt 0, ofInt 0] 2 = .value r' ∧
      (1 - 1 / 2 ^ 24) ^ 8 * 2 ≤ toRat r ^ 2 ∧ toRat r ^ 2 ≤ (1 + 1 / 2 ^ 24) ^ 8 * 2 ∧
      (1 - 1 / 2 ^ 24) ^ 8 * 2 ≤ toRat r' ^ 2 ∧ toRat r' ^ 2 ≤ (1 + 1 / 2 ^ 24) ^ 8 * 2 := by
  obtain ⟨r, r', h1, h2, htol, _⟩ :=
    C1_distance [ofInt 1, ofInt 1] [ofInt 0, ofInt 0] 2 (by decide) (by decide)
  have e1 : r = ofBits 0x3FB504F3 := by
    have := h1.symm.trans (by decide :
      calculate_distance [ofInt 1, ofInt 1] [ofInt 0, ofInt 0] 2 = .value (ofBits 0x3FB504F3))
    injection this
  have e2 : r' = ofBits 0x3FB504F3 := by
    have := h2.symm.trans (by decide :
      calculate_distance_fused [ofInt 1, ofInt 1] [ofInt 0, ofInt 0] 2
        = .value (ofBits 0x3FB504F3))
    injection this
  have o1 : ofInt 1 = fin false ⟨1065353216, by norm_num⟩ := by decide
  have o0 : ofInt 0 = fin false ⟨0, by norm_num⟩ := by decide
  have m1 : mant 1065353216 = 8388608 := by decide
  have x1 : expo 1065353216 = -23 := by decide
  have m0 : mant 0 = 0 := by decide
  have hS : exactSqSum [ofInt 1, ofInt 1] [ofInt 0, ofInt 0] (2 : Int).toNat = 2 := by
    have : (2 : Int).toNat = 2 := rfl
    rw [this]
    simp only [exactSqSum, o1, o0, toRat, List.range_succ, List.range_zero, List.nil_append,
      List.map_cons, List.map_nil, List.sum_cons, List.sum_nil, List.getD_cons_zero,
      List.getD_cons_succ, List.cons_append, m1, x1, m0]
    norm_num
  have t := htol (by decide) (by decide)
  have t1 := t r (Or.inl rfl) (by rw [e1]; decide)
  have t2 := t r' (Or.inr rfl) (by rw [e2]; decide)
  rw [hS] at t1 t2
  exact ⟨r, r', h1, h2, t1.2.1, t1.2.2, t2.2.1, t2.2.2⟩

set_option maxRecDepth 100000 in
/-- C2, as stated, fails: `attempt = [2 ^ -100]` (bit pattern `0x0D800000`) and
`profile = [0.0]` differ, yet the square of their difference underflows to zero
and the function returns `0.0`. -/
theorem C2_counterexample :
    calculate_distance [ofBits 0x0D800000] [ofBits 0] 1 = .value zero ∧
      feq (ofBits 0x0D800000) (ofBits 0) = false := by
  decide

/-- C2, amended: for every length within the bounds of both vectors, when the
compared elements are finite, the function returns `+0.0` if and only if every
difference `attempt[i] - profile[i]`, as computed in binary32, has magnitude at
most `2 ^ -75` (bit pattern `0x1A000000`), which is when its square rounds to
zero.  This is so when `attempt[i] == profile[i]` for every index below the
length. -/
theorem C2_zero_iff (a p : List F32) (n : Int) (ha : n ≤ a.length) (hp : n ≤ p.length)
    (hfin : ∀ i, i < n.toNat →
      isFinite (a.getD i nan) = true ∧ isFinite (p.getD i nan) = true) :
    (calculate_distance a p n = .value zero ↔
        ∀ i, i < n.toNat →
          fle (fabs (fsub (a.getD i nan) (p.getD i nan))) (ofBits 0x1A000000) = true) ∧
      ((∀ i, i < n.toNat → feq (a.getD i nan) (p.getD i nan) = true) →
        calculate_distance a p n = .value zero) := by
  have h := calculate_distance_in_bounds a p n ha hp
  have hacc := accumulate_nonneg_of_finite a p n.toNat (fun i hi => (hfin i hi).1)
    (fun i hi => (hfin i hi).2)
  have hiff := accumulate_eq_zero_iff a p n.toNat (fun i hi => (hfin i hi).1)
    (fun i hi => (hfin i hi).2)
  constructor
  · simp only [← sqDiff_eq_zero_iff]
    rw [h, ← hiff, distance]
    constructor
    · intro h1
      injection h1 with h1
      exact (fsqrt_eq_zero_iff _ hacc).1 h1
    · intro h1
      rw [h1, fsqrt_zero]
  · intro heq
    rw [h, distance, accumulate_eq_zero_of_feq a p n.toNat (fun i hi => (hfin i hi).1) heq,
      fsqrt_zero]

set_option maxRecDepth 100000 in
/-- C2, amended, at `attempt = [1.0, 2 ^ -100]`, `profile = [1.0, 0.0]`, length 2:
the differences are `0` and `2 ^ -100`, both at most `2 ^ -75`, and the result
is `+0.0`. -/
theorem C2_zero_iff_witness :
    calculate_distance [ofBits 0x3F800000, ofBits 0x0D800000] [ofBits 0x3F800000, ofBits 0] 2
      = .value zero :=
  (C2_zero_iff [ofBits 0x3F800000, ofBits 0x0D800000] [ofBits 0x3F800000, ofBits 0] 2
    (by decide) (by decide) (by decide)).1.2 (by decide)

/-- C3, as stated, fails: the specification writes the symmetry with `==`, which
is false when the results are NaN.  With `A = [NaN]`, `B = [0.0]` and length 1
both `calculate_distance(A, B, 1)` and `calculate_distance(B, A, 1)` are NaN, and
`NaN == NaN` is false. -/
theorem C3_counterexample :
    calculate_distance [nan] [zero] 1 = .value nan ∧
      calculate_distance [zero] [nan] 1 = .value nan ∧ feq nan nan = false := by
  decide

/-- C3, amended: for every pair of vectors `A` and `B` and every length `n` within
the bounds of both, `calculate_distance(A, B, n)` and
`calculate_distance(B, A, n)` return the same datum, and
`calculate_distance(A, B, n) == calculate_distance(B, A, n)` is true, when no
compared pair is a NaN pair (no compared element is NaN and no two compared
elements are infinities of the same sign); otherwise both return NaN and the
comparison is false.  For a length beyond the bounds both calls read out of
bounds at the same index. -/
theorem C3_symmetry (A B : List F32) (n : Int) :
    (n.toNat ≤ min A.length B.length →
      ∃ r1 r2, calculate_distance A B n = .value r1 ∧ calculate_distance B A n = .value r2 ∧
        ((∀ i, i < n.toNat → nanPair (A.getD i nan) (B.getD i nan) = false) →
          r1 = r2 ∧ feq r1 r2 = true) ∧
        ((∃ i, i < n.toNat ∧ nanPair (A.getD i nan) (B.getD i nan) = true) →
          r1 = nan ∧ r2 = nan ∧ feq r1 r2 = false)) ∧
      (¬ n.toNat ≤ min A.length B.length →
        calculate_distance A B n = .outOfBounds (min A.length B.length) ∧
          calculate_distance B A n = .outOfBounds (min A.length B.length)) := by
  have hsym : distance B A n.toNat = distance A B n.toNat := by
    simp only [distance, accumulate_comm B A]
  constructor
  · intro hb
    refine ⟨distance A B n.toNat, distance A B n.toNat, ?_, ?_, ?_, ?_⟩
    · rw [calculate_distance_eq, if_pos hb]
    · rw [calculate_distance_eq, min_comm, if_pos hb, hsym]
    · intro hnp
      refine ⟨rfl, feq_self _ ?_⟩
      rw [Ne, distance_eq_nan_iff]
      rintro ⟨i, hi, h⟩
      rw [hnp i hi] at h
      simp at h
    · intro hnp
      have := (distance_eq_nan_iff A B n.toNat).2 hnp
      rw [this]
      exact ⟨rfl, rfl, rfl⟩
  · intro hb
    constructor
    · rw [calculate_distance_eq, if_neg hb]
    · rw [calculate_distance_eq, min_comm, if_neg hb]

set_option maxRecDepth 100000 in
/-- C3, amended, at `A = [1, 2]`, `B = [0, 0]`, length 2: no pair is a NaN pair,
and the two results are the same datum and compare equal. -/
theorem C3_symmetry_witness :
    ∃ r1 r2, calculate_distance [ofInt 1, ofInt 2] [ofInt 0, ofInt 0] 2 = .value r1 ∧
      calculate_distance [ofInt 0, ofInt 0] [ofInt 1, ofInt 2] 2 = .value r2 ∧
      r1 = r2 ∧ feq r1 r2 = true := by
  obtain ⟨r1, r2, h1, h2, h3, _⟩ :=
    (C3_symmetry [ofInt 1, ofInt 2] [ofInt 0, ofInt 0] 2).1 (by decide)
  exact ⟨r1, r2, h1, h2, h3 (by decide)⟩

/-- C4, as stated, fails: with `attempt = [+∞]`, `profile = [+∞]` and length 1 the
difference is `∞ - ∞`, the function returns NaN, and `0 <= NaN` is false. -/
theorem C4_counterexample :
    calculate_distance [inf false] [inf false] 1 = .value nan ∧ fle zero nan = false := by
  decide

/-- C4, amended: for every length within the bounds of both vectors the function
returns a datum that is NaN or `>= 0`, never a negative number.  It is `>= 0`
exactly when no compared pair is a NaN pair, that is when no compared element is
NaN and no two compared elements `attempt[i]`, `profile[i]` are infinities of the
same sign; otherwise it is NaN. -/
theorem C4_nonnegative (a p : List F32) (n : Int) (ha : n ≤ a.length) (hp : n ≤ p.length) :
    ∃ r, calculate_distance a p n = .value r ∧ (r = nan ∨ fle zero r = true) ∧
      (fle zero r = true ↔
        ∀ i, i < n.toNat → nanPair (a.getD i nan) (p.getD i nan) = false) := by
  have hnn : distance a p n.toNat = nan ∨ nonneg (distance a p n.toNat) = true :=
    fsqrt_nan_or_nonneg _ (accumulate_nan_or_nonneg a p n.toNat)
  refine ⟨distance a p n.toNat, calculate_distance_in_bounds a p n ha hp, ?_, ?_⟩
  · rcases hnn with h | h
    · exact Or.inl h
    · exact Or.inr (fle_zero_of_nonneg _ h)
  · rw [fle_zero_iff _ hnn, Ne, distance_eq_nan_iff]
    constructor
    · intro h i hi
      cases hb : nanPair (a.getD i nan) (p.getD i nan)
      · rfl
      · exact absurd ⟨i, hi, hb⟩ h
    · rintro h ⟨i, hi, hb⟩
      rw [h i hi] at hb
      simp at hb

set_option maxRecDepth 100000 in
/-- C4, amended, at `attempt = [0.0, 0.0]`, `profile = [3.0, 4.0]`, length 2: no
pair is a NaN pair and the result, `5.0`, is `>= 0`. -/
theorem C4_nonnegative_witness :
    ∃ r, calculate_distance [ofBits 0, ofBits 0] [ofBits 0x40400000, ofBits 0x40800000] 2
        = .value r ∧ (r = nan ∨ fle zero r = true) ∧
      (fle zero r = true ↔
        ∀ i, i < (2 : Int).toNat →
          nanPair ([ofBits 0, ofBits 0].getD i nan)
            ([ofBits 0x40400000, ofBits 0x40800000].getD i nan) = false) :=
  C4_nonnegative [ofBits 0, ofBits 0] [ofBits 0x40400000, ofBits 0x40800000] 2
    (by decide) (by decide)

/-- C5, as stated, fails: for `V = [-∞]` and length 1 the difference `V[0] - V[0]`
is NaN and so is the result; and for `V = [1.0]` and length 2 the function reads
out of bounds. -/
theorem C5_counterexample :
    calculate_distance [inf true] [inf true] 1 = .value nan ∧
      calculate_distance [ofBits 0x3F800000] [ofBits 0x3F800000] 2 = .outOfBounds 1 := by
  decide

/-- C5, amended: for every vector `V` and every length `n` not exceeding its size,
`calculate_distance(V, V, n)` returns `+0.0` if the first `n` elements of `V` are
finite, and NaN otherwise. -/
theorem C5_identity (V : List F32) (n : Int) (hn : n ≤ V.length) :
    ((∀ i, i < n.toNat → isFinite (V.getD i nan) = true) →
        calculate_distance V V n = .value zero) ∧
      ((¬ ∀ i, i < n.toNat → isFinite (V.getD i nan) = true) →
        calculate_distance V V n = .value nan) := by
  rw [calculate_distance_in_bounds V V n hn hn]
  constructor
  · intro hfin
    rw [distance, accumulate_eq_zero_of_feq V V n.toNat hfin
      (fun i hi => feq_self_of_finite _ (hfin i hi)), fsqrt_zero]
  · intro hnot
    push_neg at hnot
    obtain ⟨i, hi, hfi⟩ := hnot
    congr 1
    rw [distance_eq_nan_iff]
    refine ⟨i, hi, ?_⟩
    cases h : V.getD i nan with
    | nan => rfl
    | inf s => cases s <;> rfl
    | fin s k => rw [h] at hfi; simp [isFinite] at hfi

set_option maxRecDepth 100000 in
/-- C5, amended, at the scenario of the specification: `V = [1.0, 2.0, 3.0]`,
length 3, result `0.0`. -/
theorem C5_identity_witness :
    calculate_distance [ofBits 0x3F800000, ofBits 0x40000000, ofBits 0x40400000]
      [ofBits 0x3F800000, ofBits 0x40000000, ofBits 0x40400000] 3 = .value (ofBits 0) :=
  (C5_identity [ofBits 0x3F800000, ofBits 0x40000000, ofBits 0x40400000] 3 (by decide)).1
    (by decide)

/-- C6, as stated, fails at its own scenario: with `attempt = [1.0]`,
`profile = [1.0]` and length 2 the function reads both elements at index 0 (two
reads) and then reads out of bounds at index 1; nothing is checked before the
first access and no failure is reported. -/
theorem C6_counterexample :
    calculate_distance_run [ofBits 0x3F800000] [ofBits 0x3F800000] 2
      = ⟨.outOfBounds 1, 2⟩ := by
  decide

/-- C6, amended: the function has no length check and no failure result.  When
`length` exceeds the size of `attempt` or of `profile`, it reads both vectors at
every index below the smaller size `m` and then reads out of bounds at index `m`
(undefined behaviour in C), `attempt[m]` being read first. -/
theorem C6_out_of_bounds (a p : List F32) (n : Int)
    (h : (a.length : Int) < n ∨ (p.length : Int) < n) :
    calculate_distance_run a p n
      = ⟨.outOfBounds (min a.length p.length),
          2 * min a.length p.length + (if a.length ≤ p.length then 0 else 1)⟩ := by
  rw [calculate_distance_run_eq, if_neg]
  omega

/-- C6, amended, at `attempt = [1.0, 2.0]`, `profile = [1.0]`, length 2: the
out-of-bounds read is `profile[1]`, after three reads. -/
theorem C6_out_of_bounds_witness :
    (([ofBits 0x3F800000, ofBits 0x40000000].length : Int) < 2
        ∨ (([ofBits 0x3F800000] : List F32).length : Int) < 2) ∧
      calculate_distance_run [ofBits 0x3F800000, ofBits 0x40000000] [ofBits 0x3F800000] 2
        = ⟨.outOfBounds 1, 3⟩ :=
  ⟨by decide,
    C6_out_of_bounds [ofBits 0x3F800000, ofBits 0x40000000] [ofBits 0x3F800000] 2 (by decide)⟩

set_option maxRecDepth 100000 in
/-- C7, as stated, fails, and by more than any rounding tolerance, in either
build.  For `k = 2 ^ 40`, `A = [2 ^ 24]`, `B = [0]` and length 1 the scaled
difference is `2 ^ 64`, its square overflows and `calculate_distance(kA, kB, 1)`
is `+∞`, while `|k| * calculate_distance(A, B, 1)` is `2 ^ 64`.  For `k = 3`,
`A = [1 + 2 ^ -23]` (bit pattern `0x3F800001`), `B = [1]` and length 1 nothing
overflows or underflows, but the product `3 * A[0]` is rounded: the left side
is `2 ^ -21` (`0x35000000`) and the right side `3 * 2 ^ -23` (`0x34C00000`),
a third less. -/
theorem C7_counterexample :
    calculate_distance (scale (pow2 40) [pow2 24]) (scale (pow2 40) [zero]) 1
        = .value (inf false) ∧
      calculate_distance_fused (scale (pow2 40) [pow2 24]) (scale (pow2 40) [zero]) 1
        = .value (inf false) ∧
      (calculate_distance [pow2 24] [zero] 1).map (fmul (fabs (pow2 40)))
        = .value (pow2 64) ∧
      (calculate_distance_fused [pow2 24] [zero] 1).map (fmul (fabs (pow2 40)))
        = .value (pow2 64) ∧
      isFinite (pow2 64) = true ∧
      calculate_distance (scale (ofInt 3) [ofBits 0x3F800001])
          (scale (ofInt 3) [ofBits 0x3F800000]) 1 = .value (ofBits 0x35000000) ∧
      calculate_distance_fused (scale (ofInt 3) [ofBits 0x3F800001])
          (scale (ofInt 3) [ofBits 0x3F800000]) 1 = .value (ofBits 0x35000000) ∧
      (calculate_distance [ofBits 0x3F800001] [ofBits 0x3F800000] 1).map
          (fmul (fabs (ofInt 3))) = .value (ofBits 0x34C00000) ∧
      (calculate_distance_fused [ofBits 0x3F800001] [ofBits 0x3F800000] 1).map
          (fmul (fabs (ofInt 3))) = .value (ofBits 0x34C00000) ∧
      3 * toRat (ofBits 0x35000000) = 4 * toRat (ofBits 0x34C00000) := by
  have h1 : ofBits 0x35000000 = fin false ⟨889192448, by norm_num⟩ := by decide
  have h2 : ofBits 0x34C00000 = fin false ⟨884998144, by norm_num⟩ := by decide
  have m1 : mant 889192448 = 8388608 := by decide
  have e1 : expo 889192448 = -44 := by decide
  have m2 : mant 884998144 = 12582912 := by decide
  have e2 : expo 884998144 = -45 := by decide
  refine ⟨by decide, by decide, by decide, by decide, by decide, by decide, by decide,
    by decide, by decide, ?_⟩
  simp only [h1, h2, toRat, m1, e1, m2, e2]
  norm_num

/-- C7, amended: the scaling law `calculate_distance(kA, kB, n) = |k| *
calculate_distance(A, B, n)`, `kA` and `kB` being `A` and `B` with every element
multiplied by `k` in binary32, holds
* within rounding tolerance, in either build, for every length within the
  bounds, when `k` is finite and zero or at least `2 ^ -63` in magnitude, the
  products `k * A[i]` and `k * B[i]` are exact, no difference `A[i] - B[i]` or
  `kA[i] - kB[i]` other than zero is below `2 ^ -63` in magnitude, the left side
  is finite, the unscaled distance is zero or at least `2 ^ -63`, and the right
  side is finite: the squares `L` and `R` of the two sides then satisfy
  `(1 - u) ^ (n + 8) * L ≤ (1 + u) ^ (n + 6) * R` and
  `(1 - u) ^ (n + 6) * R ≤ (1 + u) ^ (n + 8) * L` with `u = 2 ^ -24`;
* exactly (the two sides are the same datum, which is not NaN, so that `==`
  holds) for `k = 1` and `k = -1`, for a length within the bounds, when no
  compared pair is a NaN pair;
* exactly for `k = 2 ^ j` and `k = -2 ^ j` with `-126 ≤ j ≤ 127`, for a length
  within the bounds, when no intermediate result (element, difference, square,
  partial sum, result) leaves the range in which it and its scaled counterpart
  are normal numbers and no square of a non-zero difference underflows
  (`scalable`);
* exactly for integer vectors and an integer `k` when nothing rounds, that is
  when the sum of the squared differences is a perfect square `r * r` and the
  elements, their products by `k` and `(|k| * r) ^ 2` are all below `2 ^ 24` in
  magnitude: both sides are then `|k| * r`. -/
theorem C7_scaling :
    (∀ (k : F32) (A B : List F32) (n : Nat), n ≤ A.length → n ≤ B.length →
        isFinite k = true → sqSafe k = true →
        (∀ i, i < n →
          exactMul k (A.getD i nan) = true ∧ exactMul k (B.getD i nan) = true) →
        (∀ i, i < n → sqSafe (fsub (A.getD i nan) (B.getD i nan)) = true) →
        (∀ i, i < n →
          sqSafe (fsub (fmul k (A.getD i nan)) (fmul k (B.getD i nan))) = true) →
        ∃ l d l' d', calculate_distance (scale k A) (scale k B) n = .value l ∧
          calculate_distance A B n = .value d ∧
          calculate_distance_fused (scale k A) (scale k B) n = .value l' ∧
          calculate_distance_fused A B n = .value d' ∧
          ∀ u v, (u = l ∧ v = d) ∨ (u = l' ∧ v = d') →
            isFinite u = true → sqSafe v = true → isFinite (fmul (fabs k) v) = true →
            (1 - 1 / 2 ^ 24) ^ (n + 8) * toRat u ^ 2
                ≤ (1 + 1 / 2 ^ 24) ^ (n + 6) * toRat (fmul (fabs k) v) ^ 2 ∧
              (1 - 1 / 2 ^ 24) ^ (n + 6) * toRat (fmul (fabs k) v) ^ 2
                ≤ (1 + 1 / 2 ^ 24) ^ (n + 8) * toRat u ^ 2) ∧
      (∀ (A B : List F32) (n : Nat), n ≤ A.length → n ≤ B.length →
        (∀ i, i < n → nanPair (A.getD i nan) (B.getD i nan) = false) →
        ∃ r, calculate_distance (scale (ofInt 1) A) (scale (ofInt 1) B) n = .value r ∧
          (calculate_distance A B n).map (fmul (fabs (ofInt 1))) = .value r ∧
          calculate_distance (scale (ofInt (-1)) A) (scale (ofInt (-1)) B) n = .value r ∧
          (calculate_distance A B n).map (fmul (fabs (ofInt (-1)))) = .value r ∧
          feq r r = true) ∧
      (∀ (A B : List F32) (n : Nat) (j : Int), -126 ≤ j → j ≤ 127 →
        n ≤ A.length → n ≤ B.length → scalable j A B n = true →
        ∃ r, calculate_distance (scale (pow2 j) A) (scale (pow2 j) B) n = .value r ∧
          (calculate_distance A B n).map (fmul (fabs (pow2 j))) = .value r ∧
          calculate_distance (scale (fneg (pow2 j)) A) (scale (fneg (pow2 j)) B) n
            = .value r ∧
          (calculate_distance A B n).map (fmul (fabs (fneg (pow2 j)))) = .value r ∧
          feq r r = true) ∧
      ∀ (x y : List Int) (k : Int) (r n : Nat), n ≤ x.length → n ≤ y.length →
        k.natAbs < 2 ^ 24 →
        (∀ i, i < n → (x.getD i 0).natAbs < 2 ^ 24 ∧ (k * x.getD i 0).natAbs < 2 ^ 24) →
        (∀ i, i < n → (y.getD i 0).natAbs < 2 ^ 24 ∧ (k * y.getD i 0).natAbs < 2 ^ 24) →
        intSqSum x y n = (r : Int) * r → r * r < 2 ^ 24 →
        (k.natAbs * r) * (k.natAbs * r) < 2 ^ 24 →
        ∃ v, calculate_distance (scale (ofInt k) (x.map ofInt)) (scale (ofInt k) (y.map ofInt)) n
            = .value v ∧
          (calculate_distance (x.map ofInt) (y.map ofInt) n).map (fmul (fabs (ofInt k)))
            = .value v ∧
          v = ofInt ((k.natAbs * r : Nat) : Int) ∧ feq v v = true := by
  have hf1 : ∀ z, fmul (fabs (ofInt 1)) z = z := by
    intro z
    have : fabs (ofInt 1) = ofInt 1 := by decide
    rw [this, fmul_one]
  have hf2 : ∀ z, fmul (fabs (ofInt (-1))) z = z := by
    intro z
    have : fabs (ofInt (-1)) = ofInt 1 := by decide
    rw [this, fmul_one]
  refine ⟨?_, ?_, ?_, ?_⟩
  · intro k A B n hA hB hk hsk hex hbig hbig'
    obtain ⟨c1, c2⟩ := scale_rel k A B n hA hB hk hsk hex hbig hbig'
    have b1 := calculate_distance_in_bounds (scale k A) (scale k B) n
      (by rw [length_scale]; exact_mod_cast hA) (by rw [length_scale]; exact_mod_cast hB)
    have b2 := calculate_distance_in_bounds A B n (by exact_mod_cast hA) (by exact_mod_cast hB)
    have b3 := calculate_distance_fused_in_bounds (scale k A) (scale k B) n
      (by rw [length_scale]; exact_mod_cast hA) (by rw [length_scale]; exact_mod_cast hB)
    have b4 := calculate_distance_fused_in_bounds A B n (by exact_mod_cast hA)
      (by exact_mod_cast hB)
    rw [Int.toNat_ofNat] at b1 b2 b3 b4
    refine ⟨_, _, _, _, b1, b2, b3, b4, ?_⟩
    rintro u v (⟨rfl, rfl⟩ | ⟨rfl, rfl⟩) hu hv hR
    · exact c1 hu hv hR
    · exact c2 hu hv hR
  · intro A B n hA hB hnp
    have b := calculate_distance_in_bounds A B n (by exact_mod_cast hA) (by exact_mod_cast hB)
    rw [Int.toNat_ofNat] at b
    have hne : distance A B n ≠ nan := by
      rw [Ne, distance_eq_nan_iff]
      rintro ⟨i, hi, h⟩
      rw [hnp i hi] at h
      simp at h
    refine ⟨distance A B n, ?_, ?_, ?_, ?_, feq_self _ hne⟩
    · rw [scale_one, scale_one, b]
    · rw [outcome_map_id _ _ hf1, b]
    · rw [calculate_distance_scale_neg_one, b]
    · rw [outcome_map_id _ _ hf2, b]
  · intro A B n j h1 h2 hnA hnB hs
    obtain ⟨e1, e2⟩ := calculate_distance_scale_pow2 A B n j h1 h2 hnA hnB hs
    obtain ⟨v1, v2, hne⟩ := scale_pow2_value A B n j h1 h2 hnA hnB hs
    exact ⟨_, by rw [e1, v1], v1, by rw [e2, v2], v2, feq_self _ hne⟩
  · intro x y k r n hnx hny hk hx hy hS hr hkr
    obtain ⟨h1, h2⟩ := calculate_distance_scale_int x y k r n hnx hny hk hx hy hS hr hkr
    exact ⟨_, h1, h2, rfl, feq_self _ (ofInt_nat_ne_nan _)⟩

set_option maxRecDepth 100000 in
/-- C7, amended, at `k = 3`, `A = [1, 2]`, `B = [0, 0]`, length 2: the products are
exact, the left side is the rounded square root of 45 (`0x40D6A99B`), the right
side 3 times the rounded square root of 5 (`0x40D6A99C`), and their squares are
within the tolerance of each other. -/
theorem C7_scaling_witness :
    ∃ l d, calculate_distance (scale (ofInt 3) [ofInt 1, ofInt 2])
        (scale (ofInt 3) [ofInt 0, ofInt 0]) (2 : Nat) = .value l ∧
      calculate_distance [ofInt 1, ofInt 2] [ofInt 0, ofInt 0] (2 : Nat) = .value d ∧
      (1 - 1 / 2 ^ 24) ^ (2 + 8) * toRat l ^ 2
          ≤ (1 + 1 / 2 ^ 24) ^ (2 + 6) * toRat (fmul (fabs (ofInt 3)) d) ^ 2 ∧
        (1 - 1 / 2 ^ 24) ^ (2 + 6) * toRat (fmul (fabs (ofInt 3)) d) ^ 2
          ≤ (1 + 1 / 2 ^ 24) ^ (2 + 8) * toRat l ^ 2 := by
  obtain ⟨l, d, l', d', h1, h2, _, _, h⟩ :=
    C7_scaling.1 (ofInt 3) [ofInt 1, ofInt 2] [ofInt 0, ofInt 0] 2 (by decide) (by decide)
      (by decide) (by decide) (by decide) (by decide) (by decide)
  have e1 : l = ofBits 0x40D6A99B := by
    have := h1.symm.trans (by decide :
      calculate_distance (scale (ofInt 3) [ofInt 1, ofInt 2])
        (scale (ofInt 3) [ofInt 0, ofInt 0]) (2 : Nat) = .value (ofBits 0x40D6A99B))
    injection this
  have e2 : d = ofBits 0x400F1BBD := by
    have := h2.symm.trans (by decide :
      calculate_distance [ofInt 1, ofInt 2] [ofInt 0, ofInt 0] (2 : Nat)
        = .value (ofBits 0x400F1BBD))
    injection this
  exact ⟨l, d, h1, h2, h l d (Or.inl ⟨rfl, rfl⟩) (by rw [e1]; decide) (by rw [e2]; decide)
    (by rw [e2]; decide)⟩

/-- C8: for any vectors `A` and `B`, empty ones included,
`calculate_distance(A, B, 0)` returns `+0.0`. -/
theorem C8_zero_length (A B : List F32) : calculate_distance A B 0 = .value zero := by
  rw [calculate_distance_eq]
  simp [distance, accumulate_zero, fsqrt_zero]

set_option maxRecDepth 100000 in
/-- C9: `calculate_distance([0.0, 0.0], [3.0, 4.0], 2)` returns exactly `5.0`
(bit patterns `0x40400000`, `0x40800000`, `0x40A00000` for 3, 4 and 5). -/
theorem C9_three_four_five :
    calculate_distance [ofBits 0, ofBits 0] [ofBits 0x40400000, ofBits 0x40800000] 2
      = .value (ofBits 0x40A00000) ∧
    ofBits 0x40400000 = ofInt 3 ∧ ofBits 0x40800000 = ofInt 4 ∧ ofBits 0x40A00000 = ofInt 5 := by
  decide

/-- C10: only the leading `length` elements are compared.  For every length `n`
and all vectors `A`, `A'`, `B`, `B'` of size at least `n` such that `A` and `A'`
agree on the indices below `n`, and so do `B` and `B'`, the calls
`calculate_distance(A, B, n)` and `calculate_distance(A', B', n)` return the
same value, each after reading `n` elements of either vector. -/
theorem C10_leading_elements (n : Int) (A A' B B' : List F32)
    (hA : n ≤ A.length) (hA' : n ≤ A'.length) (hB : n ≤ B.length) (hB' : n ≤ B'.length)
    (hAA : ∀ i : Nat, (i : Int) < n → A[i]? = A'[i]?)
    (hBB : ∀ i : Nat, (i : Int) < n → B[i]? = B'[i]?) :
    ∃ r, calculate_distance_run A B n = ⟨.value r, 2 * n.toNat⟩ ∧
      calculate_distance_run A' B' n = ⟨.value r, 2 * n.toNat⟩ ∧
      calculate_distance A B n = .value r ∧ calculate_distance A' B' n = .value r := by
  have e : distance A' B' n.toNat = distance A B n.toNat := by
    rw [distance, distance]
    congr 1
    apply accumulate_congr
    · intro i hi
      simp [List.getD, hAA i (by omega)]
    · intro i hi
      simp [List.getD, hBB i (by omega)]
  refine ⟨distance A B n.toNat, ?_, ?_, calculate_distance_in_bounds A B n hA hB, ?_⟩
  · rw [calculate_distance_run_eq, if_pos (by omega)]
  · rw [calculate_distance_run_eq, if_pos (by omega), e]
  · rw [calculate_distance_in_bounds A' B' n hA' hB', e]

set_option maxRecDepth 100000 in
/-- C10 at `n = 2`, `A = [1, 2, 3]`, `A' = [1, 2, 4, 5]`, `B = [0, 0, 1]`,
`B' = [0, 0]`: both calls return the rounded square root of 5 after four
reads. -/
theorem C10_leading_elements_witness :
    ∃ r, calculate_distance_run [ofInt 1, ofInt 2, ofInt 3] [ofInt 0, ofInt 0, ofInt 1] 2
        = ⟨.value r, 2 * (2 : Int).toNat⟩ ∧
      calculate_distance_run [ofInt 1, ofInt 2, ofInt 4, ofInt 5] [ofInt 0, ofInt 0] 2
        = ⟨.value r, 2 * (2 : Int).toNat⟩ ∧
      calculate_distance [ofInt 1, ofInt 2, ofInt 3] [ofInt 0, ofInt 0, ofInt 1] 2 = .value r ∧
      calculate_distance [ofInt 1, ofInt 2, ofInt 4, ofInt 5] [ofInt 0, ofInt 0] 2 = .value r :=
  C10_leading_elements 2 [ofInt 1, ofInt 2, ofInt 3] [ofInt 1, ofInt 2, ofInt 4, ofInt 5]
    [ofInt 0, ofInt 0, ofInt 1] [ofInt 0, ofInt 0]
    (by decide) (by decide) (by decide) (by decide)
    (by intro i hi; have : i = 0 ∨ i = 1 := by omega
        rcases this with rfl | rfl <;> rfl)
    (by intro i hi; have : i = 0 ∨ i = 1 := by omega
        rcases this with rfl | rfl <;> rfl)

set_option maxRecDepth 100000 in
/-- C11, as stated, fails, in either build.  With `A = [4096, 1, 1, 1]`,
`B = [0, 0, 0, 0]`, length 4 and the permutation `s = [1, 2, 3, 0]`, the
reordered vectors are `[1, 1, 1, 4096]` and `B`.  In the given order the sum
stays at `2 ^ 24` (each `+ 1` is rounded away) and the result is `4096`
(`0x45800000`); in the other order the sum `3 + 2 ^ 24` rounds to `2 ^ 24 + 4`
and the result is the next binary32 number, `0x45800001`.  The difference is not
bounded by a rounding tolerance: with `A = [(2 ^ 24 - 1) * 2 ^ 40, e, e, e, e]`,
`e = 5 * 2 ^ 49`, `B` zero and length 5 the result is finite (`0x5F7FFFFF`), and
with the first element moved to the end (`s = [1, 2, 3, 4, 0]`) the sum
overflows and the result is `+∞`. -/
theorem C11_counterexample :
    [1, 2, 3, 0].Perm (List.range 4) ∧
      calculate_distance (reorder [1, 2, 3, 0] [ofInt 4096, ofInt 1, ofInt 1, ofInt 1])
          (reorder [1, 2, 3, 0] [ofInt 0, ofInt 0, ofInt 0, ofInt 0]) 4
        = .value (ofBits 0x45800001) ∧
      calculate_distance [ofInt 4096, ofInt 1, ofInt 1, ofInt 1]
          [ofInt 0, ofInt 0, ofInt 0, ofInt 0] 4 = .value (ofBits 0x45800000) ∧
      calculate_distance_fused (reorder [1, 2, 3, 0] [ofInt 4096, ofInt 1, ofInt 1, ofInt 1])
          (reorder [1, 2, 3, 0] [ofInt 0, ofInt 0, ofInt 0, ofInt 0]) 4
        = .value (ofBits 0x45800001) ∧
      calculate_distance_fused [ofInt 4096, ofInt 1, ofInt 1, ofInt 1]
          [ofInt 0, ofInt 0, ofInt 0, ofInt 0] 4 = .value (ofBits 0x45800000) ∧
      [1, 2, 3, 4, 0].Perm (List.range 5) ∧
      calculate_distance
          (reorder [1, 2, 3, 4, 0] [ofInt 18446742974197923840, ofInt 2814749767106560,
            ofInt 2814749767106560, ofInt 2814749767106560, ofInt 2814749767106560])
          (reorder [1, 2, 3, 4, 0] [ofInt 0, ofInt 0, ofInt 0, ofInt 0, ofInt 0]) 5
        = .value (inf false) ∧
      calculate_distance [ofInt 18446742974197923840, ofInt 2814749767106560,
          ofInt 2814749767106560, ofInt 2814749767106560, ofInt 2814749767106560]
          [ofInt 0, ofInt 0, ofInt 0, ofInt 0, ofInt 0] 5 = .value (ofBits 0x5F7FFFFF) ∧
      calculate_distance_fused
          (reorder [1, 2, 3, 4, 0] [ofInt 18446742974197923840, ofInt 2814749767106560,
            ofInt 2814749767106560, ofInt 2814749767106560, ofInt 2814749767106560])
          (reorder [1, 2, 3, 4, 0] [ofInt 0, ofInt 0, ofInt 0, ofInt 0, ofInt 0]) 5
        = .value (inf false) ∧
      calculate_distance_fused [ofInt 18446742974197923840, ofInt 2814749767106560,
          ofInt 2814749767106560, ofInt 2814749767106560, ofInt 2814749767106560]
          [ofInt 0, ofInt 0, ofInt 0, ofInt 0, ofInt 0] 5 = .value (ofBits 0x5F7FFFFF) := by
  decide

/-- C11, amended: for every length `n`, every permutation `s` of the indices
`0..n-1` and all vectors `A` and `B` of size at least `n`, in either build,
* when the compared elements are integers and the exact sum `S` of their squared
  differences is below `2 ^ 24`, so that no operation before the square root
  rounds, `calculate_distance` applied to `A` and `B` both reordered by `s`
  equals `calculate_distance(A, B, n)`: both are the rounded square root of `S`;
* when the compared elements are finite, no difference other than zero is below
  `2 ^ -63` in magnitude and a result is finite, that result agrees with the
  Euclidean distance within rounding tolerance whatever the order: its square
  is between `(1 - 2 ^ -24) ^ (n + 6) * S` and `(1 + 2 ^ -24) ^ (n + 6) * S`,
  `S` being the exact sum of the squares of the differences.
Beyond that the order matters: the results can differ in the last place, and one
order can overflow where the other does not. -/
theorem C11_reordering (s : List Nat) (n : Nat) (hs : s.Perm (List.range n))
    (A B : List F32) (hA : n ≤ A.length) (hB : n ≤ B.length) :
    ∃ r1 r2 r1' r2', calculate_distance (reorder s A) (reorder s B) n = .value r1 ∧
      calculate_distance A B n = .value r2 ∧
      calculate_distance_fused (reorder s A) (reorder s B) n = .value r1' ∧
      calculate_distance_fused A B n = .value r2' ∧
      (∀ x y : List Int,
        (∀ i, i < n → isInt (A.getD i nan) (x.getD i 0) = true ∧
          isInt (B.getD i nan) (y.getD i 0) = true) →
        intSqSum x y n < 2 ^ 24 →
        r1 = r2 ∧ feq r1 r2 = true ∧ r1' = r2' ∧ feq r1' r2' = true ∧
          r2 = fsqrt (ofInt (intSqSum x y n)) ∧ r2' = r2) ∧
      ((∀ i, i < n → isFinite (A.getD i nan) = true ∧ isFinite (B.getD i nan) = true) →
        (∀ i, i < n → sqSafe (fsub (A.getD i nan) (B.getD i nan)) = true) →
        ∀ v, v = r1 ∨ v = r2 ∨ v = r1' ∨ v = r2' → isFinite v = true →
          (1 - 1 / 2 ^ 24) ^ (n + 6) * exactSqSum A B n ≤ toRat v ^ 2 ∧
            toRat v ^ 2 ≤ (1 + 1 / 2 ^ 24) ^ (n + 6) * exactSqSum A B n) := by
  have hl : s.length = n := by rw [hs.length_eq, List.length_range]
  have h1 : calculate_distance (reorder s A) (reorder s B) n
      = .value (distance (reorder s A) (reorder s B) n) := by
    have := calculate_distance_in_bounds (reorder s A) (reorder s B) n
      (by rw [length_reorder, hl]) (by rw [length_reorder, hl])
    simpa using this
  have h2 : calculate_distance A B n = .value (distance A B n) := by
    have := calculate_distance_in_bounds A B n (by exact_mod_cast hA) (by exact_mod_cast hB)
    simpa using this
  have h3 : calculate_distance_fused (reorder s A) (reorder s B) n
      = .value (distance_fused (reorder s A) (reorder s B) n) := by
    have := calculate_distance_fused_in_bounds (reorder s A) (reorder s B) n
      (by rw [length_reorder, hl]) (by rw [length_reorder, hl])
    simpa using this
  have h4 : calculate_distance_fused A B n = .value (distance_fused A B n) := by
    have := calculate_distance_fused_in_bounds A B n (by exact_mod_cast hA)
      (by exact_mod_cast hB)
    simpa using this
  refine ⟨_, _, _, _, h1, h2, h3, h4, ?_, ?_⟩
  · intro x y hxy hS
    have hxa := fun i hi => (hxy i hi).1
    have hyb := fun i hi => (hxy i hi).2
    have e1 := distance_reorder_int s n hs A B x y hxa hyb hS
    have e2 := distance_fused_reorder_int s n hs A B x y hxa hyb hS
    have e3 := distance_int A B x y n hxa hyb hS
    have e4 := distance_fused_int A B x y n hxa hyb hS
    have hne : fsqrt (ofInt (intSqSum x y n)) ≠ nan := by
      have h0 := intSqSum_nonneg x y n
      rw [← Int.toNat_of_nonneg h0, ofInt_natCast]
      intro h
      have := fsqrt_nonneg _ (nonneg_round (intSqSum x y n).toNat 0)
      rw [h] at this
      simp [nonneg] at this
    refine ⟨e1, ?_, e2, ?_, e3, by rw [e3, e4]⟩
    · rw [e1, e3]; exact feq_self _ hne
    · rw [e2, e4]; exact feq_self _ hne
  · intro hfin hbig v hv hvf
    have hb : ∀ i, i < n → isZero (fsub (A.getD i nan) (B.getD i nan)) = true ∨
        fle (pow2 (-63)) (fabs (fsub (A.getD i nan) (B.getD i nan))) = true :=
      fun i hi => (sqSafe_iff _).1 (hbig i hi)
    obtain ⟨u1, f1⟩ := distance_rel (reorder s A) (reorder s B) n
      (reorder_forall (fun a b => isFinite a = true ∧ isFinite b = true) s n hs A B hfin)
      (reorder_forall (fun a b => isZero (fsub a b) = true ∨
        fle (pow2 (-63)) (fabs (fsub a b)) = true) s n hs A B hb)
    obtain ⟨u2, f2⟩ := distance_rel A B n hfin hb
    rw [exactSqSum_reorder s n hs] at u1 f1
    rcases hv with rfl | rfl | rfl | rfl
    · exact u1 hvf
    · exact u2 hvf
    · exact f1 hvf
    · exact f2 hvf

set_option maxRecDepth 100000 in
/-- C11, amended, at `A = [3, 4, 12]`, `B = [0, 0, 0]`, length 3 and
`s = [2, 0, 1]`: the squared differences sum to 169 in either order, and both
builds return the same datum for both orders. -/
theorem C11_reordering_witness :
    [2, 0, 1].Perm (List.range 3) ∧
      calculate_distance (reorder [2, 0, 1] [ofInt 3, ofInt 4, ofInt 12])
          (reorder [2, 0, 1] [ofInt 0, ofInt 0, ofInt 0]) (3 : Nat)
        = calculate_distance [ofInt 3, ofInt 4, ofInt 12] [ofInt 0, ofInt 0, ofInt 0] (3 : Nat) ∧
      calculate_distance_fused (reorder [2, 0, 1] [ofInt 3, ofInt 4, ofInt 12])
          (reorder [2, 0, 1] [ofInt 0, ofInt 0, ofInt 0]) (3 : Nat)
        = calculate_distance_fused [ofInt 3, ofInt 4, ofInt 12]
            [ofInt 0, ofInt 0, ofInt 0] (3 : Nat) := by
  obtain ⟨r1, r2, r1', r2', h1, h2, h3, h4, hint, _⟩ :=
    C11_reordering [2, 0, 1] 3 (by decide) [ofInt 3, ofInt 4, ofInt 12]
      [ofInt 0, ofInt 0, ofInt 0] (by decide) (by decide)
  obtain ⟨e1, _, e2, _⟩ := hint [3, 4, 12] [0, 0, 0] (by decide) (by decide)
  refine ⟨by decide, ?_, ?_⟩
  · rw [h1, h2, e1]
  · rw [h3, h4, e2]

/-- C12, as stated, fails: the function has no check of its inputs and no way to
report a failure.  With `attempt = [NaN]`, `profile = [0.0]` and length 1 it
reads both elements and returns NaN; with `attempt = [+∞]` it returns `+∞`. -/
theorem C12_counterexample :
    isFinite nan = false ∧ isFinite (inf false) = false ∧
      calculate_distance_run [nan] [zero] 1 = ⟨.value nan, 2⟩ ∧
      calculate_distance_run [inf false] [zero] 1 = ⟨.value (inf false), 2⟩ := by
  decide

/-- C12, amended: for every input within the bounds of both vectors in which some
compared element of `attempt` or `profile` is not a finite number (NaN or an
infinity), the function detects nothing and reports no failure: it reads all
`2 * length` elements and returns a score computed from them, which is NaN when
some compared pair is a NaN pair (an element is NaN, or both are infinities of
the same sign) and `+∞` otherwise. -/
theorem C12_non_finite (a p : List F32) (n : Int) (ha : n ≤ a.length) (hp : n ≤ p.length)
    (hnf : ∃ i, i < n.toNat ∧
      (isFinite (a.getD i nan) = false ∨ isFinite (p.getD i nan) = false)) :
    ∃ r, calculate_distance_run a p n = ⟨.value r, 2 * n.toNat⟩ ∧
      calculate_distance a p n = .value r ∧ (r = nan ∨ r = inf false) ∧
      (r = nan ↔ ∃ i, i < n.toNat ∧ nanPair (a.getD i nan) (p.getD i nan) = true) := by
  refine ⟨distance a p n.toNat, ?_, calculate_distance_in_bounds a p n ha hp, ?_,
    distance_eq_nan_iff a p n.toNat⟩
  · rw [calculate_distance_run_eq, if_pos (by omega)]
  · by_cases h : ∃ i, i < n.toNat ∧ nanPair (a.getD i nan) (p.getD i nan) = true
    · exact Or.inl ((distance_eq_nan_iff a p n.toNat).2 h)
    · right
      push_neg at h
      rw [distance, accumulate_eq_inf a p n.toNat (fun i hi => by simpa using h i hi) hnf,
        fsqrt_inf]

set_option maxRecDepth 100000 in
/-- C12, amended, at `attempt = [3.0, -∞]`, `profile = [0.0, 4.0]`, length 2: a
value is returned after four reads, and it is NaN or `+∞`. -/
theorem C12_non_finite_witness :
    ∃ r, calculate_distance_run [ofInt 3, inf true] [ofInt 0, ofInt 4] 2
        = ⟨.value r, 2 * (2 : Int).toNat⟩ ∧
      calculate_distance [ofInt 3, inf true] [ofInt 0, ofInt 4] 2 = .value r ∧
      (r = nan ∨ r = inf false) ∧
      (r = nan ↔ ∃ i, i < (2 : Int).toNat ∧
        nanPair ([ofInt 3, inf true].getD i nan) ([ofInt 0, ofInt 4].getD i nan) = true) :=
  C12_non_finite [ofInt 3, inf true] [ofInt 0, ofInt 4] 2 (by decide) (by decide)
    ⟨1, by decide, Or.inl (by decide)⟩

set_option maxRecDepth 100000 in
/-- C13, as stated, fails.  For `A = [26, 28]`, `B = [18, 36]`, `C = [17, 37]` and
length 2 the function returns `0x414BA592` (12.7279224, the rounded square root
of 162) for `A`, `C`, `0x413504F3` (11.3137083, of 128) for `A`, `B` and
`0x3FB504F3` (1.41421354, of 2) for `B`, `C`: the three points are on a line,
and the rounded distances violate the inequality, whether their sum is rounded
to binary32 (12.7279215) or taken exactly.  For `A = [-M]`, `B = [0]`, `C = [M]`
with `M = 3 * 2 ^ 62` and length 1 the square of `A[0] - C[0]` overflows and the
function returns `+∞` for `A`, `C`, but `M` for `A`, `B` and for `B`, `C`. -/
theorem C13_counterexample :
    calculate_distance [ofInt 26, ofInt 28] [ofInt 17, ofInt 37] 2
        = .value (ofBits 0x414BA592) ∧
      calculate_distance [ofInt 26, ofInt 28] [ofInt 18, ofInt 36] 2
        = .value (ofBits 0x413504F3) ∧
      calculate_distance [ofInt 18, ofInt 36] [ofInt 17, ofInt 37] 2
        = .value (ofBits 0x3FB504F3) ∧
      fle (ofBits 0x414BA592) (fadd (ofBits 0x413504F3) (ofBits 0x3FB504F3)) = false ∧
      ¬ (toRat (ofBits 0x414BA592)
          ≤ toRat (ofBits 0x413504F3) + toRat (ofBits 0x3FB504F3)) ∧
      calculate_distance [ofInt (-13835058055282163712)] [ofInt 13835058055282163712] 1
        = .value (inf false) ∧
      calculate_distance [ofInt (-13835058055282163712)] [ofInt 0] 1
        = .value (ofInt 13835058055282163712) ∧
      calculate_distance [ofInt 0] [ofInt 13835058055282163712] 1
        = .value (ofInt 13835058055282163712) ∧
      fle (inf false) (fadd (ofInt 13835058055282163712) (ofInt 13835058055282163712))
        = false := by
  have h1 : ofBits 0x414BA592 = fin false ⟨1095476626, by norm_num⟩ := by decide
  have h2 : ofBits 0x413504F3 = fin false ⟨1093993715, by norm_num⟩ := by decide
  have h3 : ofBits 0x3FB504F3 = fin false ⟨1068827891, by norm_num⟩ := by decide
  have m1 : mant 1095476626 = 13346194 := by decide
  have e1 : expo 1095476626 = -20 := by decide
  have m2 : mant 1093993715 = 11863283 := by decide
  have e2 : expo 1093993715 = -20 := by decide
  have m3 : mant 1068827891 = 11863283 := by decide
  have e3 : expo 1068827891 = -23 := by decide
  refine ⟨by decide, by decide, by decide, by decide, ?_, by decide, by decide, by decide,
    by decide⟩
  simp only [h1, h2, h3, toRat, m1, e1, m2, e2, m3, e3]
  norm_num

/-- C13, amended: the triangle inequality `calculate_distance(A, C, n) <=
calculate_distance(A, B, n) + calculate_distance(B, C, n)` holds for every
length `n` and all vectors `A`, `B`, `C` of size at least `n` when the two
distances on the right are computed without rounding: the compared elements are
integers, the sums of the squared differences of `A`, `B` and of `B`, `C` are
perfect squares `a * a` and `b * b`, and `(a + b) ^ 2 < 2 ^ 24`.  The function
then returns `a` and `b` for these, and its result for `A`, `C` is at most
`a + b`, the sum computed in binary32.  When the distances on the right are
rounded, or a square overflows, the inequality can fail. -/
theorem C13_triangle (A B C : List F32) (x y z : List Int) (n a b : Nat)
    (hnA : n ≤ A.length) (hnB : n ≤ B.length) (hnC : n ≤ C.length)
    (hA : ∀ i, i < n → isInt (A.getD i nan) (x.getD i 0) = true)
    (hB : ∀ i, i < n → isInt (B.getD i nan) (y.getD i 0) = true)
    (hC : ∀ i, i < n → isInt (C.getD i nan) (z.getD i 0) = true)
    (hab : intSqSum x y n = (a : Int) * a) (hbc : intSqSum y z n = (b : Int) * b)
    (hs : (a + b) * (a + b) < 2 ^ 24) :
    ∃ r, calculate_distance A C n = .value r ∧
      calculate_distance A B n = .value (ofInt a) ∧
      calculate_distance B C n = .value (ofInt b) ∧
      fle r (fadd (ofInt a) (ofInt b)) = true := by
  have hAC := calculate_distance_in_bounds A C n (by exact_mod_cast hnA) (by exact_mod_cast hnC)
  have hAB := calculate_distance_in_bounds A B n (by exact_mod_cast hnA) (by exact_mod_cast hnB)
  have hBC := calculate_distance_in_bounds B C n (by exact_mod_cast hnB) (by exact_mod_cast hnC)
  rw [Int.toNat_ofNat] at hAC hAB hBC
  obtain ⟨h1, h2, h3⟩ := distance_triangle_int A B C x y z n a b hA hB hC hab hbc hs
  refine ⟨distance A C n, hAC, ?_, ?_, h3⟩
  · rw [hAB, h1]
  · rw [hBC, h2]

set_option maxRecDepth 100000 in
/-- C13, amended, at `A = [0, 0]`, `B = [3, 4]`, `C = [4, 4]`, length 2: the
distances on the right are `5` and `1`, and the distance of `A` and `C`, the
rounded square root of 32, is at most `6`. -/
theorem C13_triangle_witness :
    ∃ r, calculate_distance [ofInt 0, ofInt 0] [ofInt 4, ofInt 4] (2 : Nat) = .value r ∧
      calculate_distance [ofInt 0, ofInt 0] [ofInt 3, ofInt 4] (2 : Nat)
        = .value (ofInt (5 : Nat)) ∧
      calculate_distance [ofInt 3, ofInt 4] [ofInt 4, ofInt 4] (2 : Nat)
        = .value (ofInt (1 : Nat)) ∧
      fle r (fadd (ofInt (5 : Nat)) (ofInt (1 : Nat))) = true :=
  C13_triangle [ofInt 0, ofInt 0] [ofInt 3, ofInt 4] [ofInt 4, ofInt 4]
    [0, 0] [3, 4] [4, 4] 2 5 1 (by decide) (by decide) (by decide)
    (by decide) (by decide) (by decide) (by decide) (by decide) (by decide)

/-- C14: for every negative length and any vectors, empty ones included, the
loop condition `0 < length` is false at once: the loop returns `sqrt(0.0)`
without entering its body whatever the iteration budget, no element of either
vector is read, and `calculate_distance` returns `+0.0`, the same result as for
length 0. -/
theorem C14_negative_length (A B : List F32) (n : Int) (hn : n < 0) :
    (∀ fuel : Nat, loop A B n fuel 0 zero 0 = ⟨.value zero, 0⟩) ∧
      calculate_distance_run A B n = ⟨.value zero, 0⟩ ∧
      calculate_distance A B n = .value zero ∧
      calculate_distance A B n = calculate_distance A B 0 := by
  have h0 : ¬ (0 : Int) < n := by omega
  have hr : calculate_distance_run A B n = ⟨.value zero, 0⟩ := by
    rw [calculate_distance_run, loop_exit A B n _ 0 zero 0 h0, fsqrt_zero]
  refine ⟨fun fuel => ?_, hr, ?_, ?_⟩
  · rw [loop_exit A B n fuel 0 zero 0 h0, fsqrt_zero]
  · rw [calculate_distance, hr]
  · rw [calculate_distance, hr, calculate_distance_eq]
    simp [distance, accumulate_zero, fsqrt_zero]

set_option maxRecDepth 100000 in
/-- C14 at `attempt = [1.0]`, an empty `profile` and length `-3`: the result is
`+0.0` and nothing is read. -/
theorem C14_negative_length_witness :
    (-3 : Int) < 0 ∧ calculate_distance_run [ofInt 1] [] (-3) = ⟨.value zero, 0⟩ :=
  ⟨by decide, (C14_negative_length [ofInt 1] [] (-3) (by decide)).2.1⟩

set_option maxRecDepth 100000 in
/-- C15, as stated, fails twice.  With `A = [1.0, NaN]`, `B = [0.0, 0.0]` the
score is `1.0` for length 1 and NaN for length 2, and `1.0 <= NaN` is false.
With `A = [2 ^ -100]` (bit pattern `0x0D800000`), `B = [0.0]` and length 1 the
square of the difference underflows and the score is `0.0`, less than
`|A[0] - B[0]| = 2 ^ -100`. -/
theorem C15_counterexample :
    calculate_distance [ofInt 1, nan] [ofInt 0, ofInt 0] 1 = .value (ofInt 1) ∧
      calculate_distance [ofInt 1, nan] [ofInt 0, ofInt 0] 2 = .value nan ∧
      fle (ofInt 1) nan = false ∧
      calculate_distance [ofBits 0x0D800000] [ofBits 0] 1 = .value zero ∧
      fle (fabs (fsub (ofBits 0x0D800000) (ofBits 0))) zero = false := by
  decide

/-- C15, amended: for all vectors `A` and `B` and all lengths `m <= n` not
exceeding the size of either vector, when no pair compared below `n` is a NaN
pair (no element is NaN and no two elements compared are infinities of the same
sign; so for all finite data), `calculate_distance(A, B, m) <=
calculate_distance(A, B, n)`.  Consequently, for every index `i < n`, the
rounded square root of the rounded square of `A[i] - B[i]` is at most
`calculate_distance(A, B, n)`; it is `|A[i] - B[i]|` itself when `A[i]` and
`B[i]` are integers less than `2 ^ 12` apart.  In general it can be less than
`|A[i] - B[i]|`, the square being rounded. -/
theorem C15_monotone (A B : List F32) (m n : Nat) (hmn : m ≤ n)
    (hA : n ≤ A.length) (hB : n ≤ B.length)
    (hnp : ∀ i, i < n → nanPair (A.getD i nan) (B.getD i nan) = false) :
    ∃ r1 r2, calculate_distance A B m = .value r1 ∧ calculate_distance A B n = .value r2 ∧
      fle r1 r2 = true ∧
      ∀ i, i < n →
        fle (fsqrt (sqDiff (A.getD i nan) (B.getD i nan))) r2 = true ∧
        ∀ x y : Int, isInt (A.getD i nan) x = true → isInt (B.getD i nan) y = true →
          (x - y).natAbs < 2 ^ 12 →
          fle (fabs (fsub (A.getD i nan) (B.getD i nan))) r2 = true := by
  have h1 := calculate_distance_in_bounds A B m (by exact_mod_cast hmn.trans hA)
    (by exact_mod_cast hmn.trans hB)
  have h2 := calculate_distance_in_bounds A B n (by exact_mod_cast hA) (by exact_mod_cast hB)
  rw [Int.toNat_ofNat] at h1 h2
  refine ⟨distance A B m, distance A B n, h1, h2, distance_le A B m n hmn hnp,
    fun i hi => ⟨fsqrt_sqDiff_le_distance A B n i hi hnp, fun x y hx hy hxy => ?_⟩⟩
  rw [← fsqrt_sqDiff_int _ _ x y hx hy hxy]
  exact fsqrt_sqDiff_le_distance A B n i hi hnp

set_option maxRecDepth 100000 in
/-- C15, amended, at `A = [3, 0]`, `B = [0, 4]`, `m = 1`, `n = 2`: the scores are
`3` and `5`. -/
theorem C15_monotone_witness :
    ∃ r1 r2, calculate_distance [ofInt 3, ofInt 0] [ofInt 0, ofInt 4] (1 : Nat) = .value r1 ∧
      calculate_distance [ofInt 3, ofInt 0] [ofInt 0, ofInt 4] (2 : Nat) = .value r2 ∧
      fle r1 r2 = true :=
  let ⟨r1, r2, h1, h2, h3, _⟩ :=
    C15_monotone [ofInt 3, ofInt 0] [ofInt 0, ofInt 4] 1 2 (by decide) (by decide) (by decide)
      (by decide)
  ⟨r1, r2, h1, h2, h3⟩

end BioKey
